import Mathlib

/-!
# Bencode codec of `go-torrent` (`bencode/bencode.go`, `bencode/parser.go`)

A shallow embedding of the Go package `bencode`.

Conventions of the embedding:

* a byte is a natural number below 256 (`Nat`); a Go `string` / `[]byte` is a `List Nat`;
* Go's `int` is the 64-bit two's complement integer: an `Int` wrapped by `wrap64` after every
  operation that can overflow;
* `bufio.Reader` over a fully buffered input is the list of unread bytes together with the
  reader's `lastByte` field (which `UnreadByte` pushes back); at the end of input the source
  reports `io.EOF`;
* `bufio.Writer` over a sink that never fails is the list of bytes written so far;
* a Go `map[string]*BObject` is an association list with distinct keys kept in insertion
  order; the order in which `range` enumerates it is unspecified in Go and is a parameter
  `order` of `Bencode`;
* a run-time panic, and a loop that does not end, are explicit results (`Run.panic`,
  `Run.outOfFuel`);
* counts of bytes (`len`, `wLen`) stay far below `2 ^ 63` and are not wrapped; memory is
  unbounded: `make` fails only for a negative length.
-/

namespace bencode

/-! ## Errors and run-time failures -/

/-- The error values of the package (`ErrNum` .. `ErrIvd`) and the two errors the
buffered source reports at the end of input (`io.EOF`, `io.ErrUnexpectedEOF`). -/
inductive GoError where
  | ErrNum
  | ErrCol
  | ErrEpI
  | ErrEpE
  | ErrTyp
  | ErrIvd
  | EOF
  | ErrUnexpectedEOF
  deriving DecidableEq, Repr

/-- Run-time panics the Go code can raise. -/
inductive Panic where
  | indexOutOfRange
  | makesliceLen
  | typeAssertion
  | divideByZero
  deriving DecidableEq, Repr

/-- Result of running a Go function: it returns, it panics, or the model ran out of fuel
(the loop was still running when the fuel ended). -/
inductive Run (α : Type) where
  | done (a : α)
  | panic (p : Panic)
  | outOfFuel
  deriving DecidableEq, Repr

/-! ## Machine integers -/

/-- Wrap an integer to the 64-bit two's complement range of Go's `int`. -/
def wrap64 (x : Int) : Int :=
  (x + 9223372036854775808) % 18446744073709551616 - 9223372036854775808

/-- Conversion `byte(x)` of an `int`: the low eight bits. -/
def toByte (x : Int) : Nat := (x % 256).toNat

/-! ## `bufio.Reader` -/

/-- A `bufio.Reader` over a fully buffered input: the unread bytes and the `lastByte`
field (`none` is Go's `-1`). -/
structure Reader where
  buf : List Nat
  lastByte : Option Nat
  deriving DecidableEq, Repr

/-- A fresh `bufio.NewReader` over the bytes `b`. -/
def Reader.new (b : List Nat) : Reader := Reader.mk b none

/-- `ReadByte`: the next byte, or `(0, io.EOF)` at the end of input; a failed read leaves
`lastByte` as it was. -/
def Reader.ReadByte (r : Reader) : Nat × Option GoError × Reader :=
  match r.buf with
  | [] => (0, some GoError.EOF, r)
  | c :: rest => (c, none, Reader.mk rest (some c))

/-- `UnreadByte`: pushes `lastByte` back when there is one (otherwise it returns
`ErrInvalidUnreadByte`, which the callers ignore), and clears it. -/
def Reader.UnreadByte (r : Reader) : Reader :=
  match r.lastByte with
  | none => r
  | some c => Reader.mk (c :: r.buf) none

/-- `Peek(1)`: the slice holding the next byte, or the empty slice and `io.EOF` at the
end of input; it clears `lastByte`. -/
def Reader.Peek1 (r : Reader) : List Nat × Option GoError × Reader :=
  match r.buf with
  | [] => ([], some GoError.EOF, Reader.mk [] none)
  | c :: rest => ([c], none, Reader.mk (c :: rest) none)

/-- `io.ReadAtLeast(br, buf, num)` with `len(buf) = num`: reads until `num` bytes are read or
the input ends. Returns the buffer (zero-filled where nothing was read) and the error:
`nil` when `num` bytes were read (also for `num = 0`, where nothing is read at all),
`io.EOF` when no byte could be read, `io.ErrUnexpectedEOF` when some but fewer than `num`. -/
def Reader.ReadAtLeast (r : Reader) (num : Nat) : List Nat × Option GoError × Reader :=
  if num = 0 then ([], none, r)
  else
    let got := r.buf.take num
    if got.length = 0 then (List.replicate num 0, some GoError.EOF, r)
    else if got.length < num then
      (got ++ List.replicate (num - got.length) 0, some GoError.ErrUnexpectedEOF,
        Reader.mk [] got.getLast?)
    else (got, none, Reader.mk (r.buf.drop num) got.getLast?)

/-! ## `bufio.Writer` -/

/-- A `bufio.Writer` over a sink that never fails: the bytes written so far. -/
abbrev Writer := List Nat

/-- `WriteByte`. -/
def Writer.WriteByte (w : Writer) (c : Nat) : Writer := w ++ [c]

/-- `WriteString`. -/
def Writer.WriteString (w : Writer) (s : List Nat) : Writer := w ++ s

/-! ## The decimal primitive -/

/-- `checkNum`: the byte is an ASCII digit. -/
def checkNum (data : Nat) : Bool := data ≥ 48 && data ≤ 57

/-- The digit loop of `readDecimal`: `b` is the byte just read, `val` and `len` the
accumulators. One step of fuel per byte read; the loop reads at most the whole input plus
one failed read, so `r.buf.length + 1` steps always suffice. -/
def readDecimal.loop (sign : Int) : Nat → Reader → Nat → Int → Int → Run (Int × Int × Reader)
  | 0, _, _, _, _ => Run.outOfFuel
  | fuel + 1, r, b, val, len =>
    if !checkNum b then
      let r := r.UnreadByte
      let len := len - 1
      Run.done (wrap64 (sign * val), len, r)
    else
      let val := wrap64 (wrap64 (val * 10) + ((b : Int) - 48))
      let (b, _, r) := r.ReadByte
      let len := len + 1
      readDecimal.loop sign fuel r b val len

/-- `readDecimal`: an optional `-`, then digits up to the first byte that is not a digit,
which is unread. Returns the value and the number of bytes counted. -/
def readDecimal (r : Reader) : Run (Int × Int × Reader) :=
  let fuel := r.buf.length + 2
  let (b, _, r) := r.ReadByte
  let len : Int := 1
  if b = 45 then
    let (b, _, r) := r.ReadByte
    let len := len + 1
    readDecimal.loop (-1) fuel r b 0 len
  else
    readDecimal.loop 1 fuel r b 0 len

/-- The first loop of `writeDecimal`: multiply `dividend` by ten (wrapping) until it exceeds
`val`, then divide it by ten once. `none` when the fuel ends with the loop still running. -/
def writeDecimal.findDividend : Nat → Int → Int → Option Int
  | 0, _, _ => none
  | fuel + 1, val, dividend =>
    if dividend > val then some (Int.tdiv dividend 10)
    else writeDecimal.findDividend fuel val (wrap64 (dividend * 10))

/-- The second loop of `writeDecimal`: write `val / dividend` as a digit, stop when
`dividend` is one, otherwise continue with `val % dividend` and `dividend / 10`. Go's `/`
and `%` truncate toward zero and panic on a zero divisor. -/
def writeDecimal.digits : Nat → Writer → Int → Int → Int → Run (Int × Writer)
  | 0, _, _, _, _ => Run.outOfFuel
  | fuel + 1, w, len, val, dividend =>
    if dividend = 0 then Run.panic Panic.divideByZero
    else
      let num := toByte (wrap64 (Int.tdiv val dividend))
      let w := w.WriteByte ((48 + num) % 256)
      let len := len + 1
      if dividend = 1 then Run.done (len, w)
      else writeDecimal.digits fuel w len (Int.tmod val dividend) (Int.tdiv dividend 10)

/-- `writeDecimal` with `fuel` iterations allowed to each of its two loops. -/
def writeDecimalFuel (fuel : Nat) (w : Writer) (val : Int) : Run (Int × Writer) :=
  let len : Int := 0
  if val = 0 then
    let w := w.WriteByte 48
    Run.done (len + 1, w)
  else
    let neg : Bool := decide (val < 0)
    let w := if neg then w.WriteByte 45 else w
    let len := if neg then len + 1 else len
    let val := if neg then wrap64 (val * -1) else val
    match writeDecimal.findDividend fuel val 1 with
    | none => Run.outOfFuel
    | some dividend => writeDecimal.digits fuel w len val dividend

/-- `writeDecimal`. The wrapped `dividend` of the first loop is `10 ^ k` modulo `2 ^ 64`,
which is zero from `k = 64` on, and the second loop divides `dividend` by ten each round:
a loop that has not ended after 100 rounds never ends. -/
def writeDecimal (w : Writer) (val : Int) : Run (Int × Writer) :=
  writeDecimalFuel 100 w val

/-! ## The string and integer codecs -/

/-- `EncodeString`: the length in decimal, a colon, the bytes. `bufio.NewWriter` on a
`bufio.Writer` returns that writer, and on a sink that never fails `Flush` returns nil, so
the count is returned. -/
def EncodeString (w : Writer) (val : List Nat) : Run (Int × Writer) :=
  let strLen : Int := val.length
  match writeDecimal w strLen with
  | Run.done (wLen, bw) =>
    let bw := bw.WriteByte 58
    let wLen := wLen + 1
    let bw := bw.WriteString val
    let wLen := wLen + strLen
    Run.done (wLen, bw)
  | Run.panic p => Run.panic p
  | Run.outOfFuel => Run.outOfFuel

/-- `DecodeString`. `make([]byte, num)` panics for a negative `num`; on an error before
the read the named result `val` is still the empty string. -/
def DecodeString (br : Reader) : Run (List Nat × Option GoError × Reader) :=
  match readDecimal br with
  | Run.done (num, len, br) =>
    if len = 0 then Run.done ([], some GoError.ErrNum, br)
    else
      let (b, _, br) := br.ReadByte
      if b ≠ 58 then Run.done ([], some GoError.ErrCol, br)
      else if num < 0 then Run.panic Panic.makesliceLen
      else
        let (buf, err, br) := br.ReadAtLeast num.toNat
        Run.done (buf, err, br)
  | Run.panic p => Run.panic p
  | Run.outOfFuel => Run.outOfFuel

/-- `EncodeInt`: `i`, the decimal, `e`; `Flush` returns nil as in `EncodeString`. -/
def EncodeInt (w : Writer) (val : Int) : Run (Int × Writer) :=
  let wLen : Int := 0
  let bw := w.WriteByte 105
  let wLen := wLen + 1
  match writeDecimal bw val with
  | Run.done (nLen, bw) =>
    let wLen := wLen + nLen
    let bw := bw.WriteByte 101
    let wLen := wLen + 1
    Run.done (wLen, bw)
  | Run.panic p => Run.panic p
  | Run.outOfFuel => Run.outOfFuel

/-- `DecodeInt`: the count of `readDecimal` is discarded, and the error returned with a
final `e` is the (nil) error of the `ReadByte` that read it. -/
def DecodeInt (br : Reader) : Run (Int × Option GoError × Reader) :=
  let (b, _, br) := br.ReadByte
  if b ≠ 105 then Run.done (0, some GoError.ErrEpI, br)
  else
    match readDecimal br with
    | Run.done (val, _, br) =>
      let (b, err, br) := br.ReadByte
      if b ≠ 101 then Run.done (val, some GoError.ErrEpE, br)
      else Run.done (val, err, br)
    | Run.panic p => Run.panic p
    | Run.outOfFuel => Run.outOfFuel

/-! ## The value model -/

/-- `BType` is `uint8`. -/
abbrev BType := Nat

/-- `BSTR`. -/
def BSTR : BType := 1

/-- `BINT`. -/
def BINT : BType := 2

/-- `BLIST`. -/
def BLIST : BType := 3

/-- `BDICT`. -/
def BDICT : BType := 4

mutual
/-- `BValue` is `interface{}`: the dynamic values that occur are `nil`, a `string`, an
`int`, a `[]*BObject` and a `map[string]*BObject` (entries in insertion order). -/
inductive BValue where
  | nil
  | str (s : List Nat)
  | int (n : Int)
  | list (l : List BObject)
  | dict (m : List (List Nat × BObject))
/-- `BObject`: the tag `type_` (a `uint8`) and the payload `val_`, two independent fields. -/
inductive BObject where
  | mk (type_ : BType) (val_ : BValue)
end

/-- A `[]*BObject`. -/
abbrev Objects := List BObject

/-- A `map[string]*BObject`: the entries, with distinct keys, in insertion order. -/
abbrev Entries := List (List Nat × BObject)

/-- Go's `int`. -/
abbrev GoInt := Int

/-- Field `type_`. -/
def BObject.type_ : BObject → BType
  | BObject.mk t _ => t

/-- Field `val_`. -/
def BObject.val_ : BObject → BValue
  | BObject.mk _ v => v

/-- `Str`: the type assertion `o.val_.(string)` panics when the payload is not a string. -/
def BObject.Str (o : BObject) : Run (List Nat × Option GoError) :=
  if o.type_ ≠ BSTR then Run.done ([], some GoError.ErrTyp)
  else match o.val_ with
    | BValue.str s => Run.done (s, none)
    | _ => Run.panic Panic.typeAssertion

/-- `Int`. -/
def BObject.Int (o : BObject) : Run (GoInt × Option GoError) :=
  if o.type_ ≠ BINT then Run.done (0, some GoError.ErrTyp)
  else match o.val_ with
    | BValue.int n => Run.done (n, none)
    | _ => Run.panic Panic.typeAssertion

/-- `List`. -/
def BObject.List (o : BObject) : Run (Objects × Option GoError) :=
  if o.type_ ≠ BLIST then Run.done ([], some GoError.ErrTyp)
  else match o.val_ with
    | BValue.list l => Run.done (l, none)
    | _ => Run.panic Panic.typeAssertion

/-- `Dict`. -/
def BObject.Dict (o : BObject) : Run (Entries × Option GoError) :=
  if o.type_ ≠ BDICT then Run.done ([], some GoError.ErrTyp)
  else match o.val_ with
    | BValue.dict m => Run.done (m, none)
    | _ => Run.panic Panic.typeAssertion

/-! ## The serializer -/

/-- The entries in the order in which `range` enumerates a map. Go leaves that order
unspecified; `order` gives it, from the keys in insertion order, as the list of the
positions to visit. -/
def enumerate {α : Type} (order : List (List Nat) → List Nat) (m : List (List Nat × α)) :
    List (List Nat × α) :=
  (order (m.map Prod.fst)).filterMap (fun i => m[i]?)

/-- An `order` is an enumeration when it visits every position exactly once. -/
def IsEnumeration (order : List (List Nat) → List Nat) : Prop :=
  ∀ ks : List (List Nat), (order ks).Perm (List.range ks.length)

/-- The enumeration in insertion order. -/
def insertionOrder (ks : List (List Nat)) : List Nat := List.range ks.length

/-- The enumeration in reverse insertion order. -/
def reverseOrder (ks : List (List Nat)) : List Nat := (List.range ks.length).reverse

/-- The body of the dictionary loop of `Bencode`, over the enumerated entries; the second
component of an entry is the recursive call `v.Bencode` on its value. -/
def Bencode.dictLoop : List (List Nat × (Writer → Run (GoInt × Writer))) → Writer → GoInt →
    Run (GoInt × Writer)
  | [], bw, wLen => Run.done (wLen, bw)
  | (k, v) :: rest, bw, wLen =>
    match EncodeString bw k with
    | Run.done (n, bw) =>
      let wLen := wLen + n
      match v bw with
      | Run.done (n, bw) =>
        let wLen := wLen + n
        Bencode.dictLoop rest bw wLen
      | Run.panic p => Run.panic p
      | Run.outOfFuel => Run.outOfFuel
    | Run.panic p => Run.panic p
    | Run.outOfFuel => Run.outOfFuel

mutual
/-- `Bencode`: a switch on the tag without a default case. In each case the accessor is
called and its error ignored; since the tag matches, the accessor is the type assertion
on the payload. -/
def BObject.Bencode (order : List (List Nat) → List Nat) : BObject → Writer →
    Run (GoInt × Writer)
  | BObject.mk type_ val_, bw =>
    let wLen : GoInt := 0
    if type_ = BSTR then
      match (BObject.mk type_ val_).Str with
      | Run.done (str, _) =>
        match EncodeString bw str with
        | Run.done (n, bw) => Run.done (wLen + n, bw)
        | Run.panic p => Run.panic p
        | Run.outOfFuel => Run.outOfFuel
      | Run.panic p => Run.panic p
      | Run.outOfFuel => Run.outOfFuel
    else if type_ = BINT then
      match (BObject.mk type_ val_).Int with
      | Run.done (val, _) =>
        match EncodeInt bw val with
        | Run.done (n, bw) => Run.done (wLen + n, bw)
        | Run.panic p => Run.panic p
        | Run.outOfFuel => Run.outOfFuel
      | Run.panic p => Run.panic p
      | Run.outOfFuel => Run.outOfFuel
    else if type_ = BLIST then
      let bw := bw.WriteByte 108
      match val_ with
      | BValue.list list =>
        match Bencode.listLoop order list bw wLen with
        | Run.done (wLen, bw) =>
          let bw := bw.WriteByte 101
          Run.done (wLen + 2, bw)
        | Run.panic p => Run.panic p
        | Run.outOfFuel => Run.outOfFuel
      | _ => Run.panic Panic.typeAssertion
    else if type_ = BDICT then
      let bw := bw.WriteByte 100
      match val_ with
      | BValue.dict dict =>
        match Bencode.dictLoop (enumerate order (Bencode.entries order dict)) bw wLen with
        | Run.done (wLen, bw) =>
          let bw := bw.WriteByte 101
          Run.done (wLen + 2, bw)
        | Run.panic p => Run.panic p
        | Run.outOfFuel => Run.outOfFuel
      | _ => Run.panic Panic.typeAssertion
    else Run.done (wLen, bw)
/-- The list loop of `Bencode`. -/
def Bencode.listLoop (order : List (List Nat) → List Nat) : Objects → Writer → GoInt →
    Run (GoInt × Writer)
  | [], bw, wLen => Run.done (wLen, bw)
  | elem :: rest, bw, wLen =>
    match BObject.Bencode order elem bw with
    | Run.done (n, bw) => Bencode.listLoop order rest bw (wLen + n)
    | Run.panic p => Run.panic p
    | Run.outOfFuel => Run.outOfFuel
/-- The entries of a map, each value replaced by the call `v.Bencode` on it. -/
def Bencode.entries (order : List (List Nat) → List Nat) : Entries →
    List (List Nat × (Writer → Run (GoInt × Writer)))
  | [] => []
  | (k, v) :: rest => (k, fun bw => BObject.Bencode order v bw) :: Bencode.entries order rest
end

/-! ## The parser -/

/-- The assignment `dict[key] = val`: replaces the value of a key that is present, adds
the entry otherwise. -/
def mapAssign : Entries → List Nat → BObject → Entries
  | [], key, val => [(key, val)]
  | (k, v) :: rest, key, val =>
    if k = key then (k, val) :: rest else (k, v) :: mapAssign rest key val

/-- What `Parse` returns, `(&ret, nil)` or `(nil, err)`, and the reader it leaves. -/
abbrev Parsed := Run (Except GoError BObject × Reader)

/-- The list loop of `Parse`; `parse` is the recursive call. `p[0]` on the empty slice
that `Peek` returns at the end of input is an index out of range. -/
def Parse.listLoop (parse : Reader → Parsed) : Nat → Reader → Objects →
    Run (Except GoError Objects × Reader)
  | 0, _, _ => Run.outOfFuel
  | fuel + 1, br, list =>
    match br.Peek1 with
    | ([], _, _) => Run.panic Panic.indexOutOfRange
    | (p0 :: _, _, br) =>
      if p0 = 101 then
        let (_, _, br) := br.ReadByte
        Run.done (Except.ok list, br)
      else
        match parse br with
        | Run.done (Except.error err, br) => Run.done (Except.error err, br)
        | Run.done (Except.ok elem, br) => Parse.listLoop parse fuel br (list ++ [elem])
        | Run.panic p => Run.panic p
        | Run.outOfFuel => Run.outOfFuel

/-- The dictionary loop of `Parse`. -/
def Parse.dictLoop (parse : Reader → Parsed) : Nat → Reader → Entries →
    Run (Except GoError Entries × Reader)
  | 0, _, _ => Run.outOfFuel
  | fuel + 1, br, dict =>
    match br.Peek1 with
    | ([], _, _) => Run.panic Panic.indexOutOfRange
    | (p0 :: _, _, br) =>
      if p0 = 101 then
        let (_, _, br) := br.ReadByte
        Run.done (Except.ok dict, br)
      else
        match DecodeString br with
        | Run.done (_, some err, br) => Run.done (Except.error err, br)
        | Run.done (key, none, br) =>
          match parse br with
          | Run.done (Except.error err, br) => Run.done (Except.error err, br)
          | Run.done (Except.ok val, br) => Parse.dictLoop parse fuel br (mapAssign dict key val)
          | Run.panic p => Run.panic p
          | Run.outOfFuel => Run.outOfFuel
        | Run.panic p => Run.panic p
        | Run.outOfFuel => Run.outOfFuel

/-- `Parse` with `fuel` levels of nesting and `fuel` rounds of each loop allowed. -/
def ParseFuel : Nat → Reader → Parsed
  | 0, _ => Run.outOfFuel
  | fuel + 1, br =>
    match br.Peek1 with
    | (_, some err, br) => Run.done (Except.error err, br)
    | ([], none, _) => Run.panic Panic.indexOutOfRange
    | (b0 :: _, none, br) =>
      if b0 ≥ 48 ∧ b0 ≤ 57 then
        match DecodeString br with
        | Run.done (_, some err, br) => Run.done (Except.error err, br)
        | Run.done (val, none, br) => Run.done (Except.ok (BObject.mk BSTR (BValue.str val)), br)
        | Run.panic p => Run.panic p
        | Run.outOfFuel => Run.outOfFuel
      else if b0 = 105 then
        match DecodeInt br with
        | Run.done (_, some err, br) => Run.done (Except.error err, br)
        | Run.done (val, none, br) => Run.done (Except.ok (BObject.mk BINT (BValue.int val)), br)
        | Run.panic p => Run.panic p
        | Run.outOfFuel => Run.outOfFuel
      else if b0 = 108 then
        let (_, _, br) := br.ReadByte
        match Parse.listLoop (ParseFuel fuel) fuel br [] with
        | Run.done (Except.error err, br) => Run.done (Except.error err, br)
        | Run.done (Except.ok list, br) =>
          Run.done (Except.ok (BObject.mk BLIST (BValue.list list)), br)
        | Run.panic p => Run.panic p
        | Run.outOfFuel => Run.outOfFuel
      else if b0 = 100 then
        let (_, _, br) := br.ReadByte
        match Parse.dictLoop (ParseFuel fuel) fuel br [] with
        | Run.done (Except.error err, br) => Run.done (Except.error err, br)
        | Run.done (Except.ok dict, br) =>
          Run.done (Except.ok (BObject.mk BDICT (BValue.dict dict)), br)
        | Run.panic p => Run.panic p
        | Run.outOfFuel => Run.outOfFuel
      else Run.done (Except.error GoError.ErrIvd, br)

/-- `Parse` on a buffered reader. Every nested call and every round of a loop that goes
on has consumed a byte, so the number of unread bytes plus one is fuel enough. -/
def Parse (br : Reader) : Parsed := ParseFuel (br.buf.length + 1) br

/-- The bytes of an ASCII text. -/
def bytes (s : String) : List Nat := s.toList.map Char.toNat

/-- ASCII decimal digits of a natural number, most significant first, without leading
zeros; `0` is the single digit `0`. -/
def decimalDigits (n : Nat) : List Nat :=
  if n < 10 then [48 + n] else decimalDigits (n / 10) ++ [48 + n % 10]
decreasing_by omega

/-- The canonical decimal text of an integer: the digits of `|n|`, after a `-` when
`n < 0`. -/
def canonicalDecimal (n : Int) : List Nat :=
  if n < 0 then 45 :: decimalDigits n.natAbs else decimalDigits n.natAbs

/-- The `m` low decimal digits of `v`, most significant first, zero padded. -/
def padDigits : Nat → Nat → List Nat
  | 0, _ => []
  | m + 1, v => (48 + v / 10 ^ m) :: padDigits m (v % 10 ^ m)

/-- The number a run of ASCII digits denotes, continuing from `acc`. -/
def digitsVal (acc : Nat) (ds : List Nat) : Nat :=
  ds.foldl (fun a d => a * 10 + (d - 48)) acc

/-- The reference encoding of a byte string: its length in canonical decimal, a colon,
the bytes. -/
def encString (s : List Nat) : List Nat := canonicalDecimal (s.length : Int) ++ [58] ++ s

/-- The reference encoding of an integer: `i`, its canonical decimal, `e`. -/
def encInt (n : Int) : List Nat := [105] ++ canonicalDecimal n ++ [101]

/-- The concatenation of the encoded entries of a dictionary: for each entry the key as a
string, then the encoding of the value. -/
def encChunks : List (List Nat × List Nat) → List Nat
  | [] => []
  | (k, c) :: rest => encString k ++ c ++ encChunks rest

mutual
/-- The reference Bencode encoding `enc`: a string is `encString`, an integer `encInt`, a
list `l`, the encodings of its elements in order, `e`; a dictionary `d`, for each entry in
the mapping's enumeration order the key as a string and the encoding of the value, `e`. -/
def enc (order : List (List Nat) → List Nat) : BObject → List Nat
  | BObject.mk _ (BValue.str s) => encString s
  | BObject.mk _ (BValue.int n) => encInt n
  | BObject.mk _ (BValue.list l) => 108 :: (enc.list order l ++ [101])
  | BObject.mk _ (BValue.dict m) =>
    100 :: (encChunks (enumerate order (enc.entries order m)) ++ [101])
  | BObject.mk _ BValue.nil => []
/-- The encodings of the elements of a list, concatenated in order. -/
def enc.list (order : List (List Nat) → List Nat) : Objects → List Nat
  | [] => []
  | x :: xs => enc order x ++ enc.list order xs
/-- The entries of a dictionary, each value replaced by its encoding. -/
def enc.entries (order : List (List Nat) → List Nat) : Entries → List (List Nat × List Nat)
  | [] => []
  | (k, v) :: rest => (k, enc order v) :: enc.entries order rest
end

mutual
/-- The tag of the object and of every descendant matches its payload. -/
def typed : BObject → Bool
  | BObject.mk t (BValue.str _) => t == BSTR
  | BObject.mk t (BValue.int _) => t == BINT
  | BObject.mk t (BValue.list l) => t == BLIST && typed.list l
  | BObject.mk t (BValue.dict m) => t == BDICT && typed.entries m
  | BObject.mk _ BValue.nil => false
/-- Every element is `typed`. -/
def typed.list : Objects → Bool
  | [] => true
  | x :: xs => typed x && typed.list xs
/-- Every value is `typed`. -/
def typed.entries : Entries → Bool
  | [] => true
  | (_, v) :: rest => typed v && typed.entries rest
end

mutual
/-- Every integer of the tree has magnitude below `10 ^ 18` and every string and key is
shorter than `10 ^ 18` bytes. -/
def bounded : BObject → Bool
  | BObject.mk _ (BValue.str s) => decide (s.length < 1000000000000000000)
  | BObject.mk _ (BValue.int n) =>
    decide (-1000000000000000000 < n) && decide (n < 1000000000000000000)
  | BObject.mk _ (BValue.list l) => bounded.list l
  | BObject.mk _ (BValue.dict m) => bounded.entries m
  | BObject.mk _ BValue.nil => true
/-- Every element is `bounded`. -/
def bounded.list : Objects → Bool
  | [] => true
  | x :: xs => bounded x && bounded.list xs
/-- Every key is shorter than `10 ^ 18` bytes and every value is `bounded`. -/
def bounded.entries : Entries → Bool
  | [] => true
  | (k, v) :: rest => decide (k.length < 1000000000000000000) && bounded v && bounded.entries rest
end

/-- The bytes `chunk` are one complete value for `parse`: they do not start with `e`, and
whatever follows them, `parse` returns `x` and leaves exactly what follows unread. -/
def ParsesTo (parse : Reader → Parsed) (chunk : List Nat) (x : BObject) : Prop :=
  (∃ c rest, chunk = c :: rest ∧ c ≠ 101) ∧
  ∀ (t : List Nat) (lb : Option Nat), ∃ lb',
    parse (Reader.mk (chunk ++ t) lb) = Run.done (Except.ok x, Reader.mk t lb')

/-- The members of a list, as bytes: the chunks in order. -/
def listBody : List (List Nat × BObject) → List Nat
  | [] => []
  | (c, _) :: rest => c ++ listBody rest

/-- The members of a dictionary, as bytes: for each entry the key as a string, then the
chunk of the value. -/
def dictBody : List (List Nat × List Nat × BObject) → List Nat
  | [] => []
  | (k, c, _) :: rest => encString k ++ (c ++ dictBody rest)

mutual
/-- No dictionary of the tree has two entries with the same key. -/
def distinctKeys : BObject → Bool
  | BObject.mk _ (BValue.list l) => distinctKeys.list l
  | BObject.mk _ (BValue.dict m) => decide (m.map Prod.fst).Nodup && distinctKeys.entries m
  | BObject.mk _ (BValue.str _) => true
  | BObject.mk _ (BValue.int _) => true
  | BObject.mk _ BValue.nil => true
/-- Every element has `distinctKeys`. -/
def distinctKeys.list : Objects → Bool
  | [] => true
  | x :: xs => distinctKeys x && distinctKeys.list xs
/-- Every value has `distinctKeys`. -/
def distinctKeys.entries : Entries → Bool
  | [] => true
  | (_, v) :: rest => distinctKeys v && distinctKeys.entries rest
end

mutual
/-- The tree with the entries of every dictionary in the order in which `order` enumerates
them: the same lists and the same key-to-value mappings, stored in enumeration order. -/
def reenumerate (order : List (List Nat) → List Nat) : BObject → BObject
  | BObject.mk t (BValue.list l) => BObject.mk t (BValue.list (reenumerate.list order l))
  | BObject.mk t (BValue.dict m) =>
    BObject.mk t (BValue.dict (enumerate order (reenumerate.entries order m)))
  | BObject.mk t (BValue.str s) => BObject.mk t (BValue.str s)
  | BObject.mk t (BValue.int n) => BObject.mk t (BValue.int n)
  | BObject.mk t BValue.nil => BObject.mk t BValue.nil
/-- Every element reenumerated. -/
def reenumerate.list (order : List (List Nat) → List Nat) : Objects → Objects
  | [] => []
  | x :: xs => reenumerate order x :: reenumerate.list order xs
/-- Every value reenumerated. -/
def reenumerate.entries (order : List (List Nat) → List Nat) : Entries → Entries
  | [] => []
  | (k, v) :: rest => (k, reenumerate order v) :: reenumerate.entries order rest
end

mutual
/-- Structural equality of two trees: equal strings and integers, lists equal element by
element in the same order, dictionaries equal as key-to-value mappings (the same keys,
and every key mapped to equal values), whatever the order of their entries. -/
def sameTree : BObject → BObject → Prop
  | BObject.mk t (BValue.str s), o => o = BObject.mk t (BValue.str s)
  | BObject.mk t (BValue.int n), o => o = BObject.mk t (BValue.int n)
  | BObject.mk t (BValue.list l), o =>
    ∃ l', o = BObject.mk t (BValue.list l') ∧ sameTree.list l l'
  | BObject.mk t (BValue.dict m), o =>
    ∃ m', o = BObject.mk t (BValue.dict m') ∧ (m.map Prod.fst).Perm (m'.map Prod.fst)
      ∧ sameTree.entries m m'
  | BObject.mk t BValue.nil, o => o = BObject.mk t BValue.nil
/-- The two lists have the same length and equal elements at every position. -/
def sameTree.list : Objects → Objects → Prop
  | [], l' => l' = []
  | x :: xs, l' => ∃ y ys, l' = y :: ys ∧ sameTree x y ∧ sameTree.list xs ys
/-- Every entry of the first dictionary has its key mapped to an equal value by the
second. -/
def sameTree.entries : Entries → Entries → Prop
  | [], _ => True
  | (k, v) :: rest, m' => (∃ v', m'.lookup k = some v' ∧ sameTree v v') ∧ sameTree.entries rest m'
end

/-- A tree with two nested dictionaries, a list, strings and a negative integer. -/
def sampleTree : BObject :=
  BObject.mk BDICT (BValue.dict [
    (bytes "cow", BObject.mk BSTR (BValue.str (bytes "moo"))),
    (bytes "a", BObject.mk BLIST (BValue.list [
      BObject.mk BINT (BValue.int (-42)),
      BObject.mk BSTR (BValue.str []),
      BObject.mk BDICT (BValue.dict [
        (bytes "x", BObject.mk BINT (BValue.int 0)),
        (bytes "", BObject.mk BLIST (BValue.list []))])])),
    (bytes "spam", BObject.mk BINT (BValue.int 1234567890))])

mutual
/-- The object and all its descendants: the elements of a list, the values of a
dictionary, and theirs. -/
def descendants : BObject → Objects
  | BObject.mk t (BValue.list l) => BObject.mk t (BValue.list l) :: descendants.list l
  | BObject.mk t (BValue.dict m) => BObject.mk t (BValue.dict m) :: descendants.entries m
  | BObject.mk t (BValue.str s) => [BObject.mk t (BValue.str s)]
  | BObject.mk t (BValue.int n) => [BObject.mk t (BValue.int n)]
  | BObject.mk t BValue.nil => [BObject.mk t BValue.nil]
/-- The descendants of the elements of a list. -/
def descendants.list : Objects → Objects
  | [] => []
  | x :: xs => descendants x ++ descendants.list xs
/-- The descendants of the values of a dictionary. -/
def descendants.entries : Entries → Objects
  | [] => []
  | (_, v) :: rest => descendants v ++ descendants.entries rest
end

/-- Exactly the accessor matching the tag of `o` succeeds: it returns the payload and a
nil error, and each of the other three returns its zero result and `ErrTyp`. -/
def AccessorsMatchTag (o : BObject) : Prop :=
  (∃ s, o = BObject.mk BSTR (BValue.str s)
      ∧ o.Str = Run.done (s, none) ∧ o.Int = Run.done (0, some GoError.ErrTyp)
      ∧ o.List = Run.done ([], some GoError.ErrTyp)
      ∧ o.Dict = Run.done ([], some GoError.ErrTyp))
  ∨ (∃ n, o = BObject.mk BINT (BValue.int n)
      ∧ o.Str = Run.done ([], some GoError.ErrTyp) ∧ o.Int = Run.done (n, none)
      ∧ o.List = Run.done ([], some GoError.ErrTyp)
      ∧ o.Dict = Run.done ([], some GoError.ErrTyp))
  ∨ (∃ l, o = BObject.mk BLIST (BValue.list l)
      ∧ o.Str = Run.done ([], some GoError.ErrTyp)
      ∧ o.Int = Run.done (0, some GoError.ErrTyp) ∧ o.List = Run.done (l, none)
      ∧ o.Dict = Run.done ([], some GoError.ErrTyp))
  ∨ (∃ m, o = BObject.mk BDICT (BValue.dict m)
      ∧ o.Str = Run.done ([], some GoError.ErrTyp)
      ∧ o.Int = Run.done (0, some GoError.ErrTyp)
      ∧ o.List = Run.done ([], some GoError.ErrTyp) ∧ o.Dict = Run.done (m, none))

/-- The bytes `chunk` are one complete encoded value that `Parse` decodes to `x`: with
fuel beyond their length they parse to `x`, whatever follows them, leaving what follows
unread. -/
def Decodes (chunk : List Nat) (x : BObject) : Prop :=
  ∀ fuel : Nat, chunk.length < fuel → ParsesTo (ParseFuel fuel) chunk x

/-- Keys compared by raw byte value: `a` comes strictly before `b` in lexicographic
order. -/
def keyLt : List Nat → List Nat → Bool
  | [], [] => false
  | [], _ :: _ => true
  | _ :: _, [] => false
  | a :: as, b :: bs => decide (a < b) || (a == b && keyLt as bs)

/-- The keys are sorted by raw byte value: no key comes strictly before its
predecessor. -/
def sortedKeyList : List (List Nat) → Bool
  | [] => true
  | [_] => true
  | a :: b :: rest => !keyLt b a && sortedKeyList (b :: rest)

mutual
/-- Every dictionary of the tree has its keys sorted by raw byte value. -/
def sortedKeys : BObject → Bool
  | BObject.mk _ (BValue.list l) => sortedKeys.list l
  | BObject.mk _ (BValue.dict m) => sortedKeyList (m.map Prod.fst) && sortedKeys.entries m
  | BObject.mk _ (BValue.str _) => true
  | BObject.mk _ (BValue.int _) => true
  | BObject.mk _ BValue.nil => true
/-- Every element has `sortedKeys`. -/
def sortedKeys.list : Objects → Bool
  | [] => true
  | x :: xs => sortedKeys x && sortedKeys.list xs
/-- Every value has `sortedKeys`. -/
def sortedKeys.entries : Entries → Bool
  | [] => true
  | (_, v) :: rest => sortedKeys v && sortedKeys.entries rest
end

/-- The tree of the canonical bytes `d1:ai1e1:bi2ee`. -/
def twoKeys : BObject :=
  BObject.mk BDICT (BValue.dict [
    (bytes "a", BObject.mk BINT (BValue.int 1)),
    (bytes "b", BObject.mk BINT (BValue.int 2))])

/-- A tree whose dictionaries have sorted keys. -/
def sortedTree : BObject :=
  BObject.mk BDICT (BValue.dict [
    (bytes "a", BObject.mk BLIST (BValue.list [
      BObject.mk BINT (BValue.int (-42)),
      BObject.mk BDICT (BValue.dict [
        (bytes "", BObject.mk BLIST (BValue.list [])),
        (bytes "x", BObject.mk BINT (BValue.int 0))])])),
    (bytes "cow", BObject.mk BSTR (BValue.str (bytes "moo"))),
    (bytes "spam", BObject.mk BINT (BValue.int 1234567890))])

/-- The number that a run of ASCII digits denotes in base ten (leading zeros allowed). -/
def decimalValue (ds : List Nat) : Nat :=
  Nat.ofDigits 10 ((ds.map (fun d => d - 48)).reverse)

/-- The bytes a reader can still deliver: the unread ones, and the one `UnreadByte` would
push back. -/
def Reader.pending (r : Reader) : Nat :=
  r.buf.length + (if r.lastByte.isSome then 1 else 0)

/-! ## The string decoder and the parser with the allocator's limit -/

/-- The runtime's `maxAlloc` on linux/amd64, `2 ^ 48`: `makeslice` panics (len out of
range) when asked for more bytes. -/
def maxAlloc : Nat := 281474976710656

/-- `DecodeString` with the allocator made explicit. `make([]byte, num)` returns a buffer
for `0 ≤ num ≤ limit` and fails at run time otherwise: `limit` is the largest length for
which the runtime grants a buffer, `maxAlloc` at most and less when memory is short (above
`maxAlloc` the failure is the panic of `makeslice`, below it a fatal out-of-memory error).
Everything else is as in `DecodeString`. -/
def DecodeStringWithin (limit : Nat) (br : Reader) :
    Run (List Nat × Option GoError × Reader) :=
  match readDecimal br with
  | Run.done (num, len, br) =>
    if len = 0 then Run.done ([], some GoError.ErrNum, br)
    else
      let (b, _, br) := br.ReadByte
      if b ≠ 58 then Run.done ([], some GoError.ErrCol, br)
      else if num < 0 ∨ (limit : Int) < num then Run.panic Panic.makesliceLen
      else
        let (buf, err, br) := br.ReadAtLeast num.toNat
        Run.done (buf, err, br)
  | Run.panic p => Run.panic p
  | Run.outOfFuel => Run.outOfFuel

/-- The dictionary loop of `Parse`, its keys read by `DecodeStringWithin limit`. -/
def Parse.dictLoopWithin (limit : Nat) (parse : Reader → Parsed) : Nat → Reader → Entries →
    Run (Except GoError Entries × Reader)
  | 0, _, _ => Run.outOfFuel
  | fuel + 1, br, dict =>
    match br.Peek1 with
    | ([], _, _) => Run.panic Panic.indexOutOfRange
    | (p0 :: _, _, br) =>
      if p0 = 101 then
        let (_, _, br) := br.ReadByte
        Run.done (Except.ok dict, br)
      else
        match DecodeStringWithin limit br with
        | Run.done (_, some err, br) => Run.done (Except.error err, br)
        | Run.done (key, none, br) =>
          match parse br with
          | Run.done (Except.error err, br) => Run.done (Except.error err, br)
          | Run.done (Except.ok val, br) =>
            Parse.dictLoopWithin limit parse fuel br (mapAssign dict key val)
          | Run.panic p => Run.panic p
          | Run.outOfFuel => Run.outOfFuel
        | Run.panic p => Run.panic p
        | Run.outOfFuel => Run.outOfFuel

/-- `Parse` with `fuel` levels of nesting and rounds, its strings read by
`DecodeStringWithin limit`. -/
def ParseFuelWithin (limit : Nat) : Nat → Reader → Parsed
  | 0, _ => Run.outOfFuel
  | fuel + 1, br =>
    match br.Peek1 with
    | (_, some err, br) => Run.done (Except.error err, br)
    | ([], none, _) => Run.panic Panic.indexOutOfRange
    | (b0 :: _, none, br) =>
      if b0 ≥ 48 ∧ b0 ≤ 57 then
        match DecodeStringWithin limit br with
        | Run.done (_, some err, br) => Run.done (Except.error err, br)
        | Run.done (val, none, br) => Run.done (Except.ok (BObject.mk BSTR (BValue.str val)), br)
        | Run.panic p => Run.panic p
        | Run.outOfFuel => Run.outOfFuel
      else if b0 = 105 then
        match DecodeInt br with
        | Run.done (_, some err, br) => Run.done (Except.error err, br)
        | Run.done (val, none, br) => Run.done (Except.ok (BObject.mk BINT (BValue.int val)), br)
        | Run.panic p => Run.panic p
        | Run.outOfFuel => Run.outOfFuel
      else if b0 = 108 then
        let (_, _, br) := br.ReadByte
        match Parse.listLoop (ParseFuelWithin limit fuel) fuel br [] with
        | Run.done (Except.error err, br) => Run.done (Except.error err, br)
        | Run.done (Except.ok list, br) =>
          Run.done (Except.ok (BObject.mk BLIST (BValue.list list)), br)
        | Run.panic p => Run.panic p
        | Run.outOfFuel => Run.outOfFuel
      else if b0 = 100 then
        let (_, _, br) := br.ReadByte
        match Parse.dictLoopWithin limit (ParseFuelWithin limit fuel) fuel br [] with
        | Run.done (Except.error err, br) => Run.done (Except.error err, br)
        | Run.done (Except.ok dict, br) =>
          Run.done (Except.ok (BObject.mk BDICT (BValue.dict dict)), br)
        | Run.panic p => Run.panic p
        | Run.outOfFuel => Run.outOfFuel
      else Run.done (Except.error GoError.ErrIvd, br)

/-- `Parse` on a buffered reader, with the allocator's limit. -/
def ParseWithin (limit : Nat) (br : Reader) : Parsed :=
  ParseFuelWithin limit (br.buf.length + 1) br

/-! # Theorems -/

/-! ## Errors at the first byte -/

/-- C7 (as stated, refuted): `Parse` on the empty input does not return `ErrIvd`. -/
theorem parse_empty_not_ErrIvd :
    ¬ ∃ r, Parse (Reader.new []) = Run.done (Except.error GoError.ErrIvd, r) := by
  rintro ⟨r, h⟩
  simp [Parse, ParseFuel, Reader.new, Reader.Peek1] at h

/-- C7 (amended): on the empty input `Parse` returns the error of the failed `Peek`, the
source's `io.EOF`, and no value; nothing is consumed. -/
theorem parse_empty_EOF (lastByte : Option Nat) :
    Parse (Reader.mk [] lastByte) = Run.done (Except.error GoError.EOF, Reader.mk [] none) := by
  simp [Parse, ParseFuel, Reader.Peek1]

/-- C8: when the first byte is neither an ASCII digit nor `i`, `l`, `d`, `Parse` returns
`ErrIvd` and no value, whatever follows; nothing is consumed. -/
theorem parse_unrecognized_leading_byte (b0 : Nat) (rest : List Nat) (lastByte : Option Nat)
    (hdigit : ¬ (48 ≤ b0 ∧ b0 ≤ 57)) (hi : b0 ≠ 105) (hl : b0 ≠ 108) (hd : b0 ≠ 100) :
    Parse (Reader.mk (b0 :: rest) lastByte)
      = Run.done (Except.error GoError.ErrIvd, Reader.mk (b0 :: rest) none) := by
  simp [Parse, ParseFuel, Reader.Peek1, hi, hl, hd]
  intro h1 h2
  exact absurd ⟨h1, h2⟩ hdigit

/-- C8, at the input `x-e`. -/
theorem parse_unrecognized_leading_byte_witness :
    Parse (Reader.mk (bytes "x-e") none)
      = Run.done (Except.error GoError.ErrIvd, Reader.mk (bytes "x-e") none) :=
  parse_unrecognized_leading_byte 120 (bytes "-e") none (by decide) (by decide) (by decide)
    (by decide)

/-! ## Run-time failures of `Parse` -/

/-- C3 (the code at the failing inputs): on `l` the lookahead `p[0]` of the list loop
indexes the empty slice and `Parse` panics; on `d-1:e` the key's length is negative and
`make` panics. -/
theorem parse_panics :
    Parse (Reader.new (bytes "l")) = Run.panic Panic.indexOutOfRange
    ∧ Parse (Reader.new (bytes "d-1:e")) = Run.panic Panic.makesliceLen := ⟨rfl, rfl⟩

/-- C6 (the code at the failing inputs): on the unterminated containers `l4:spam`,
`d3:cow3:moo` and `d` the lookahead of the loop panics instead of returning the
end-of-input error. -/
theorem parse_unterminated_container_panics :
    Parse (Reader.new (bytes "l4:spam")) = Run.panic Panic.indexOutOfRange
    ∧ Parse (Reader.new (bytes "d3:cow3:moo")) = Run.panic Panic.indexOutOfRange
    ∧ Parse (Reader.new (bytes "d")) = Run.panic Panic.indexOutOfRange := ⟨rfl, rfl, rfl⟩

/-! ## The decimal primitive -/

theorem wrap64_eq {x : Int} (h1 : -9223372036854775808 ≤ x) (h2 : x < 9223372036854775808) :
    wrap64 x = x := by
  unfold wrap64; omega

theorem pow10_le_18 {j : Nat} (h : j ≤ 18) : 10 ^ j ≤ 10 ^ 18 :=
  Nat.pow_le_pow_right (by decide) h

theorem findDividend_pow (v : Nat) (hv : v < 10 ^ 18) :
    ∀ (fuel j : Nat), 10 ^ j ≤ 10 * v → 19 ≤ fuel + j →
      ∃ m, writeDecimal.findDividend fuel (v : Int) ((10 ^ j : Nat) : Int)
          = some ((10 ^ m : Nat) : Int) ∧ 10 ^ m ≤ v ∧ v < 10 ^ (m + 1) := by
  intro fuel
  induction fuel with
  | zero =>
    intro j hj hf
    exfalso
    have h1 : 10 ^ 19 ≤ 10 ^ j := Nat.pow_le_pow_right (by decide) (by omega)
    have : (10:Nat) ^ 19 = 10 * 10 ^ 18 := by norm_num
    omega
  | succ fuel ih =>
    intro j hj hf
    unfold writeDecimal.findDividend
    by_cases hgt : ((10 ^ j : Nat) : Int) > (v : Int)
    · rw [if_pos hgt]
      have hgt' : v < 10 ^ j := by exact_mod_cast hgt
      cases j with
      | zero => simp at hgt'; simp [hgt'] at hj
      | succ j =>
        refine ⟨j, ?_, ?_, hgt'⟩
        · rw [Int.tdiv_eq_ediv (Int.natCast_nonneg _) (by norm_num)]
          push_cast
          rw [pow_succ]
          rw [Int.mul_ediv_cancel _ (by decide : (10 : Int) ≠ 0)]
        · rw [Nat.pow_succ] at hj; omega
    · rw [if_neg hgt]
      have hle : 10 ^ j ≤ v := by
        have : ¬ (v < 10 ^ j) := fun h => hgt (by exact_mod_cast h)
        omega
      have hj18 : j + 1 ≤ 18 := by
        by_contra hc
        have : 10 ^ 18 ≤ 10 ^ j := Nat.pow_le_pow_right (by decide) (by omega)
        omega
      have hp : 10 ^ (j + 1) ≤ 10 ^ 18 := pow10_le_18 hj18
      have hw : wrap64 (((10 ^ j : Nat) : Int) * 10) = ((10 ^ (j + 1) : Nat) : Int) := by
        have he : ((10 ^ j : Nat) : Int) * 10 = ((10 ^ (j + 1) : Nat) : Int) := by
          push_cast; ring
        rw [he]
        have hpI : ((10 ^ (j + 1) : Nat) : Int) ≤ 1000000000000000000 := by
          have : ((10 ^ (j + 1) : Nat) : Int) ≤ ((10 ^ 18 : Nat) : Int) := Int.ofNat_le.mpr hp
          simpa using this
        have h0 : (0 : Int) ≤ ((10 ^ (j + 1) : Nat) : Int) := Int.natCast_nonneg _
        generalize ((10 ^ (j + 1) : Nat) : Int) = x at hpI h0
        apply wrap64_eq <;> omega
      rw [hw]
      apply ih (j + 1)
      · rw [Nat.pow_succ]; omega
      · omega

theorem toByte_wrap64_digit (q : Nat) (h : q < 10) : toByte (wrap64 (q : Int)) = q := by
  rw [wrap64_eq (by omega) (by omega)]
  unfold toByte; omega

theorem digits_pad : ∀ (m fuel : Nat) (w : Writer) (len : Int) (v : Nat),
    v < 10 ^ (m + 1) → m < fuel →
    writeDecimal.digits fuel w len (v : Int) ((10 ^ m : Nat) : Int)
      = Run.done (len + ((m + 1 : Nat) : Int), w ++ padDigits (m + 1) v) := by
  intro m
  induction m with
  | zero =>
    intro fuel w len v hv hf
    obtain ⟨fuel, rfl⟩ : ∃ f, fuel = f + 1 := ⟨fuel - 1, by omega⟩
    have hv' : v < 10 := by simpa using hv
    have hb : toByte (wrap64 (v : Int)) = v := toByte_wrap64_digit _ hv'
    simp [writeDecimal.digits, padDigits, Writer.WriteByte, hb]
    omega
  | succ m ih =>
    intro fuel w len v hv hf
    obtain ⟨fuel, rfl⟩ : ∃ f, fuel = f + 1 := ⟨fuel - 1, by omega⟩
    have hpos : 0 < 10 ^ (m + 1) := Nat.pos_pow_of_pos _ (by decide)
    have hq : v / 10 ^ (m + 1) < 10 := by
      rw [Nat.div_lt_iff_lt_mul hpos]
      rw [Nat.pow_succ] at hv; omega
    have hne0 : ((10 ^ (m + 1) : Nat) : Int) ≠ 0 := by
      have : (0:Int) < ((10 ^ (m + 1) : Nat) : Int) := Int.ofNat_lt.mpr hpos
      omega
    have hne1 : ((10 ^ (m + 1) : Nat) : Int) ≠ 1 := by
      have h10 : 10 ≤ 10 ^ (m + 1) := by
        calc 10 = 10 ^ 1 := by norm_num
          _ ≤ 10 ^ (m + 1) := Nat.pow_le_pow_right (by decide) (by omega)
      have : (10:Int) ≤ ((10 ^ (m + 1) : Nat) : Int) := by exact_mod_cast h10
      omega
    have hdiv : Int.tdiv (v : Int) ((10 ^ (m + 1) : Nat) : Int)
        = ((v / 10 ^ (m + 1) : Nat) : Int) := (Int.ofNat_tdiv _ _).symm
    have hmod : Int.tmod (v : Int) ((10 ^ (m + 1) : Nat) : Int)
        = ((v % 10 ^ (m + 1) : Nat) : Int) := (Int.ofNat_tmod _ _).symm
    have hd10 : Int.tdiv ((10 ^ (m + 1) : Nat) : Int) 10 = ((10 ^ m : Nat) : Int) := by
      rw [Int.tdiv_eq_ediv (Int.natCast_nonneg _) (by norm_num)]
      push_cast
      rw [pow_succ]
      exact Int.mul_ediv_cancel _ (by decide : (10 : Int) ≠ 0)
    have hb : toByte (wrap64 ((v / 10 ^ (m + 1) : Nat) : Int)) = v / 10 ^ (m + 1) :=
      toByte_wrap64_digit _ hq
    rw [writeDecimal.digits, if_neg hne0]
    simp only [if_neg hne1, hdiv, hmod, hd10, hb]
    rw [ih fuel _ _ _ (Nat.mod_lt _ hpos) (by omega)]
    have h48 : (48 + v / 10 ^ (m + 1)) % 256 = 48 + v / 10 ^ (m + 1) := by omega
    rw [h48]
    simp [padDigits, Writer.WriteByte]
    omega

theorem padDigits_length : ∀ (m v : Nat), (padDigits m v).length = m := by
  intro m
  induction m with
  | zero => intro v; rfl
  | succ m ih => intro v; simp [padDigits, ih]

theorem padDigits_snoc : ∀ (m v : Nat), v < 10 ^ (m + 1) →
    padDigits (m + 1) v = padDigits m (v / 10) ++ [48 + v % 10] := by
  intro m
  induction m with
  | zero =>
    intro v hv
    have : v < 10 := by simpa using hv
    simp [padDigits]; omega
  | succ m ih =>
    intro v hv
    rw [padDigits, ih _ (Nat.mod_lt _ (Nat.pos_pow_of_pos _ (by decide))), padDigits]
    have h1 : v / 10 ^ (m + 1) = v / 10 / 10 ^ m := by
      rw [Nat.div_div_eq_div_mul, Nat.pow_succ, Nat.mul_comm]
    have h2 : v % 10 ^ (m + 1) / 10 = v / 10 % 10 ^ m := by
      rw [Nat.pow_succ, Nat.mul_comm]
      exact Nat.mod_mul_right_div_self v 10 (10 ^ m)
    have h3 : v % 10 ^ (m + 1) % 10 = v % 10 :=
      Nat.mod_mod_of_dvd v (Dvd.intro_left (10 ^ m) (by rw [Nat.pow_succ]))
    rw [h1, h2, h3]
    simp

theorem decimalDigits_eq_padDigits : ∀ (m v : Nat), 10 ^ m ≤ v → v < 10 ^ (m + 1) →
    decimalDigits v = padDigits (m + 1) v := by
  intro m
  induction m with
  | zero =>
    intro v h1 h2
    have : v < 10 := by simpa using h2
    rw [decimalDigits, if_pos this]
    simp [padDigits]
  | succ m ih =>
    intro v h1 h2
    have h10 : ¬ v < 10 := by
      have : 10 ≤ 10 ^ (m + 1) := by
        calc 10 = 10 ^ 1 := by norm_num
          _ ≤ 10 ^ (m + 1) := Nat.pow_le_pow_right (by decide) (by omega)
      omega
    rw [decimalDigits, if_neg h10, padDigits_snoc _ _ h2]
    rw [ih (v / 10)]
    · rw [Nat.le_div_iff_mul_le (by decide)]
      rw [Nat.pow_succ] at h1; exact h1
    · rw [Nat.div_lt_iff_lt_mul (by decide)]
      rw [Nat.pow_succ] at h2; exact h2

theorem pow10_18 : (10 : Nat) ^ 18 = 1000000000000000000 := by norm_num

theorem writeDecimal_loops (v : Nat) (hpos : 0 < v) (hv : v < 10 ^ 18) (w : Writer)
    (len : Int) :
    (match writeDecimal.findDividend 100 (v : Int) 1 with
      | none => Run.outOfFuel
      | some dividend => writeDecimal.digits 100 w len (v : Int) dividend)
      = Run.done (len + ((decimalDigits v).length : Int), w ++ decimalDigits v) := by
  obtain ⟨m, hm, hle, hlt⟩ := findDividend_pow v hv 100 0 (by simp; omega) (by omega)
  have h1 : ((10 ^ 0 : Nat) : Int) = 1 := by norm_num
  rw [h1] at hm
  rw [hm]
  have hm18 : m < 18 := by
    by_contra hc
    have : 10 ^ 18 ≤ 10 ^ m := Nat.pow_le_pow_right (by decide) (by omega)
    omega
  simp only []
  rw [digits_pad m 100 w len v hlt (by omega), decimalDigits_eq_padDigits m v hle hlt,
    padDigits_length]

theorem decimalDigits_zero : decimalDigits 0 = [48] := by
  rw [decimalDigits]; simp

theorem writeDecimal_canonical (w : Writer) (n : Int)
    (h1 : -1000000000000000000 < n) (h2 : n < 1000000000000000000) :
    writeDecimal w n
      = Run.done (((canonicalDecimal n).length : Int), w ++ canonicalDecimal n) := by
  unfold writeDecimal writeDecimalFuel canonicalDecimal
  by_cases h0 : n = 0
  · subst h0
    simp [decimalDigits_zero, Writer.WriteByte]
  · rw [if_neg h0]
    have hv : n.natAbs < 10 ^ 18 := by rw [pow10_18]; omega
    have hpos : 0 < n.natAbs := by omega
    by_cases hneg : n < 0
    · have hw : wrap64 (n * -1) = (n.natAbs : Int) := by
        rw [wrap64_eq (by omega) (by omega)]; omega
      simp only [hneg, decide_True, if_true, hw]
      rw [writeDecimal_loops _ hpos hv]
      simp [Writer.WriteByte]
      omega
    · obtain ⟨v, rfl⟩ : ∃ v : Nat, n = (v : Int) := ⟨n.natAbs, by omega⟩
      simp only [hneg, decide_False, if_false, Bool.false_eq_true, Int.natAbs_ofNat] at hv hpos ⊢
      rw [writeDecimal_loops _ hpos hv]
      simp

theorem digitsVal_ge (ds : List Nat) : ∀ acc, acc ≤ digitsVal acc ds := by
  induction ds with
  | nil => intro acc; exact Nat.le_refl _
  | cons d ds ih =>
    intro acc
    have := ih (acc * 10 + (d - 48))
    simp only [digitsVal, List.foldl_cons] at this ⊢
    omega

theorem readStep_eq (val b : Nat) (hb : 48 ≤ b ∧ b ≤ 57)
    (h : val * 10 + (b - 48) < 9223372036854775808) :
    wrap64 (wrap64 ((val : Int) * 10) + ((b : Int) - 48))
      = ((val * 10 + (b - 48) : Nat) : Int) := by
  have h1 : wrap64 ((val : Int) * 10) = (val : Int) * 10 := wrap64_eq (by omega) (by omega)
  rw [h1, wrap64_eq (by omega) (by omega)]
  omega

theorem readLoop_digits (sign : Int) (c : Nat) (t : List Nat) (hc : checkNum c = false) :
    ∀ (ds : List Nat), (∀ d ∈ ds, checkNum d = true) →
    ∀ (fuel b val : Nat) (len : Int) (lb : Option Nat), checkNum b = true →
      ds.length + 2 ≤ fuel → digitsVal val (b :: ds) < 9223372036854775808 →
      readDecimal.loop sign fuel (Reader.mk (ds ++ c :: t) lb) b (val : Int) len
        = Run.done (wrap64 (sign * ((digitsVal val (b :: ds) : Nat) : Int)),
            len + (ds.length : Int), Reader.mk (c :: t) none) := by
  intro ds
  induction ds with
  | nil =>
    intro _ fuel b val len lb hb hf hval
    obtain ⟨fuel, rfl⟩ : ∃ f, fuel = f + 2 := ⟨fuel - 2, by simp at hf; omega⟩
    have hb' : 48 ≤ b ∧ b ≤ 57 := by simpa [checkNum] using hb
    have hv : val * 10 + (b - 48) < 9223372036854775808 := by
      simpa [digitsVal] using hval
    have hw := readStep_eq val b hb' (by omega)
    simp only [readDecimal.loop, hb, hc, Bool.not_true, Bool.not_false, if_true,
      Bool.false_eq_true, if_false, Reader.ReadByte, List.nil_append, Reader.UnreadByte, hw]
    simp [digitsVal]
  | cons d ds ih =>
    intro hds fuel b val len lb hb hf hval
    obtain ⟨fuel, rfl⟩ : ∃ f, fuel = f + 1 := ⟨fuel - 1, by simp at hf; omega⟩
    have hb' : 48 ≤ b ∧ b ≤ 57 := by simpa [checkNum] using hb
    have hge := digitsVal_ge (d :: ds) (val * 10 + (b - 48))
    have hval' : digitsVal (val * 10 + (b - 48)) (d :: ds) < 9223372036854775808 := by
      simpa [digitsVal] using hval
    have hw := readStep_eq val b hb' (by omega)
    simp only [readDecimal.loop, hb, Bool.not_true, Bool.false_eq_true, if_false,
      Reader.ReadByte, List.cons_append, hw]
    rw [ih (fun x hx => hds x (List.mem_cons_of_mem _ hx)) fuel d _ _ _
      (hds d (List.mem_cons_self _ _)) (by simp at hf ⊢; omega) hval']
    simp [digitsVal]
    omega

theorem readDecimal_digits (c : Nat) (t : List Nat) (hc : checkNum c = false)
    (b : Nat) (ds : List Nat) (hb : checkNum b = true) (hds : ∀ d ∈ ds, checkNum d = true)
    (hval : digitsVal 0 (b :: ds) < 9223372036854775808) (lb : Option Nat) :
    readDecimal (Reader.mk (b :: ds ++ c :: t) lb)
      = Run.done (((digitsVal 0 (b :: ds) : Nat) : Int), (((b :: ds).length : Nat) : Int),
          Reader.mk (c :: t) none) := by
  have hb' : 48 ≤ b ∧ b ≤ 57 := by simpa [checkNum] using hb
  have h45 : b ≠ 45 := by omega
  simp only [readDecimal, Reader.ReadByte, List.cons_append, if_neg h45]
  have := readLoop_digits 1 c t hc ds hds ((b :: (ds ++ c :: t)).length + 2) b 0 1 (some b) hb
    (by simp; omega) hval
  simp only [Nat.cast_zero] at this
  rw [this, wrap64_eq (by omega) (by omega)]
  simp
  omega

theorem readDecimal_neg_digits (c : Nat) (t : List Nat) (hc : checkNum c = false)
    (b : Nat) (ds : List Nat) (hb : checkNum b = true) (hds : ∀ d ∈ ds, checkNum d = true)
    (hval : digitsVal 0 (b :: ds) < 9223372036854775808) (lb : Option Nat) :
    readDecimal (Reader.mk (45 :: b :: ds ++ c :: t) lb)
      = Run.done (-((digitsVal 0 (b :: ds) : Nat) : Int),
          (((b :: ds).length : Nat) : Int) + 1, Reader.mk (c :: t) none) := by
  simp only [readDecimal, Reader.ReadByte, List.cons_append, if_true]
  have := readLoop_digits (-1) c t hc ds hds ((45 :: b :: (ds ++ c :: t)).length + 2) b 0 (1 + 1)
    (some b) hb (by simp; omega) hval
  simp only [Nat.cast_zero] at this
  rw [this, wrap64_eq (by omega) (by omega)]
  simp
  omega

theorem decimalDigits_checkNum : ∀ (v d : Nat), d ∈ decimalDigits v → checkNum d = true := by
  intro v
  induction v using Nat.strong_induction_on with
  | _ v ih =>
    intro d hd
    rw [decimalDigits] at hd
    by_cases h : v < 10
    · rw [if_pos h] at hd
      simp at hd; subst hd
      simp [checkNum]; omega
    · rw [if_neg h] at hd
      rcases List.mem_append.mp hd with hd | hd
      · exact ih (v / 10) (by omega) d hd
      · simp at hd; subst hd
        simp [checkNum]; omega

theorem decimalDigits_cons (v : Nat) : ∃ b ds, decimalDigits v = b :: ds := by
  rw [decimalDigits]
  by_cases h : v < 10
  · rw [if_pos h]; exact ⟨_, _, rfl⟩
  · rw [if_neg h]
    cases hd : decimalDigits (v / 10) with
    | nil => exact ⟨_, _, rfl⟩
    | cons b ds => exact ⟨b, ds ++ [48 + v % 10], rfl⟩

theorem digitsVal_decimalDigits : ∀ (v : Nat), digitsVal 0 (decimalDigits v) = v := by
  intro v
  induction v using Nat.strong_induction_on with
  | _ v ih =>
    rw [decimalDigits]
    by_cases h : v < 10
    · rw [if_pos h]; simp [digitsVal]
    · rw [if_neg h]
      have := ih (v / 10) (by omega)
      simp only [digitsVal, List.foldl_append, List.foldl_cons, List.foldl_nil] at this ⊢
      rw [this]
      omega

theorem readDecimal_canonical (n : Int) (h1 : -9223372036854775808 < n)
    (h2 : n < 9223372036854775808) (c : Nat) (t : List Nat) (hc : checkNum c = false)
    (lb : Option Nat) :
    readDecimal (Reader.mk (canonicalDecimal n ++ c :: t) lb)
      = Run.done (n, ((canonicalDecimal n).length : Int), Reader.mk (c :: t) none) := by
  obtain ⟨b, ds, hbd⟩ := decimalDigits_cons n.natAbs
  have hall := decimalDigits_checkNum n.natAbs
  have hval := digitsVal_decimalDigits n.natAbs
  rw [hbd] at hall hval
  have hb : checkNum b = true := hall b (List.mem_cons_self _ _)
  have hds : ∀ d ∈ ds, checkNum d = true := fun d hd => hall d (List.mem_cons_of_mem _ hd)
  unfold canonicalDecimal
  by_cases hneg : n < 0
  · rw [if_pos hneg, hbd]
    have := readDecimal_neg_digits c t hc b ds hb hds (by rw [hval]; omega) lb
    have hna : -((n.natAbs : Nat) : Int) = n := by omega
    simp only [List.cons_append] at this ⊢
    rw [this, hval, hna]
    simp
  · rw [if_neg hneg, hbd]
    have := readDecimal_digits c t hc b ds hb hds (by rw [hval]; omega) lb
    have hna : ((n.natAbs : Nat) : Int) = n := by omega
    simp only [List.cons_append] at this ⊢
    rw [this, hval, hna]

theorem EncodeString_eq (w : Writer) (s : List Nat) (hs : s.length < 10 ^ 18) :
    EncodeString w s = Run.done (((encString s).length : Int), w ++ encString s) := by
  rw [pow10_18] at hs
  unfold EncodeString
  simp only []
  rw [writeDecimal_canonical w _ (by omega) (by omega)]
  simp [encString, Writer.WriteByte, Writer.WriteString]
  omega

theorem EncodeInt_eq (w : Writer) (n : Int) (h1 : -1000000000000000000 < n)
    (h2 : n < 1000000000000000000) :
    EncodeInt w n = Run.done (((encInt n).length : Int), w ++ encInt n) := by
  unfold EncodeInt
  simp only [Writer.WriteByte]
  rw [writeDecimal_canonical _ _ h1 h2]
  simp [encInt, Writer.WriteByte]
  omega

theorem DecodeString_encString (s t : List Nat) (hs : s.length < 10 ^ 18) (lb : Option Nat) :
    DecodeString (Reader.mk (encString s ++ t) lb)
      = Run.done (s, none, Reader.mk t (58 :: s).getLast?) := by
  rw [pow10_18] at hs
  unfold DecodeString encString
  have hr := readDecimal_canonical (s.length : Int) (by omega) (by omega) 58 (s ++ t)
    (by decide) lb
  simp only [List.append_assoc, List.singleton_append, List.cons_append,
    List.nil_append] at hr ⊢
  rw [hr]
  obtain ⟨b, ds, hbd⟩ := decimalDigits_cons (s.length : Int).natAbs
  have hlen : ((canonicalDecimal (s.length : Int)).length : Int) ≠ 0 := by
    unfold canonicalDecimal
    simp only [Int.natAbs_ofNat] at hbd ⊢
    split <;> simp [hbd] <;> omega
  simp only [hlen, if_false, Reader.ReadByte, ne_eq, not_true_eq_false]
  have hnn : ¬ ((s.length : Int) < 0) := by omega
  simp only [hnn, if_false, Int.toNat_ofNat, Reader.ReadAtLeast]
  cases s with
  | nil => simp
  | cons a s => simp

theorem DecodeInt_encInt (n : Int) (h1 : -9223372036854775808 < n)
    (h2 : n < 9223372036854775808) (t : List Nat) (lb : Option Nat) :
    DecodeInt (Reader.mk (encInt n ++ t) lb) = Run.done (n, none, Reader.mk t (some 101)) := by
  unfold DecodeInt encInt
  simp only [List.append_assoc, List.singleton_append, List.cons_append, List.nil_append,
    Reader.ReadByte, ne_eq, not_true_eq_false, if_false]
  rw [readDecimal_canonical n h1 h2 101 t (by decide)]
  simp

theorem canonicalDecimal_natCast (k : Nat) : canonicalDecimal (k : Int) = decimalDigits k := by
  unfold canonicalDecimal
  rw [if_neg (by omega)]
  simp

theorem encString_length_pos (s : List Nat) : 2 ≤ (encString s).length := by
  obtain ⟨b, ds, hbd⟩ := decimalDigits_cons s.length
  simp [encString, canonicalDecimal_natCast, hbd]
  omega

theorem encInt_length_pos (n : Int) : 3 ≤ (encInt n).length := by
  obtain ⟨b, ds, hbd⟩ := decimalDigits_cons n.natAbs
  unfold encInt canonicalDecimal
  split <;> simp [hbd]

theorem encString_head (s : List Nat) :
    ∃ b rest, encString s = b :: rest ∧ 48 ≤ b ∧ b ≤ 57 := by
  obtain ⟨b, ds, hbd⟩ := decimalDigits_cons s.length
  have hb := decimalDigits_checkNum s.length b (by rw [hbd]; exact List.mem_cons_self _ _)
  refine ⟨b, ds ++ 58 :: s, ?_, ?_⟩
  · simp [encString, canonicalDecimal_natCast, hbd]
  · simpa [checkNum] using hb

/-! ## `Bencode` writes the reference encoding -/

theorem mem_enumerate {α : Type} (order : List (List Nat) → List Nat) (m : List (List Nat × α))
    (x : List Nat × α) (h : x ∈ enumerate order m) : x ∈ m := by
  unfold enumerate at h
  rw [List.mem_filterMap] at h
  obtain ⟨i, _, hi⟩ := h
  exact List.getElem?_mem hi

theorem enumerate_map {α β : Type} (order : List (List Nat) → List Nat) (f : α → β)
    (m : List (List Nat × α)) :
    enumerate order (m.map (Prod.map id f)) = (enumerate order m).map (Prod.map id f) := by
  unfold enumerate
  rw [List.map_filterMap]
  have : (m.map (Prod.map id f)).map Prod.fst = m.map Prod.fst := by
    simp [List.map_map, Function.comp_def]
  rw [this]
  congr 1
  funext i
  simp [List.getElem?_map]

theorem Bencode_dictLoop_eq : ∀ (L : List (List Nat × List Nat)),
    (∀ x ∈ L, x.1.length < 10 ^ 18) → ∀ (w : Writer) (n : Int),
    Bencode.dictLoop
        (L.map (Prod.map id (fun (c : List Nat) (bw : Writer) =>
          (Run.done ((c.length : Int), bw ++ c) : Run (GoInt × Writer))))) w n
      = Run.done (n + ((encChunks L).length : Int), w ++ encChunks L) := by
  intro L
  induction L with
  | nil => intro _ w n; simp [Bencode.dictLoop, encChunks]
  | cons x L ih =>
    intro h w n
    obtain ⟨k, c⟩ := x
    have hk : k.length < 10 ^ 18 := h (k, c) (List.mem_cons_self _ _)
    simp only [List.map_cons, Prod.map, id, Bencode.dictLoop]
    rw [EncodeString_eq _ _ hk]
    simp only []
    rw [ih (fun x hx => h x (List.mem_cons_of_mem _ hx))]
    simp [encChunks]
    omega

theorem bounded_entries_keys : ∀ (m : Entries), bounded.entries m = true →
    ∀ x ∈ enc.entries order m, x.1.length < 10 ^ 18 := by
  intro m
  induction m with
  | nil => intro _ x hx; simp [enc.entries] at hx
  | cons e m ih =>
    obtain ⟨k, v⟩ := e
    intro h x hx
    simp only [bounded.entries, Bool.and_eq_true, decide_eq_true_eq] at h
    simp only [enc.entries, List.mem_cons] at hx
    rcases hx with rfl | hx
    · rw [pow10_18]; exact h.1.1
    · exact ih h.2 x hx

mutual
theorem Bencode_eq_enc (order : List (List Nat) → List Nat) : ∀ (v : BObject),
    typed v = true → bounded v = true → ∀ (w : Writer),
    BObject.Bencode order v w = Run.done (((enc order v).length : Int), w ++ enc order v)
  | BObject.mk t (BValue.str s), ht, hb, w => by
    simp only [typed, beq_iff_eq] at ht
    simp only [bounded, decide_eq_true_eq] at hb
    subst ht
    simp only [BObject.Bencode, BObject.Str, BObject.type_, BObject.val_, if_true, ne_eq,
      not_true_eq_false, if_false]
    rw [EncodeString_eq _ _ (by rw [pow10_18]; exact hb)]
    simp [enc]
  | BObject.mk t (BValue.int n), ht, hb, w => by
    simp only [typed, beq_iff_eq] at ht
    simp only [bounded, Bool.and_eq_true, decide_eq_true_eq] at hb
    subst ht
    have h21 : BINT ≠ BSTR := by decide
    simp only [BObject.Bencode, BObject.Int, BObject.type_, BObject.val_, if_true, ne_eq,
      not_true_eq_false, if_false, h21]
    rw [EncodeInt_eq _ _ hb.1 hb.2]
    simp [enc]
  | BObject.mk t (BValue.list l), ht, hb, w => by
    simp only [typed, Bool.and_eq_true, beq_iff_eq] at ht
    simp only [bounded] at hb
    obtain ⟨ht, hl⟩ := ht
    subst ht
    have h31 : BLIST ≠ BSTR := by decide
    have h32 : BLIST ≠ BINT := by decide
    simp only [BObject.Bencode, if_true, if_false, h31, h32]
    rw [Bencode_listLoop_eq_enc order l hl hb]
    simp [enc, Writer.WriteByte]
    ring
  | BObject.mk t (BValue.dict m), ht, hb, w => by
    simp only [typed, Bool.and_eq_true, beq_iff_eq] at ht
    simp only [bounded] at hb
    obtain ⟨ht, hm⟩ := ht
    subst ht
    have h41 : BDICT ≠ BSTR := by decide
    have h42 : BDICT ≠ BINT := by decide
    have h43 : BDICT ≠ BLIST := by decide
    simp only [BObject.Bencode, if_true, if_false, h41, h42, h43]
    rw [Bencode_entries_eq_enc order m hm hb, enumerate_map,
      Bencode_dictLoop_eq _ (fun x hx => bounded_entries_keys m hb x (mem_enumerate _ _ _ hx))]
    simp [enc, Writer.WriteByte]
    ring
  | BObject.mk t BValue.nil, ht, _, _ => by simp [typed] at ht
theorem Bencode_listLoop_eq_enc (order : List (List Nat) → List Nat) : ∀ (l : Objects),
    typed.list l = true → bounded.list l = true → ∀ (w : Writer) (n : Int),
    Bencode.listLoop order l w n
      = Run.done (n + ((enc.list order l).length : Int), w ++ enc.list order l)
  | [], _, _, w, n => by simp [Bencode.listLoop, enc.list]
  | x :: xs, ht, hb, w, n => by
    simp only [typed.list, Bool.and_eq_true] at ht
    simp only [bounded.list, Bool.and_eq_true] at hb
    simp only [Bencode.listLoop]
    rw [Bencode_eq_enc order x ht.1 hb.1]
    simp only []
    rw [Bencode_listLoop_eq_enc order xs ht.2 hb.2]
    simp [enc.list]
    omega
theorem Bencode_entries_eq_enc (order : List (List Nat) → List Nat) : ∀ (m : Entries),
    typed.entries m = true → bounded.entries m = true →
    Bencode.entries order m
      = (enc.entries order m).map (Prod.map id (fun (c : List Nat) (bw : Writer) =>
          (Run.done ((c.length : Int), bw ++ c) : Run (GoInt × Writer))))
  | [], _, _ => by simp [Bencode.entries, enc.entries]
  | (k, v) :: rest, ht, hb => by
    simp only [typed.entries, Bool.and_eq_true] at ht
    simp only [bounded.entries, Bool.and_eq_true] at hb
    simp only [Bencode.entries, enc.entries, List.map_cons, Prod.map, id]
    rw [Bencode_entries_eq_enc order rest ht.2 hb.2]
    congr 2
    funext bw
    exact Bencode_eq_enc order v ht.1 hb.1.2 bw
end

/-! ## `Parse` on encoded values -/

theorem listLoop_ok (parse : Reader → Parsed) : ∀ (items : List (List Nat × BObject)),
    (∀ it ∈ items, ParsesTo parse it.1 it.2) →
    ∀ (fuel : Nat) (acc : Objects) (t : List Nat) (lb : Option Nat), items.length < fuel →
    Parse.listLoop parse fuel (Reader.mk (listBody items ++ 101 :: t) lb) acc
      = Run.done (Except.ok (acc ++ items.map Prod.snd), Reader.mk t (some 101)) := by
  intro items
  induction items with
  | nil =>
    intro _ fuel acc t lb hf
    obtain ⟨fuel, rfl⟩ : ∃ f, fuel = f + 1 := ⟨fuel - 1, by simp at hf; omega⟩
    simp [Parse.listLoop, listBody, Reader.Peek1, Reader.ReadByte]
  | cons it items ih =>
    intro h fuel acc t lb hf
    obtain ⟨fuel, rfl⟩ : ∃ f, fuel = f + 1 := ⟨fuel - 1, by simp at hf; omega⟩
    obtain ⟨chunk, x⟩ := it
    obtain ⟨⟨c, rest, hc, hne⟩, hp⟩ := h (chunk, x) (List.mem_cons_self _ _)
    simp only at hc hp
    obtain ⟨lb', hp'⟩ := hp (listBody items ++ 101 :: t) none
    subst hc
    simp only [listBody, List.cons_append, List.append_assoc] at hp' ⊢
    simp only [Parse.listLoop, Reader.Peek1, if_neg hne, hp']
    rw [ih (fun it hit => h it (List.mem_cons_of_mem _ hit)) fuel _ t lb'
      (by simp at hf; omega)]
    simp

theorem dictLoop_ok (parse : Reader → Parsed) :
    ∀ (items : List (List Nat × List Nat × BObject)),
    (∀ it ∈ items, it.1.length < 10 ^ 18 ∧ ParsesTo parse it.2.1 it.2.2) →
    ∀ (fuel : Nat) (acc : Entries) (t : List Nat) (lb : Option Nat), items.length < fuel →
    Parse.dictLoop parse fuel (Reader.mk (dictBody items ++ 101 :: t) lb) acc
      = Run.done (Except.ok (items.foldl (fun m it => mapAssign m it.1 it.2.2) acc),
          Reader.mk t (some 101)) := by
  intro items
  induction items with
  | nil =>
    intro _ fuel acc t lb hf
    obtain ⟨fuel, rfl⟩ : ∃ f, fuel = f + 1 := ⟨fuel - 1, by simp at hf; omega⟩
    simp [Parse.dictLoop, dictBody, Reader.Peek1, Reader.ReadByte]
  | cons it items ih =>
    intro h fuel acc t lb hf
    obtain ⟨fuel, rfl⟩ : ∃ f, fuel = f + 1 := ⟨fuel - 1, by simp at hf; omega⟩
    obtain ⟨k, chunk, x⟩ := it
    obtain ⟨hk, _, hp⟩ := h (k, chunk, x) (List.mem_cons_self _ _)
    simp only at hk hp
    obtain ⟨lb', hp'⟩ := hp (dictBody items ++ 101 :: t) (58 :: k).getLast?
    obtain ⟨b, rest, hb, hb1, hb2⟩ := encString_head k
    have hne : b ≠ 101 := by omega
    have hd := DecodeString_encString k (chunk ++ (dictBody items ++ 101 :: t)) hk none
    simp only [dictBody, List.append_assoc] at hp' hd ⊢
    rw [hb] at hd ⊢
    simp only [List.cons_append] at hd ⊢
    simp only [Parse.dictLoop, Reader.Peek1, if_neg hne, hd, hp']
    rw [ih (fun it hit => h it (List.mem_cons_of_mem _ hit)) fuel _ t lb'
      (by simp at hf; omega)]
    simp

theorem ParseFuel_str (fuel : Nat) (s : List Nat) (hs : s.length < 10 ^ 18) :
    ParsesTo (ParseFuel (fuel + 1)) (encString s) (BObject.mk BSTR (BValue.str s)) := by
  obtain ⟨b, rest, hb, hb1, hb2⟩ := encString_head s
  refine ⟨⟨b, rest, hb, by omega⟩, ?_⟩
  intro t lb
  refine ⟨(58 :: s).getLast?, ?_⟩
  have hd := DecodeString_encString s t hs none
  rw [hb] at hd ⊢
  simp only [List.cons_append] at hd ⊢
  simp only [ParseFuel, Reader.Peek1, hd]
  simp [hb1, hb2]

theorem ParseFuel_int (fuel : Nat) (n : Int) (h1 : -9223372036854775808 < n)
    (h2 : n < 9223372036854775808) :
    ParsesTo (ParseFuel (fuel + 1)) (encInt n) (BObject.mk BINT (BValue.int n)) := by
  refine ⟨⟨105, canonicalDecimal n ++ [101], by simp [encInt], by decide⟩, ?_⟩
  intro t lb
  refine ⟨some 101, ?_⟩
  have hd := DecodeInt_encInt n h1 h2 t none
  have he : encInt n = 105 :: (canonicalDecimal n ++ [101]) := by simp [encInt]
  rw [he] at hd ⊢
  simp only [List.cons_append] at hd ⊢
  simp only [ParseFuel, Reader.Peek1, hd]
  simp

theorem ParseFuel_list (fuel : Nat) (items : List (List Nat × BObject))
    (h : ∀ it ∈ items, ParsesTo (ParseFuel fuel) it.1 it.2) (hf : items.length < fuel) :
    ParsesTo (ParseFuel (fuel + 1)) (108 :: (listBody items ++ [101]))
      (BObject.mk BLIST (BValue.list (items.map Prod.snd))) := by
  refine ⟨⟨108, _, rfl, by decide⟩, ?_⟩
  intro t lb
  refine ⟨some 101, ?_⟩
  have hl := listLoop_ok (ParseFuel fuel) items h fuel [] t (some 108) hf
  simp only [List.cons_append, List.append_assoc, List.singleton_append]
  simp only [ParseFuel, Reader.Peek1, Reader.ReadByte]
  simp [hl]

theorem ParseFuel_dict (fuel : Nat) (items : List (List Nat × List Nat × BObject))
    (h : ∀ it ∈ items, it.1.length < 10 ^ 18 ∧ ParsesTo (ParseFuel fuel) it.2.1 it.2.2)
    (hf : items.length < fuel) :
    ParsesTo (ParseFuel (fuel + 1)) (100 :: (dictBody items ++ [101]))
      (BObject.mk BDICT
        (BValue.dict (items.foldl (fun m it => mapAssign m it.1 it.2.2) []))) := by
  refine ⟨⟨100, _, rfl, by decide⟩, ?_⟩
  intro t lb
  refine ⟨some 101, ?_⟩
  have hl := dictLoop_ok (ParseFuel fuel) items h fuel [] t (some 100) hf
  simp only [List.cons_append, List.append_assoc, List.singleton_append]
  simp only [ParseFuel, Reader.Peek1, Reader.ReadByte]
  simp [hl]

theorem enc_entries_eq_map (order : List (List Nat) → List Nat) : ∀ (m : Entries),
    enc.entries order m = m.map (Prod.map id (enc order)) := by
  intro m
  induction m with
  | nil => simp [enc.entries]
  | cons e m ih => obtain ⟨k, v⟩ := e; simp [enc.entries, ih]

theorem reenumerate_entries_eq_map (order : List (List Nat) → List Nat) : ∀ (m : Entries),
    reenumerate.entries order m = m.map (Prod.map id (reenumerate order)) := by
  intro m
  induction m with
  | nil => simp [reenumerate.entries]
  | cons e m ih => obtain ⟨k, v⟩ := e; simp [reenumerate.entries, ih]

theorem reenumerate_list_eq_map (order : List (List Nat) → List Nat) : ∀ (l : Objects),
    reenumerate.list order l = l.map (reenumerate order) := by
  intro l
  induction l with
  | nil => simp [reenumerate.list]
  | cons x l ih => simp [reenumerate.list, ih]

theorem enc_list_eq_listBody (order : List (List Nat) → List Nat) : ∀ (l : Objects),
    enc.list order l = listBody (l.map (fun x => (enc order x, reenumerate order x))) := by
  intro l
  induction l with
  | nil => simp [enc.list, listBody]
  | cons x l ih => simp [enc.list, listBody, ih]

theorem encChunks_eq_dictBody (order : List (List Nat) → List Nat) : ∀ (L : Entries),
    encChunks (L.map (Prod.map id (enc order)))
      = dictBody (L.map (fun e => (e.1, enc order e.2, reenumerate order e.2))) := by
  intro L
  induction L with
  | nil => simp [encChunks, dictBody]
  | cons e L ih => obtain ⟨k, v⟩ := e; simp [encChunks, dictBody, ih]

theorem enc_length_pos (order : List (List Nat) → List Nat) (v : BObject)
    (h : typed v = true) : 2 ≤ (enc order v).length := by
  obtain ⟨t, val⟩ := v
  cases val with
  | nil => simp [typed] at h
  | str s => simpa [enc] using encString_length_pos s
  | int n => have := encInt_length_pos n; simp only [enc]; omega
  | list l => simp [enc]
  | dict m => simp [enc]

theorem length_le_enc_list (order : List (List Nat) → List Nat) : ∀ (l : Objects),
    typed.list l = true → l.length ≤ (enc.list order l).length := by
  intro l
  induction l with
  | nil => intro _; simp
  | cons x l ih =>
    intro h
    simp only [typed.list, Bool.and_eq_true] at h
    have := enc_length_pos order x h.1
    have := ih h.2
    simp only [enc.list, List.length_cons, List.length_append]
    omega

theorem enc_le_enc_list (order : List (List Nat) → List Nat) : ∀ (l : Objects) (x : BObject),
    x ∈ l → (enc order x).length ≤ (enc.list order l).length := by
  intro l
  induction l with
  | nil => intro x hx; simp at hx
  | cons y l ih =>
    intro x hx
    simp only [enc.list, List.length_append]
    rcases List.mem_cons.mp hx with rfl | hx
    · omega
    · have := ih x hx; omega

theorem length_le_encChunks : ∀ (L : List (List Nat × List Nat)),
    L.length ≤ (encChunks L).length := by
  intro L
  induction L with
  | nil => simp
  | cons e L ih =>
    obtain ⟨k, c⟩ := e
    have := encString_length_pos k
    simp only [encChunks, List.length_cons, List.length_append]
    omega

theorem chunk_le_encChunks : ∀ (L : List (List Nat × List Nat)) (e : List Nat × List Nat),
    e ∈ L → e.2.length + 2 ≤ (encChunks L).length := by
  intro L
  induction L with
  | nil => intro e he; simp at he
  | cons y L ih =>
    intro e he
    obtain ⟨k, c⟩ := y
    have := encString_length_pos k
    simp only [encChunks, List.length_append]
    rcases List.mem_cons.mp he with rfl | he
    · simp only; omega
    · have := ih e he; omega

theorem mapAssign_new : ∀ (m : Entries) (k : List Nat) (v : BObject),
    k ∉ m.map Prod.fst → mapAssign m k v = m ++ [(k, v)] := by
  intro m
  induction m with
  | nil => intro k v _; rfl
  | cons e m ih =>
    intro k v h
    obtain ⟨k', v'⟩ := e
    simp only [List.map_cons, List.mem_cons, not_or] at h
    have hne : ¬ k' = k := fun hh => h.1 hh.symm
    simp [mapAssign, hne, ih k v h.2]

theorem foldl_mapAssign_distinct : ∀ (L acc : Entries),
    ((acc ++ L).map Prod.fst).Nodup →
    L.foldl (fun m it => mapAssign m it.1 it.2) acc = acc ++ L := by
  intro L
  induction L with
  | nil => intro acc _; simp
  | cons e L ih =>
    intro acc h
    obtain ⟨k, v⟩ := e
    have hk : k ∉ acc.map Prod.fst := by
      simp only [List.map_append, List.map_cons] at h
      have := (List.nodup_append.mp h).2.2
      intro hmem
      exact this hmem (List.mem_cons_self _ _)
    simp only [List.foldl_cons]
    rw [mapAssign_new acc k v hk, ih]
    · simp
    · simpa using h

theorem filterMap_range_getElem {α : Type} : ∀ (l : List α),
    (List.range l.length).filterMap (fun i => l[i]?) = l := by
  intro l
  induction l with
  | nil => simp
  | cons x l ih =>
    rw [List.length_cons, List.range_succ_eq_map, List.filterMap_cons]
    simp only [List.getElem?_cons_zero, List.filterMap_map]
    congr 1
    have hf : ((fun i => (x :: l)[i]?) ∘ Nat.succ) = fun i => l[i]? := by
      funext i
      simp
    rw [hf]
    exact ih

theorem enumerate_perm {α : Type} (order : List (List Nat) → List Nat)
    (hord : IsEnumeration order) (m : List (List Nat × α)) : (enumerate order m).Perm m := by
  unfold enumerate
  have h := List.Perm.filterMap (fun i => m[i]?) (hord (m.map Prod.fst))
  rw [List.length_map, filterMap_range_getElem] at h
  exact h

theorem enumerate_keys_nodup {α : Type} (order : List (List Nat) → List Nat)
    (hord : IsEnumeration order) (m : List (List Nat × α)) (h : (m.map Prod.fst).Nodup) :
    ((enumerate order m).map Prod.fst).Nodup :=
  ((enumerate_perm order hord m).map Prod.fst).nodup_iff.mpr h

theorem bounded_entries_mem : ∀ (m : Entries), bounded.entries m = true →
    ∀ e ∈ m, e.1.length < 10 ^ 18 := by
  intro m
  induction m with
  | nil => intro _ e he; simp at he
  | cons y m ih =>
    obtain ⟨k, v⟩ := y
    intro h e he
    simp only [bounded.entries, Bool.and_eq_true, decide_eq_true_eq] at h
    rcases List.mem_cons.mp he with rfl | he
    · rw [pow10_18]; exact h.1.1
    · exact ih h.2 e he

mutual
theorem parse_enc (order : List (List Nat) → List Nat) (hord : IsEnumeration order) :
    ∀ (v : BObject), typed v = true → bounded v = true → distinctKeys v = true →
    ∀ (fuel : Nat), (enc order v).length < fuel →
    ParsesTo (ParseFuel fuel) (enc order v) (reenumerate order v)
  | BObject.mk t (BValue.str s), ht, hb, _, fuel, hf => by
    obtain ⟨fuel, rfl⟩ : ∃ f, fuel = f + 1 := ⟨fuel - 1, by omega⟩
    simp only [typed, beq_iff_eq] at ht
    simp only [bounded, decide_eq_true_eq] at hb
    subst ht
    simp only [enc, reenumerate]
    exact ParseFuel_str fuel s (by rw [pow10_18]; exact hb)
  | BObject.mk t (BValue.int n), ht, hb, _, fuel, hf => by
    obtain ⟨fuel, rfl⟩ : ∃ f, fuel = f + 1 := ⟨fuel - 1, by omega⟩
    simp only [typed, beq_iff_eq] at ht
    simp only [bounded, Bool.and_eq_true, decide_eq_true_eq] at hb
    subst ht
    simp only [enc, reenumerate]
    exact ParseFuel_int fuel n (by omega) (by omega)
  | BObject.mk t (BValue.list l), ht, hb, hd, fuel, hf => by
    obtain ⟨fuel, rfl⟩ : ∃ f, fuel = f + 1 := ⟨fuel - 1, by omega⟩
    simp only [typed, Bool.and_eq_true, beq_iff_eq] at ht
    simp only [bounded] at hb
    simp only [distinctKeys] at hd
    obtain ⟨ht, hl⟩ := ht
    subst ht
    simp only [enc, List.length_cons, List.length_append, List.length_nil] at hf
    have hlen := length_le_enc_list order l hl
    have hitems := parse_enc_list order hord l hl hb hd fuel
    have hp := ParseFuel_list fuel (l.map (fun x => (enc order x, reenumerate order x)))
      (by
        intro it hit
        obtain ⟨x, hx, rfl⟩ := List.mem_map.mp hit
        have := enc_le_enc_list order l x hx
        exact hitems x hx (by omega))
      (by simp only [List.length_map]; omega)
    rw [← enc_list_eq_listBody] at hp
    simp only [List.map_map, Function.comp_def] at hp
    simp only [enc, reenumerate, reenumerate_list_eq_map]
    exact hp
  | BObject.mk t (BValue.dict m), ht, hb, hd, fuel, hf => by
    obtain ⟨fuel, rfl⟩ : ∃ f, fuel = f + 1 := ⟨fuel - 1, by omega⟩
    simp only [typed, Bool.and_eq_true, beq_iff_eq] at ht
    simp only [bounded] at hb
    simp only [distinctKeys, Bool.and_eq_true, decide_eq_true_eq] at hd
    obtain ⟨ht, hm⟩ := ht
    obtain ⟨hnd, hdm⟩ := hd
    subst ht
    simp only [enc, List.length_cons, List.length_append, List.length_nil,
      enc_entries_eq_map, enumerate_map] at hf
    have hlen := length_le_encChunks ((enumerate order m).map (Prod.map id (enc order)))
    simp only [List.length_map] at hlen
    have hitems := parse_enc_entries order hord m hm hb hdm fuel
    have hp := ParseFuel_dict fuel
      ((enumerate order m).map (fun e => (e.1, enc order e.2, reenumerate order e.2)))
      (by
        intro it hit
        obtain ⟨e, he, rfl⟩ := List.mem_map.mp hit
        have hem := mem_enumerate order m e he
        have hc := chunk_le_encChunks ((enumerate order m).map (Prod.map id (enc order)))
          (Prod.map id (enc order) e) (List.mem_map_of_mem _ he)
        simp only [Prod.map] at hc
        exact ⟨bounded_entries_mem m hb e hem, hitems e hem (by omega)⟩)
      (by simp only [List.length_map]; omega)
    rw [← encChunks_eq_dictBody] at hp
    have hfold : ((enumerate order m).map
          (fun e => (e.1, enc order e.2, reenumerate order e.2))).foldl
          (fun (acc : Entries) it => mapAssign acc it.1 it.2.2) []
        = (enumerate order m).map (Prod.map id (reenumerate order)) := by
      rw [List.foldl_map]
      have h2 := foldl_mapAssign_distinct
        ((enumerate order m).map (Prod.map id (reenumerate order))) []
        (by
          simp only [List.nil_append, List.map_map]
          have : (Prod.fst ∘ Prod.map id (reenumerate order))
              = (Prod.fst : List Nat × BObject → List Nat) := by
            funext e; rfl
          rw [this]
          exact enumerate_keys_nodup order hord m hnd)
      rw [List.foldl_map] at h2
      simpa using h2
    rw [hfold] at hp
    simp only [enc, reenumerate, reenumerate_entries_eq_map, enc_entries_eq_map, enumerate_map]
    exact hp
  | BObject.mk t BValue.nil, ht, _, _, _, _ => by simp [typed] at ht
theorem parse_enc_list (order : List (List Nat) → List Nat) (hord : IsEnumeration order) :
    ∀ (l : Objects), typed.list l = true → bounded.list l = true →
    distinctKeys.list l = true → ∀ (fuel : Nat), ∀ x ∈ l, (enc order x).length < fuel →
    ParsesTo (ParseFuel fuel) (enc order x) (reenumerate order x)
  | [], _, _, _, _, x, hx, _ => by simp at hx
  | y :: ys, ht, hb, hd, fuel, x, hx, hf => by
    simp only [typed.list, Bool.and_eq_true] at ht
    simp only [bounded.list, Bool.and_eq_true] at hb
    simp only [distinctKeys.list, Bool.and_eq_true] at hd
    rcases List.mem_cons.mp hx with rfl | hx
    · exact parse_enc order hord x ht.1 hb.1 hd.1 fuel hf
    · exact parse_enc_list order hord ys ht.2 hb.2 hd.2 fuel x hx hf
theorem parse_enc_entries (order : List (List Nat) → List Nat) (hord : IsEnumeration order) :
    ∀ (m : Entries), typed.entries m = true → bounded.entries m = true →
    distinctKeys.entries m = true → ∀ (fuel : Nat), ∀ e ∈ m, (enc order e.2).length < fuel →
    ParsesTo (ParseFuel fuel) (enc order e.2) (reenumerate order e.2)
  | [], _, _, _, _, e, he, _ => by simp at he
  | (k, v) :: rest, ht, hb, hd, fuel, e, he, hf => by
    simp only [typed.entries, Bool.and_eq_true] at ht
    simp only [bounded.entries, Bool.and_eq_true] at hb
    simp only [distinctKeys.entries, Bool.and_eq_true] at hd
    rcases List.mem_cons.mp he with rfl | he
    · exact parse_enc order hord v ht.1 hb.1.2 hd.1 fuel hf
    · exact parse_enc_entries order hord rest ht.2 hb.2 hd.2 fuel e he hf
end

/-! ## Round trip -/

theorem isEnumeration_insertionOrder : IsEnumeration insertionOrder :=
  fun _ => List.Perm.refl _

theorem isEnumeration_reverseOrder : IsEnumeration reverseOrder :=
  fun _ => List.reverse_perm _

theorem lookup_of_mem_nodup : ∀ (L : Entries) (k : List Nat) (y : BObject),
    (L.map Prod.fst).Nodup → (k, y) ∈ L → L.lookup k = some y := by
  intro L
  induction L with
  | nil => intro k y _ h; simp at h
  | cons e L ih =>
    intro k y hnd h
    obtain ⟨k', v'⟩ := e
    simp only [List.map_cons, List.nodup_cons] at hnd
    rcases List.mem_cons.mp h with heq | hmem
    · cases heq
      simp [List.lookup]
    · have hne : k ≠ k' := by
        intro hh
        rw [← hh] at hnd
        exact hnd.1 (List.mem_map_of_mem Prod.fst hmem)
      have hb : (k == k') = false := by simpa using hne
      simp only [List.lookup, hb]
      exact ih k y hnd.2 hmem

mutual
theorem sameTree_reenumerate (order : List (List Nat) → List Nat) (hord : IsEnumeration order) :
    ∀ (v : BObject), distinctKeys v = true → sameTree v (reenumerate order v)
  | BObject.mk t (BValue.str s), _ => by simp [sameTree, reenumerate]
  | BObject.mk t (BValue.int n), _ => by simp [sameTree, reenumerate]
  | BObject.mk t BValue.nil, _ => by simp [sameTree, reenumerate]
  | BObject.mk t (BValue.list l), hd => by
    simp only [distinctKeys] at hd
    simp only [sameTree, reenumerate]
    exact ⟨_, rfl, sameTree_reenumerate_list order hord l hd⟩
  | BObject.mk t (BValue.dict m), hd => by
    simp only [distinctKeys, Bool.and_eq_true, decide_eq_true_eq] at hd
    simp only [sameTree, reenumerate]
    refine ⟨_, rfl, ?_, ?_⟩
    · have hp := ((enumerate_perm order hord (reenumerate.entries order m)).map Prod.fst).symm
      have hk : (reenumerate.entries order m).map Prod.fst = m.map Prod.fst := by
        rw [reenumerate_entries_eq_map]
        simp [List.map_map, Function.comp_def]
      rw [hk] at hp
      exact hp
    · apply sameTree_reenumerate_entries order hord m hd.2
      intro e he
      have hk : (reenumerate.entries order m).map Prod.fst = m.map Prod.fst := by
        rw [reenumerate_entries_eq_map]
        simp [List.map_map, Function.comp_def]
      apply lookup_of_mem_nodup
      · exact enumerate_keys_nodup order hord _ (by rw [hk]; exact hd.1)
      · apply (enumerate_perm order hord _).mem_iff.mpr
        rw [reenumerate_entries_eq_map]
        exact List.mem_map.mpr ⟨e, he, rfl⟩
theorem sameTree_reenumerate_list (order : List (List Nat) → List Nat)
    (hord : IsEnumeration order) :
    ∀ (l : Objects), distinctKeys.list l = true → sameTree.list l (reenumerate.list order l)
  | [], _ => by simp [sameTree.list, reenumerate.list]
  | x :: xs, hd => by
    simp only [distinctKeys.list, Bool.and_eq_true] at hd
    simp only [sameTree.list, reenumerate.list]
    exact ⟨_, _, rfl, sameTree_reenumerate order hord x hd.1,
      sameTree_reenumerate_list order hord xs hd.2⟩
theorem sameTree_reenumerate_entries (order : List (List Nat) → List Nat)
    (hord : IsEnumeration order) :
    ∀ (m : Entries), distinctKeys.entries m = true → ∀ (M : Entries),
    (∀ e ∈ m, M.lookup e.1 = some (reenumerate order e.2)) → sameTree.entries m M
  | [], _, _, _ => by simp [sameTree.entries]
  | (k, v) :: rest, hd, M, h => by
    simp only [distinctKeys.entries, Bool.and_eq_true] at hd
    simp only [sameTree.entries]
    exact ⟨⟨_, h (k, v) (List.mem_cons_self _ _), sameTree_reenumerate order hord v hd.1⟩,
      sameTree_reenumerate_entries order hord rest hd.2 M
        (fun e he => h e (List.mem_cons_of_mem _ he))⟩
end

/-- C1: round trip. For a well-formed tree (`typed`: every tag matches its payload)
without duplicate keys whose integers and string lengths are below `10 ^ 18`, and for
every order in which the maps are enumerated, `Bencode` writes some bytes `out`, and
`Parse` on `out` succeeds, consumes all of it, and returns a tree structurally equal to
`v` (lists in order, dictionaries as key-to-value mappings). -/
theorem parse_bencode_roundtrip (order : List (List Nat) → List Nat)
    (hord : IsEnumeration order) (v : BObject) (ht : typed v = true)
    (hb : bounded v = true) (hd : distinctKeys v = true) :
    ∃ (n : Int) (out : List Nat) (v' : BObject) (lb : Option Nat),
      BObject.Bencode order v [] = Run.done (n, out)
      ∧ Parse (Reader.new out) = Run.done (Except.ok v', Reader.mk [] lb)
      ∧ sameTree v v' := by
  obtain ⟨_, hp⟩ := parse_enc order hord v ht hb hd ((enc order v).length + 1) (by omega)
  obtain ⟨lb, hp⟩ := hp [] none
  refine ⟨((enc order v).length : Int), enc order v, reenumerate order v, lb, ?_, ?_,
    sameTree_reenumerate order hord v hd⟩
  · simpa using Bencode_eq_enc order v ht hb []
  · simpa [Parse, Reader.new] using hp

/-- C1, at `sampleTree` with the maps enumerated in reverse insertion order. -/
theorem parse_bencode_roundtrip_witness :
    ∃ (n : Int) (out : List Nat) (v' : BObject) (lb : Option Nat),
      BObject.Bencode reverseOrder sampleTree [] = Run.done (n, out)
      ∧ Parse (Reader.new out) = Run.done (Except.ok v', Reader.mk [] lb)
      ∧ sameTree sampleTree v' :=
  parse_bencode_roundtrip reverseOrder isEnumeration_reverseOrder sampleTree (by decide)
    (by decide) (by decide)

/-- C2: for a well-formed tree whose integers are below `10 ^ 18` in magnitude (and whose
strings are shorter than `10 ^ 18` bytes), `Bencode` appends to the sink exactly the
reference encoding `enc v`, taken with the same enumeration order of the maps. -/
theorem bencode_writes_enc (order : List (List Nat) → List Nat) (v : BObject)
    (ht : typed v = true) (hb : bounded v = true) (w : Writer) :
    ∃ n : Int, BObject.Bencode order v w = Run.done (n, w ++ enc order v) :=
  ⟨_, Bencode_eq_enc order v ht hb w⟩

/-- C2, at `sampleTree` with the maps enumerated in reverse insertion order. -/
theorem bencode_writes_enc_witness :
    ∃ n : Int, BObject.Bencode reverseOrder sampleTree (bytes "xy")
      = Run.done (n, bytes "xy" ++ enc reverseOrder sampleTree) :=
  bencode_writes_enc reverseOrder sampleTree (by decide) (by decide) (bytes "xy")

/-- C4: byte count. On a sink that never fails, for a well-formed tree with integers below
`10 ^ 18` in magnitude (and strings shorter than `10 ^ 18` bytes, as every string in memory
is), `Bencode` returns the number of bytes it appended; `EncodeString` returns the number
of digits of the length plus one plus the length, and `EncodeInt` two plus the length of
the decimal text, each the number of bytes appended. -/
theorem bencode_count (order : List (List Nat) → List Nat) (v : BObject)
    (ht : typed v = true) (hb : bounded v = true) (s : List Nat)
    (hs : s.length < 1000000000000000000) (n : Int) (h1 : -1000000000000000000 < n)
    (h2 : n < 1000000000000000000) (w : Writer) :
    (∃ out, BObject.Bencode order v w = Run.done ((out.length : Int), w ++ out))
    ∧ (∃ out, EncodeString w s = Run.done ((out.length : Int), w ++ out)
        ∧ out.length = (canonicalDecimal (s.length : Int)).length + 1 + s.length)
    ∧ (∃ out, EncodeInt w n = Run.done ((out.length : Int), w ++ out)
        ∧ out.length = 2 + (canonicalDecimal n).length) := by
  refine ⟨⟨_, Bencode_eq_enc order v ht hb w⟩, ⟨_, EncodeString_eq w s ?_, ?_⟩,
    ⟨_, EncodeInt_eq w n h1 h2, ?_⟩⟩
  · rw [pow10_18]; exact hs
  · simp [encString]; omega
  · simp [encInt]; omega

/-- C4, at `sampleTree`, the string `hello` and the integer `-907`. -/
theorem bencode_count_witness :
    (∃ out, BObject.Bencode reverseOrder sampleTree [] = Run.done ((out.length : Int), [] ++ out))
    ∧ (∃ out, EncodeString [] (bytes "hello") = Run.done ((out.length : Int), [] ++ out)
        ∧ out.length
          = (canonicalDecimal ((bytes "hello").length : Int)).length + 1 + (bytes "hello").length)
    ∧ (∃ out, EncodeInt [] (-907) = Run.done ((out.length : Int), [] ++ out)
        ∧ out.length = 2 + (canonicalDecimal (-907)).length) :=
  bencode_count reverseOrder sampleTree (by decide) (by decide) (bytes "hello") (by decide)
    (-907) (by decide) (by decide) []

/-! ## `Parse` builds trees whose tags match -/

theorem typed_list_append : ∀ (l : Objects) (x : BObject), typed.list l = true →
    typed x = true → typed.list (l ++ [x]) = true := by
  intro l
  induction l with
  | nil => intro x _ hx; simp [typed.list, hx]
  | cons y l ih =>
    intro x h hx
    simp only [typed.list, Bool.and_eq_true] at h
    simp [typed.list, h.1, ih x h.2 hx]

theorem typed_entries_mapAssign : ∀ (m : Entries) (k : List Nat) (x : BObject),
    typed.entries m = true → typed x = true → typed.entries (mapAssign m k x) = true := by
  intro m
  induction m with
  | nil => intro k x _ hx; simp [mapAssign, typed.entries, hx]
  | cons e m ih =>
    intro k x h hx
    obtain ⟨k', v'⟩ := e
    simp only [typed.entries, Bool.and_eq_true] at h
    unfold mapAssign
    split
    · simp [typed.entries, hx, h.2]
    · simp [typed.entries, h.1, ih k x h.2 hx]

theorem listLoop_typed (parse : Reader → Parsed)
    (hparse : ∀ r o r', parse r = Run.done (Except.ok o, r') → typed o = true) :
    ∀ (fuel : Nat) (r : Reader) (acc l : Objects) (r' : Reader), typed.list acc = true →
    Parse.listLoop parse fuel r acc = Run.done (Except.ok l, r') → typed.list l = true := by
  intro fuel
  induction fuel with
  | zero => intro r acc l r' _ h; simp [Parse.listLoop] at h
  | succ fuel ih =>
    intro r acc l r' hacc h
    unfold Parse.listLoop at h
    split at h
    · simp at h
    · split at h
      · simp only [Run.done.injEq, Prod.mk.injEq, Except.ok.injEq] at h
        rw [← h.1]; exact hacc
      · split at h
        · simp at h
        · rename_i elem br heq
          exact ih _ _ _ _ (typed_list_append acc elem hacc (hparse _ _ _ heq)) h
        · simp at h
        · simp at h

theorem dictLoop_typed (parse : Reader → Parsed)
    (hparse : ∀ r o r', parse r = Run.done (Except.ok o, r') → typed o = true) :
    ∀ (fuel : Nat) (r : Reader) (acc m : Entries) (r' : Reader), typed.entries acc = true →
    Parse.dictLoop parse fuel r acc = Run.done (Except.ok m, r') → typed.entries m = true := by
  intro fuel
  induction fuel with
  | zero => intro r acc l r' _ h; simp [Parse.dictLoop] at h
  | succ fuel ih =>
    intro r acc l r' hacc h
    unfold Parse.dictLoop at h
    split at h
    · simp at h
    · split at h
      · simp only [Run.done.injEq, Prod.mk.injEq, Except.ok.injEq] at h
        rw [← h.1]; exact hacc
      · split at h
        · simp at h
        · split at h
          · simp at h
          · rename_i val br heq
            exact ih _ _ _ _ (typed_entries_mapAssign acc _ val hacc (hparse _ _ _ heq)) h
          · simp at h
          · simp at h
        · simp at h
        · simp at h

theorem ParseFuel_typed : ∀ (fuel : Nat) (r : Reader) (o : BObject) (r' : Reader),
    ParseFuel fuel r = Run.done (Except.ok o, r') → typed o = true := by
  intro fuel
  induction fuel with
  | zero => intro r o r' h; simp [ParseFuel] at h
  | succ fuel ih =>
    intro r o r' h
    unfold ParseFuel at h
    split at h
    · simp at h
    · simp at h
    · split at h
      · split at h
        · simp at h
        · simp only [Run.done.injEq, Prod.mk.injEq, Except.ok.injEq] at h
          rw [← h.1]; rfl
        · simp at h
        · simp at h
      · split at h
        · split at h
          · simp at h
          · simp only [Run.done.injEq, Prod.mk.injEq, Except.ok.injEq] at h
            rw [← h.1]; rfl
          · simp at h
          · simp at h
        · split at h
          · split at h
            split at h
            · simp at h
            · rename_i list br heq
              simp only [Run.done.injEq, Prod.mk.injEq, Except.ok.injEq] at h
              rw [← h.1]
              have := listLoop_typed (ParseFuel fuel) ih fuel _ [] list br rfl heq
              simp [typed, this]
            · simp at h
            · simp at h
          · split at h
            · split at h
              split at h
              · simp at h
              · rename_i dict br heq
                simp only [Run.done.injEq, Prod.mk.injEq, Except.ok.injEq] at h
                rw [← h.1]
                have := dictLoop_typed (ParseFuel fuel) ih fuel _ [] dict br rfl heq
                simp [typed, this]
              · simp at h
              · simp at h
            · simp at h

theorem typed_accessors (o : BObject) (h : typed o = true) : AccessorsMatchTag o := by
  obtain ⟨t, val⟩ := o
  cases val with
  | nil => simp [typed] at h
  | str s =>
    simp only [typed, beq_iff_eq] at h; subst h
    exact Or.inl ⟨s, rfl, rfl, rfl, rfl, rfl⟩
  | int n =>
    simp only [typed, beq_iff_eq] at h; subst h
    exact Or.inr (Or.inl ⟨n, rfl, rfl, rfl, rfl, rfl⟩)
  | list l =>
    simp only [typed, Bool.and_eq_true, beq_iff_eq] at h
    obtain ⟨h, _⟩ := h; subst h
    exact Or.inr (Or.inr (Or.inl ⟨l, rfl, rfl, rfl, rfl, rfl⟩))
  | dict m =>
    simp only [typed, Bool.and_eq_true, beq_iff_eq] at h
    obtain ⟨h, _⟩ := h; subst h
    exact Or.inr (Or.inr (Or.inr ⟨m, rfl, rfl, rfl, rfl, rfl⟩))

mutual
theorem typed_descendants : ∀ (o : BObject), typed o = true →
    ∀ d ∈ descendants o, typed d = true
  | BObject.mk t (BValue.str s), h, d, hd => by
    simp only [descendants, List.mem_singleton] at hd; rw [hd]; exact h
  | BObject.mk t (BValue.int n), h, d, hd => by
    simp only [descendants, List.mem_singleton] at hd; rw [hd]; exact h
  | BObject.mk t BValue.nil, h, d, hd => by
    simp only [descendants, List.mem_singleton] at hd; rw [hd]; exact h
  | BObject.mk t (BValue.list l), h, d, hd => by
    simp only [descendants, List.mem_cons] at hd
    rcases hd with rfl | hd
    · exact h
    · simp only [typed, Bool.and_eq_true] at h
      exact typed_descendants_list l h.2 d hd
  | BObject.mk t (BValue.dict m), h, d, hd => by
    simp only [descendants, List.mem_cons] at hd
    rcases hd with rfl | hd
    · exact h
    · simp only [typed, Bool.and_eq_true] at h
      exact typed_descendants_entries m h.2 d hd
theorem typed_descendants_list : ∀ (l : Objects), typed.list l = true →
    ∀ d ∈ descendants.list l, typed d = true
  | [], _, d, hd => by simp [descendants.list] at hd
  | x :: xs, h, d, hd => by
    simp only [typed.list, Bool.and_eq_true] at h
    simp only [descendants.list, List.mem_append] at hd
    rcases hd with hd | hd
    · exact typed_descendants x h.1 d hd
    · exact typed_descendants_list xs h.2 d hd
theorem typed_descendants_entries : ∀ (m : Entries), typed.entries m = true →
    ∀ d ∈ descendants.entries m, typed d = true
  | [], _, d, hd => by simp [descendants.entries] at hd
  | (k, v) :: rest, h, d, hd => by
    simp only [typed.entries, Bool.and_eq_true] at h
    simp only [descendants.entries, List.mem_append] at hd
    rcases hd with hd | hd
    · exact typed_descendants v h.1 d hd
    · exact typed_descendants_entries rest h.2 d hd
end

/-- C10: typed accessors. For every value `o` that `Parse` returns and every descendant
`d` of it, exactly the accessor matching the tag of `d` succeeds, returning the payload
with a nil error; the other three return `ErrTyp` with the zero result; none panics. -/
theorem parse_accessors (br : Reader) (o : BObject) (r : Reader)
    (h : Parse br = Run.done (Except.ok o, r)) :
    ∀ d ∈ descendants o, AccessorsMatchTag d :=
  fun d hd => typed_accessors d
    (typed_descendants o (ParseFuel_typed _ br o r h) d hd)

/-- C10, at the input `d3:cowl3:mooi7eee`. -/
theorem parse_accessors_witness :
    Parse (Reader.new (bytes "d3:cowl3:mooi7eee"))
      = Run.done (Except.ok (BObject.mk BDICT (BValue.dict [(bytes "cow",
          BObject.mk BLIST (BValue.list [BObject.mk BSTR (BValue.str (bytes "moo")),
            BObject.mk BINT (BValue.int 7)]))])), Reader.mk [] (some 101))
    ∧ ∀ d ∈ descendants (BObject.mk BDICT (BValue.dict [(bytes "cow",
          BObject.mk BLIST (BValue.list [BObject.mk BSTR (BValue.str (bytes "moo")),
            BObject.mk BINT (BValue.int 7)]))])), AccessorsMatchTag d :=
  ⟨rfl, parse_accessors (Reader.new (bytes "d3:cowl3:mooi7eee")) _ _ rfl⟩

/-! ## More fuel, same result -/

theorem listLoop_mono (p p' : Reader → Parsed)
    (hp : ∀ r a, p r = Run.done a → p' r = Run.done a) :
    ∀ (f F : Nat) (r : Reader) (acc : Objects) (a : Except GoError Objects × Reader), f ≤ F →
    Parse.listLoop p f r acc = Run.done a → Parse.listLoop p' F r acc = Run.done a := by
  intro f
  induction f with
  | zero => intro F r acc a _ h; simp [Parse.listLoop] at h
  | succ f ih =>
    intro F r acc a hF h
    obtain ⟨F, rfl⟩ : ∃ G, F = G + 1 := ⟨F - 1, by omega⟩
    unfold Parse.listLoop at h ⊢
    split at h
    · simp at h
    · split at h
      · rename_i h101
        rw [if_pos h101]; exact h
      · rename_i h101
        rw [if_neg h101]
        split at h
        · rename_i hq
          rw [hp _ _ hq]; exact h
        · rename_i hq
          rw [hp _ _ hq]
          exact ih F _ _ _ (by omega) h
        · simp at h
        · simp at h

theorem dictLoop_mono (p p' : Reader → Parsed)
    (hp : ∀ r a, p r = Run.done a → p' r = Run.done a) :
    ∀ (f F : Nat) (r : Reader) (acc : Entries) (a : Except GoError Entries × Reader), f ≤ F →
    Parse.dictLoop p f r acc = Run.done a → Parse.dictLoop p' F r acc = Run.done a := by
  intro f
  induction f with
  | zero => intro F r acc a _ h; simp [Parse.dictLoop] at h
  | succ f ih =>
    intro F r acc a hF h
    obtain ⟨F, rfl⟩ : ∃ G, F = G + 1 := ⟨F - 1, by omega⟩
    unfold Parse.dictLoop at h ⊢
    split at h
    · simp at h
    · split at h
      · rename_i h101
        rw [if_pos h101]; exact h
      · rename_i h101
        rw [if_neg h101]
        split at h
        · exact h
        · split at h
          · rename_i hq
            rw [hp _ _ hq]; exact h
          · rename_i hq
            rw [hp _ _ hq]
            exact ih F _ _ _ (by omega) h
          · simp at h
          · simp at h
        · simp at h
        · simp at h

theorem ParseFuel_mono : ∀ (f F : Nat) (r : Reader) (a : Except GoError BObject × Reader),
    f ≤ F → ParseFuel f r = Run.done a → ParseFuel F r = Run.done a := by
  intro f
  induction f with
  | zero => intro F r a _ h; simp [ParseFuel] at h
  | succ f ih =>
    intro F r a hF h
    obtain ⟨F, rfl⟩ : ∃ G, F = G + 1 := ⟨F - 1, by omega⟩
    have hmono : ∀ r a, ParseFuel f r = Run.done a → ParseFuel F r = Run.done a :=
      fun r a => ih F r a (by omega)
    unfold ParseFuel at h ⊢
    split at h
    · exact h
    · simp at h
    · split at h
      · rename_i hc
        rw [if_pos hc]; exact h
      · rename_i hc
        rw [if_neg hc]
        split at h
        · rename_i hc2
          rw [if_pos hc2]; exact h
        · rename_i hc2
          rw [if_neg hc2]
          split at h
          · rename_i hc3
            rw [if_pos hc3]
            split at h
            split at h
            · rename_i hq
              rw [listLoop_mono _ _ hmono f F _ _ _ (by omega) hq]; exact h
            · rename_i hq
              rw [listLoop_mono _ _ hmono f F _ _ _ (by omega) hq]; exact h
            · simp at h
            · simp at h
          · rename_i hc3
            rw [if_neg hc3]
            split at h
            · rename_i hc4
              rw [if_pos hc4]
              split at h
              split at h
              · rename_i hq
                rw [dictLoop_mono _ _ hmono f F _ _ _ (by omega) hq]; exact h
              · rename_i hq
                rw [dictLoop_mono _ _ hmono f F _ _ _ (by omega) hq]; exact h
              · simp at h
              · simp at h
            · rename_i hc4
              rw [if_neg hc4]; exact h

/-! ## Duplicate keys -/

theorem lookup_mapAssign : ∀ (m : Entries) (k : List Nat) (v : BObject) (k' : List Nat),
    (mapAssign m k v).lookup k' = if k' = k then some v else m.lookup k' := by
  intro m
  induction m with
  | nil =>
    intro k v k'
    by_cases h : k' = k
    · simp [mapAssign, List.lookup, h]
    · have hb : (k' == k) = false := by simpa using h
      simp [mapAssign, List.lookup, h, hb]
  | cons e m ih =>
    intro k v k'
    obtain ⟨k0, v0⟩ := e
    unfold mapAssign
    by_cases h0 : k0 = k
    · subst h0
      rw [if_pos rfl]
      by_cases h : k' = k0
      · simp [List.lookup, h]
      · have hb : (k' == k0) = false := by simpa using h
        simp [List.lookup, h, hb]
    · rw [if_neg h0]
      by_cases h : k' = k0
      · subst h
        have : ¬ k' = k := h0
        simp [List.lookup, this]
      · have hb : (k' == k0) = false := by simpa using h
        simp only [List.lookup, hb]
        exact ih k v k'

theorem keys_mapAssign : ∀ (m : Entries) (k : List Nat) (v : BObject),
    (mapAssign m k v).map Prod.fst
      = if k ∈ m.map Prod.fst then m.map Prod.fst else m.map Prod.fst ++ [k] := by
  intro m
  induction m with
  | nil => intro k v; simp [mapAssign]
  | cons e m ih =>
    intro k v
    obtain ⟨k0, v0⟩ := e
    unfold mapAssign
    by_cases h0 : k0 = k
    · subst h0; simp
    · rw [if_neg h0]
      have hne : ¬ k = k0 := fun hh => h0 hh.symm
      simp only [List.map_cons, List.mem_cons, hne, false_or, ih k v]
      split <;> simp

theorem nodup_keys_mapAssign (m : Entries) (k : List Nat) (v : BObject)
    (h : (m.map Prod.fst).Nodup) : ((mapAssign m k v).map Prod.fst).Nodup := by
  rw [keys_mapAssign]
  split
  · exact h
  · rename_i hk
    exact List.Nodup.append h (List.nodup_singleton k)
      (by
        intro a ha hb
        simp only [List.mem_singleton] at hb
        subst hb
        exact hk ha)

theorem foldl_mapAssign_spec : ∀ (L : List (List Nat × List Nat × BObject)),
    ((L.foldl (fun m it => mapAssign m it.1 it.2.2) ([] : Entries)).map Prod.fst).Nodup
    ∧ ∀ k, (L.foldl (fun m it => mapAssign m it.1 it.2.2) ([] : Entries)).lookup k
        = (L.reverse.map (fun it => (it.1, it.2.2))).lookup k := by
  intro L
  induction L using List.reverseRecOn with
  | nil => simp [List.lookup]
  | append_singleton L x ih =>
    simp only [List.foldl_append, List.foldl_cons, List.foldl_nil, List.reverse_append,
      List.reverse_cons, List.reverse_nil, List.nil_append, List.singleton_append, List.map_cons]
    refine ⟨nodup_keys_mapAssign _ _ _ ih.1, ?_⟩
    intro k
    rw [lookup_mapAssign, ih.2 k]
    by_cases h : k = x.1
    · simp [List.lookup, h]
    · have hb : (k == x.1) = false := by simpa using h
      simp [List.lookup, h, hb]

theorem length_le_dictBody : ∀ (items : List (List Nat × List Nat × BObject)),
    items.length ≤ (dictBody items).length := by
  intro items
  induction items with
  | nil => simp
  | cons it items ih =>
    obtain ⟨k, c, x⟩ := it
    have := encString_length_pos k
    simp only [dictBody, List.length_cons, List.length_append]
    omega

theorem chunk_le_dictBody : ∀ (items : List (List Nat × List Nat × BObject))
    (it : List Nat × List Nat × BObject), it ∈ items →
    it.2.1.length + 2 ≤ (dictBody items).length := by
  intro items
  induction items with
  | nil => intro it h; simp at h
  | cons y items ih =>
    intro it h
    obtain ⟨k, c, x⟩ := y
    have := encString_length_pos k
    simp only [dictBody, List.length_append]
    rcases List.mem_cons.mp h with rfl | h
    · simp only; omega
    · have := ih it h; omega

/-- C9: duplicate keys, last write wins. For every dictionary input `d k1 v1 .. kn vn e`
whose keys are strings (possibly repeated) and whose values are complete encoded values,
`Parse` succeeds, consumes the whole input and returns a dictionary with one entry per
distinct key, each key mapped to the parsed value of its last occurrence. -/
theorem parse_dict_last_write_wins (items : List (List Nat × List Nat × BObject))
    (h : ∀ it ∈ items, it.1.length < 10 ^ 18 ∧ Decodes it.2.1 it.2.2) :
    ∃ (m : Entries) (lb : Option Nat),
      Parse (Reader.new (100 :: (dictBody items ++ [101])))
        = Run.done (Except.ok (BObject.mk BDICT (BValue.dict m)), Reader.mk [] lb)
      ∧ (m.map Prod.fst).Nodup
      ∧ ∀ k, m.lookup k = (items.reverse.map (fun it => (it.1, it.2.2))).lookup k := by
  have hlen := length_le_dictBody items
  obtain ⟨_, hp⟩ := ParseFuel_dict ((100 :: (dictBody items ++ [101])).length) items
    (fun it hit => ⟨(h it hit).1, (h it hit).2 _ (by
      have := chunk_le_dictBody items it hit
      simp only [List.length_cons, List.length_append, List.length_nil]
      omega)⟩)
    (by simp only [List.length_cons, List.length_append, List.length_nil]; omega)
  obtain ⟨lb, hp⟩ := hp [] none
  refine ⟨_, lb, ?_, (foldl_mapAssign_spec items).1, (foldl_mapAssign_spec items).2⟩
  simpa [Parse, Reader.new] using hp

theorem decodes_string (s : List Nat) (hs : s.length < 10 ^ 18) :
    Decodes (encString s) (BObject.mk BSTR (BValue.str s)) := by
  intro fuel hf
  obtain ⟨fuel, rfl⟩ : ∃ f, fuel = f + 1 := ⟨fuel - 1, by omega⟩
  exact ParseFuel_str fuel s hs

/-- C9, at the input `d1:a1:x1:a1:ye`: the key `a` twice, with the values `x` and `y`. -/
theorem parse_dict_last_write_wins_witness :
    ∃ (m : Entries) (lb : Option Nat),
      Parse (Reader.new (100 :: (dictBody
          [(bytes "a", encString (bytes "x"), BObject.mk BSTR (BValue.str (bytes "x"))),
           (bytes "a", encString (bytes "y"), BObject.mk BSTR (BValue.str (bytes "y")))]
          ++ [101])))
        = Run.done (Except.ok (BObject.mk BDICT (BValue.dict m)), Reader.mk [] lb)
      ∧ (m.map Prod.fst).Nodup
      ∧ ∀ k, m.lookup k = (([(bytes "a", encString (bytes "x"),
            BObject.mk BSTR (BValue.str (bytes "x"))),
           (bytes "a", encString (bytes "y"), BObject.mk BSTR (BValue.str (bytes "y")))] :
            List (List Nat × List Nat × BObject)).reverse.map
              (fun it => (it.1, it.2.2))).lookup k :=
  parse_dict_last_write_wins _ (by
    intro it hit
    simp only [List.mem_cons, List.mem_singleton, List.not_mem_nil, or_false] at hit
    rcases hit with rfl | rfl
    · exact ⟨by decide, decodes_string _ (by decide)⟩
    · exact ⟨by decide, decodes_string _ (by decide)⟩)

/-- The input `d1:a1:x1:a1:ye`, evaluated: it parses to the single entry
`a -> y`. -/
theorem parse_duplicate_key_example :
    Parse (Reader.new (bytes "d1:a1:x1:a1:ye"))
      = Run.done (Except.ok (BObject.mk BDICT (BValue.dict
          [(bytes "a", BObject.mk BSTR (BValue.str (bytes "y")))])), Reader.mk [] (some 101)) :=
  rfl

/-! ## Canonical bytes -/

theorem enumerate_insertionOrder {α : Type} (m : List (List Nat × α)) :
    enumerate insertionOrder m = m := by
  unfold enumerate insertionOrder
  rw [List.length_map]
  exact filterMap_range_getElem m

mutual
theorem reenumerate_insertionOrder : ∀ (v : BObject), reenumerate insertionOrder v = v
  | BObject.mk t (BValue.str s) => by simp [reenumerate]
  | BObject.mk t (BValue.int n) => by simp [reenumerate]
  | BObject.mk t BValue.nil => by simp [reenumerate]
  | BObject.mk t (BValue.list l) => by
    simp only [reenumerate, reenumerate_insertionOrder_list l]
  | BObject.mk t (BValue.dict m) => by
    simp only [reenumerate, enumerate_insertionOrder, reenumerate_insertionOrder_entries m]
theorem reenumerate_insertionOrder_list : ∀ (l : Objects),
    reenumerate.list insertionOrder l = l
  | [] => by simp [reenumerate.list]
  | x :: xs => by
    simp only [reenumerate.list, reenumerate_insertionOrder x,
      reenumerate_insertionOrder_list xs]
theorem reenumerate_insertionOrder_entries : ∀ (m : Entries),
    reenumerate.entries insertionOrder m = m
  | [] => by simp [reenumerate.entries]
  | (k, v) :: rest => by
    simp only [reenumerate.entries, reenumerate_insertionOrder v,
      reenumerate_insertionOrder_entries rest]
end

mutual
theorem enc_eq_insertionOrder (order : List (List Nat) → List Nat)
    (hasc : ∀ ks : List (List Nat), sortedKeyList ks = true → ks.Nodup →
      order ks = List.range ks.length) :
    ∀ (v : BObject), sortedKeys v = true → distinctKeys v = true →
    enc order v = enc insertionOrder v
  | BObject.mk t (BValue.str s), _, _ => by simp [enc]
  | BObject.mk t (BValue.int n), _, _ => by simp [enc]
  | BObject.mk t BValue.nil, _, _ => by simp [enc]
  | BObject.mk t (BValue.list l), hs, hd => by
    simp only [sortedKeys] at hs
    simp only [distinctKeys] at hd
    simp only [enc, enc_eq_insertionOrder_list order hasc l hs hd]
  | BObject.mk t (BValue.dict m), hs, hd => by
    simp only [sortedKeys, Bool.and_eq_true] at hs
    simp only [distinctKeys, Bool.and_eq_true, decide_eq_true_eq] at hd
    simp only [enc, enc_eq_insertionOrder_entries order hasc m hs.2 hd.2]
    have hk : (enc.entries insertionOrder m).map Prod.fst = m.map Prod.fst := by
      rw [enc_entries_eq_map]
      simp [List.map_map, Function.comp_def]
    have he : enumerate order (enc.entries insertionOrder m)
        = enumerate insertionOrder (enc.entries insertionOrder m) := by
      unfold enumerate
      rw [hk, hasc _ hs.1 hd.1]
      rfl
    rw [he]
theorem enc_eq_insertionOrder_list (order : List (List Nat) → List Nat)
    (hasc : ∀ ks : List (List Nat), sortedKeyList ks = true → ks.Nodup →
      order ks = List.range ks.length) :
    ∀ (l : Objects), sortedKeys.list l = true → distinctKeys.list l = true →
    enc.list order l = enc.list insertionOrder l
  | [], _, _ => by simp [enc.list]
  | x :: xs, hs, hd => by
    simp only [sortedKeys.list, Bool.and_eq_true] at hs
    simp only [distinctKeys.list, Bool.and_eq_true] at hd
    simp only [enc.list, enc_eq_insertionOrder order hasc x hs.1 hd.1,
      enc_eq_insertionOrder_list order hasc xs hs.2 hd.2]
theorem enc_eq_insertionOrder_entries (order : List (List Nat) → List Nat)
    (hasc : ∀ ks : List (List Nat), sortedKeyList ks = true → ks.Nodup →
      order ks = List.range ks.length) :
    ∀ (m : Entries), sortedKeys.entries m = true → distinctKeys.entries m = true →
    enc.entries order m = enc.entries insertionOrder m
  | [], _, _ => by simp [enc.entries]
  | (k, v) :: rest, hs, hd => by
    simp only [sortedKeys.entries, Bool.and_eq_true] at hs
    simp only [distinctKeys.entries, Bool.and_eq_true] at hd
    simp only [enc.entries, enc_eq_insertionOrder order hasc v hs.1 hd.1,
      enc_eq_insertionOrder_entries order hasc rest hs.2 hd.2]
end

theorem decimalDigits_digit (n : Nat) (h : n < 10) : decimalDigits n = [48 + n] := by
  rw [decimalDigits, if_pos h]

/-- C5 (as stated, refuted): `d1:ai1e1:bi2ee` is canonical, with its two keys sorted and
distinct, and `Parse` succeeds on it; when the map of the result is enumerated second
entry first, which Go allows, `Bencode` writes `d1:bi2e1:ai1ee`, not the input. -/
theorem canonical_roundtrip_fails :
    enc insertionOrder twoKeys = bytes "d1:ai1e1:bi2ee"
    ∧ typed twoKeys = true ∧ bounded twoKeys = true
    ∧ sortedKeys twoKeys = true ∧ distinctKeys twoKeys = true
    ∧ Parse (Reader.new (bytes "d1:ai1e1:bi2ee"))
        = Run.done (Except.ok twoKeys, Reader.mk [] (some 101))
    ∧ IsEnumeration reverseOrder
    ∧ BObject.Bencode reverseOrder twoKeys [] = Run.done (14, bytes "d1:bi2e1:ai1ee")
    ∧ bytes "d1:bi2e1:ai1ee" ≠ bytes "d1:ai1e1:bi2ee" := by
  refine ⟨?_, by decide, by decide, by decide, by decide, rfl, isEnumeration_reverseOrder,
    rfl, by decide⟩
  simp [twoKeys, enc, enc.entries, enumerate_insertionOrder, encChunks, encString, encInt,
    canonicalDecimal, decimalDigits_digit, bytes]

/-- C5 (amended): for canonical bytes `b` (the reference encoding of a well-formed tree
with integers and lengths below `10 ^ 18`) whose dictionaries all have keys sorted and
distinct, `Parse` succeeds and consumes `b`; and when the maps enumerate sorted, distinct
keys in their order, `Bencode` of the result writes exactly `b`. -/
theorem canonical_roundtrip (order : List (List Nat) → List Nat)
    (hasc : ∀ ks : List (List Nat), sortedKeyList ks = true → ks.Nodup →
      order ks = List.range ks.length)
    (v : BObject) (ht : typed v = true) (hb : bounded v = true)
    (hs : sortedKeys v = true) (hd : distinctKeys v = true) :
    ∃ (v' : BObject) (lb : Option Nat) (n : Int),
      Parse (Reader.new (enc insertionOrder v)) = Run.done (Except.ok v', Reader.mk [] lb)
      ∧ BObject.Bencode order v' [] = Run.done (n, enc insertionOrder v) := by
  obtain ⟨_, hp⟩ := parse_enc insertionOrder isEnumeration_insertionOrder v ht hb hd
    ((enc insertionOrder v).length + 1) (by omega)
  obtain ⟨lb, hp⟩ := hp [] none
  rw [reenumerate_insertionOrder] at hp
  refine ⟨v, lb, ((enc order v).length : Int), ?_, ?_⟩
  · simpa [Parse, Reader.new] using hp
  · rw [← enc_eq_insertionOrder order hasc v hs hd]
    simpa using Bencode_eq_enc order v ht hb []

/-- C5 (amended), at `sortedTree` with the maps enumerated in insertion order. -/
theorem canonical_roundtrip_witness :
    ∃ (v' : BObject) (lb : Option Nat) (n : Int),
      Parse (Reader.new (enc insertionOrder sortedTree))
        = Run.done (Except.ok v', Reader.mk [] lb)
      ∧ BObject.Bencode insertionOrder v' [] = Run.done (n, enc insertionOrder sortedTree) :=
  canonical_roundtrip insertionOrder (fun _ _ _ => rfl) sortedTree (by decide) (by decide)
    (by decide) (by decide)

/-! ## Unterminated containers -/

theorem listLoop_unterminated (parse : Reader → Parsed) :
    ∀ (items : List (List Nat × BObject)), (∀ it ∈ items, ParsesTo parse it.1 it.2) →
    ∀ (fuel : Nat) (acc : Objects) (lb : Option Nat), items.length < fuel →
    Parse.listLoop parse fuel (Reader.mk (listBody items) lb) acc
      = Run.panic Panic.indexOutOfRange := by
  intro items
  induction items with
  | nil =>
    intro _ fuel acc lb hf
    obtain ⟨fuel, rfl⟩ : ∃ f, fuel = f + 1 := ⟨fuel - 1, by simp at hf; omega⟩
    simp [Parse.listLoop, listBody, Reader.Peek1]
  | cons it items ih =>
    intro h fuel acc lb hf
    obtain ⟨fuel, rfl⟩ : ∃ f, fuel = f + 1 := ⟨fuel - 1, by simp at hf; omega⟩
    obtain ⟨chunk, x⟩ := it
    obtain ⟨⟨c, rest, hc, hne⟩, hp⟩ := h (chunk, x) (List.mem_cons_self _ _)
    simp only at hc hp
    obtain ⟨lb', hp'⟩ := hp (listBody items) none
    subst hc
    simp only [listBody, List.cons_append] at hp' ⊢
    simp only [Parse.listLoop, Reader.Peek1, if_neg hne, hp']
    exact ih (fun it hit => h it (List.mem_cons_of_mem _ hit)) fuel _ lb'
      (by simp at hf; omega)

theorem dictLoop_unterminated (parse : Reader → Parsed) :
    ∀ (items : List (List Nat × List Nat × BObject)),
    (∀ it ∈ items, it.1.length < 10 ^ 18 ∧ ParsesTo parse it.2.1 it.2.2) →
    ∀ (fuel : Nat) (acc : Entries) (lb : Option Nat), items.length < fuel →
    Parse.dictLoop parse fuel (Reader.mk (dictBody items) lb) acc
      = Run.panic Panic.indexOutOfRange := by
  intro items
  induction items with
  | nil =>
    intro _ fuel acc lb hf
    obtain ⟨fuel, rfl⟩ : ∃ f, fuel = f + 1 := ⟨fuel - 1, by simp at hf; omega⟩
    simp [Parse.dictLoop, dictBody, Reader.Peek1]
  | cons it items ih =>
    intro h fuel acc lb hf
    obtain ⟨fuel, rfl⟩ : ∃ f, fuel = f + 1 := ⟨fuel - 1, by simp at hf; omega⟩
    obtain ⟨k, chunk, x⟩ := it
    obtain ⟨hk, _, hp⟩ := h (k, chunk, x) (List.mem_cons_self _ _)
    simp only at hk hp
    obtain ⟨lb', hp'⟩ := hp (dictBody items) (58 :: k).getLast?
    obtain ⟨b, rest, hb, hb1, hb2⟩ := encString_head k
    have hne : b ≠ 101 := by omega
    have hd := DecodeString_encString k (chunk ++ dictBody items) hk none
    simp only [dictBody] at hp' hd ⊢
    rw [hb] at hd ⊢
    simp only [List.cons_append] at hd ⊢
    simp only [Parse.dictLoop, Reader.Peek1, if_neg hne, hd, hp']
    exact ih (fun it hit => h it (List.mem_cons_of_mem _ hit)) fuel _ lb'
      (by simp at hf; omega)

theorem length_le_listBody : ∀ (items : List (List Nat × BObject)),
    (∀ it ∈ items, it.1 ≠ []) → items.length ≤ (listBody items).length := by
  intro items
  induction items with
  | nil => intro _; simp
  | cons it items ih =>
    intro h
    obtain ⟨c, x⟩ := it
    have hc : c ≠ [] := h (c, x) (List.mem_cons_self _ _)
    have : 0 < c.length := List.length_pos.mpr hc
    have := ih (fun it hit => h it (List.mem_cons_of_mem _ hit))
    simp only [listBody, List.length_cons, List.length_append]
    omega

theorem chunk_le_listBody : ∀ (items : List (List Nat × BObject)) (it : List Nat × BObject),
    it ∈ items → it.1.length ≤ (listBody items).length := by
  intro items
  induction items with
  | nil => intro it h; simp at h
  | cons y items ih =>
    intro it h
    obtain ⟨c, x⟩ := y
    simp only [listBody, List.length_append]
    rcases List.mem_cons.mp h with rfl | h
    · simp only; omega
    · have := ih it h; omega

/-- The unchecked lookahead of the loops, in general: a list opened with `l`, or a dictionary with
`d`, that holds any number of complete members and then ends makes `Parse` panic on the
lookahead. -/
theorem parse_unterminated_panics_general (members : List (List Nat × BObject))
    (entries : List (List Nat × List Nat × BObject))
    (hm : ∀ it ∈ members, Decodes it.1 it.2)
    (he : ∀ it ∈ entries, it.1.length < 10 ^ 18 ∧ Decodes it.2.1 it.2.2) :
    Parse (Reader.new (108 :: listBody members)) = Run.panic Panic.indexOutOfRange
    ∧ Parse (Reader.new (100 :: dictBody entries)) = Run.panic Panic.indexOutOfRange := by
  constructor
  · have hne : ∀ it ∈ members, it.1 ≠ [] := by
      intro it hit hnil
      obtain ⟨⟨c, rest, hc, _⟩, _⟩ := hm it hit (it.1.length + 1) (by omega)
      rw [hnil] at hc; cases hc
    have hlen := length_le_listBody members hne
    have hl := listLoop_unterminated (ParseFuel ((listBody members).length + 1)) members
      (fun it hit => hm it hit _ (by
        have := chunk_le_listBody members it hit
        omega))
      ((listBody members).length + 1) [] (some 108) (by omega)
    simp only [Parse, Reader.new, List.length_cons]
    rw [ParseFuel]
    simp [Reader.Peek1, Reader.ReadByte, hl]
  · have hlen := length_le_dictBody entries
    have hl := dictLoop_unterminated (ParseFuel ((dictBody entries).length + 1)) entries
      (fun it hit => ⟨(he it hit).1, (he it hit).2 _ (by
        have := chunk_le_dictBody entries it hit
        omega)⟩)
      ((dictBody entries).length + 1) [] (some 100) (by omega)
    simp only [Parse, Reader.new, List.length_cons]
    rw [ParseFuel]
    simp [Reader.Peek1, Reader.ReadByte, hl]

/-! ## The string codec consumes exactly what it wrote -/

/-- C11: string codec round trip with exact consumption. For every string `s` shorter
than `10 ^ 18` bytes and every trailing `t`, `EncodeString` writes some bytes `out` and
returns their number, and `DecodeString` on a buffered source holding `out ++ t` returns
`s` with a nil error and leaves exactly `t` unread. -/
theorem decodeString_encodeString (s t : List Nat) (hs : s.length < 1000000000000000000)
    (lb : Option Nat) :
    ∃ (out : List Nat) (lb' : Option Nat),
      EncodeString [] s = Run.done ((out.length : Int), out)
      ∧ DecodeString (Reader.mk (out ++ t) lb) = Run.done (s, none, Reader.mk t lb') := by
  have hs' : s.length < 10 ^ 18 := by rw [pow10_18]; exact hs
  refine ⟨encString s, (58 :: s).getLast?, ?_, DecodeString_encString s t hs' lb⟩
  simpa using EncodeString_eq [] s hs'

/-- C11, at the string `abc` followed by `de`: `3:abc` is decoded and `de` is left. -/
theorem decodeString_encodeString_witness :
    ∃ (out : List Nat) (lb' : Option Nat),
      EncodeString [] (bytes "abc") = Run.done ((out.length : Int), out)
      ∧ DecodeString (Reader.mk (out ++ bytes "de") none)
          = Run.done (bytes "abc", none, Reader.mk (bytes "de") lb') :=
  decodeString_encodeString (bytes "abc") (bytes "de") (by decide) none

/-- The example `3:abc`, evaluated: exactly five bytes are consumed. -/
theorem decodeString_example :
    EncodeString [] (bytes "abc") = Run.done (5, bytes "3:abc")
    ∧ DecodeString (Reader.new (bytes "3:abcde"))
        = Run.done (bytes "abc", none, Reader.mk (bytes "de") (some 99)) := ⟨rfl, rfl⟩

/-! ## Missing digits, the ends of the 64-bit range, negative lengths -/

/-- C13 (the code at the failing inputs): on `-:abc` `readDecimal` counts one byte, not
zero, and `DecodeString` returns the empty string with a nil error; on `-:` likewise; on
`-` and `-x` the error is `ErrCol`. `ErrNum` is returned in none of the cases. -/
theorem lone_minus_not_ErrNum :
    readDecimal (Reader.new (bytes "-:abc")) = Run.done (0, 1, Reader.mk (bytes ":abc") none)
    ∧ DecodeString (Reader.new (bytes "-:abc"))
        = Run.done ([], none, Reader.mk (bytes "abc") (some 58))
    ∧ DecodeString (Reader.new (bytes "-:")) = Run.done ([], none, Reader.mk [] (some 58))
    ∧ DecodeString (Reader.new (bytes "-"))
        = Run.done ([], some GoError.ErrCol, Reader.mk [] (some 45))
    ∧ DecodeString (Reader.new (bytes "-x"))
        = Run.done ([], some GoError.ErrCol, Reader.mk [] (some 120)) :=
  ⟨rfl, rfl, rfl, rfl, rfl⟩

/-- C14 (the code at the failing inputs): on `ie` and on `i-e` `DecodeInt` returns `0` with
a nil error, and `Parse` returns the integer `0`. -/
theorem missing_digits_accepted :
    DecodeInt (Reader.new (bytes "ie")) = Run.done (0, none, Reader.mk [] (some 101))
    ∧ DecodeInt (Reader.new (bytes "i-e")) = Run.done (0, none, Reader.mk [] (some 101))
    ∧ Parse (Reader.new (bytes "ie"))
        = Run.done (Except.ok (BObject.mk BINT (BValue.int 0)), Reader.mk [] (some 101))
    ∧ Parse (Reader.new (bytes "i-e"))
        = Run.done (Except.ok (BObject.mk BINT (BValue.int 0)), Reader.mk [] (some 101)) :=
  ⟨rfl, rfl, rfl, rfl⟩

theorem wrap64_le (x : Int) : wrap64 x ≤ 9223372036854775807 := by
  unfold wrap64; omega

theorem findDividend_maxInt : ∀ (fuel : Nat) (d : Int), d ≤ 9223372036854775807 →
    writeDecimal.findDividend fuel 9223372036854775807 d = none := by
  intro fuel
  induction fuel with
  | zero => intro d _; rfl
  | succ fuel ih =>
    intro d hd
    unfold writeDecimal.findDividend
    rw [if_neg (by omega)]
    exact ih _ (wrap64_le _)

/-- C15 (the code at the failing inputs): `writeDecimal` panics with a division by zero
on `10 ^ 18` and on `-2 ^ 63`, and on `2 ^ 63 - 1` its first loop never ends, whatever
the fuel. -/
theorem writeDecimal_fails :
    writeDecimal [] 1000000000000000000 = Run.panic Panic.divideByZero
    ∧ writeDecimal [] (-9223372036854775808) = Run.panic Panic.divideByZero
    ∧ ∀ (fuel : Nat) (w : Writer),
        writeDecimalFuel fuel w 9223372036854775807 = Run.outOfFuel := by
  refine ⟨by decide, by decide, ?_⟩
  intro fuel w
  unfold writeDecimalFuel
  simp [findDividend_maxInt fuel 1 (by decide)]

/-- C20 (the code at the failing inputs): on `-3:abc` `DecodeString` asks `make` for a
buffer of length `-3` and panics, and so does `Parse` on `d-3:abci1ee`, where the prefix
is that of a dictionary key. -/
theorem negative_length_panics :
    DecodeString (Reader.new (bytes "-3:abc")) = Run.panic Panic.makesliceLen
    ∧ Parse (Reader.new (bytes "d-3:abci1ee")) = Run.panic Panic.makesliceLen := ⟨rfl, rfl⟩

/-! ## Permissive decimal reading -/

theorem digitsVal_eq_decimalValue : ∀ (ds : List Nat) (acc : Nat),
    digitsVal acc ds = acc * 10 ^ ds.length + decimalValue ds := by
  intro ds
  induction ds with
  | nil => intro acc; simp [digitsVal, decimalValue]
  | cons d ds ih =>
    intro acc
    have h := ih (acc * 10 + (d - 48))
    simp only [digitsVal, List.foldl_cons] at h ⊢
    rw [h]
    simp only [decimalValue, List.map_cons, List.reverse_cons, Nat.ofDigits_append,
      Nat.ofDigits_singleton, List.length_reverse, List.length_map, List.length_cons]
    ring

theorem decimalValue_lt : ∀ (ds : List Nat), (∀ d ∈ ds, checkNum d = true) →
    decimalValue ds < 10 ^ ds.length := by
  intro ds
  induction ds with
  | nil => intro _; simp [decimalValue]
  | cons d ds ih =>
    intro h
    have hd : 48 ≤ d ∧ d ≤ 57 := by
      simpa [checkNum] using h d (List.mem_cons_self _ _)
    have := ih (fun x hx => h x (List.mem_cons_of_mem _ hx))
    simp only [decimalValue, List.map_cons, List.reverse_cons, Nat.ofDigits_append,
      Nat.ofDigits_singleton, List.length_reverse, List.length_map, List.length_cons] at this ⊢
    have hd' : d - 48 ≤ 9 := by omega
    calc Nat.ofDigits 10 (List.map (fun d => d - 48) ds).reverse + 10 ^ ds.length * (d - 48)
        < 10 ^ ds.length + 10 ^ ds.length * 9 := by
          have := Nat.mul_le_mul_left (10 ^ ds.length) hd'
          omega
      _ = 10 ^ (ds.length + 1) := by ring

theorem decimalValue_lt_of_length (ds : List Nat) (h : ∀ d ∈ ds, checkNum d = true)
    (hlen : ds.length ≤ 18) : decimalValue ds < 1000000000000000000 := by
  have h1 := decimalValue_lt ds h
  have h2 := pow10_le_18 hlen
  rw [pow10_18] at h2
  omega

theorem digitsVal_zero (ds : List Nat) : digitsVal 0 ds = decimalValue ds := by
  rw [digitsVal_eq_decimalValue]; simp

/-- C18: permissive decimal reading. An optional `-`, then between one and eighteen ASCII
digits `b :: ds` (leading zeros allowed), then a byte `c` that is not a digit: `readDecimal`
returns the number the digits denote, negated after a `-`, counts the sign and the digits,
and leaves `c` as the next unread byte. Consequently `DecodeInt` reads `i007e` as `7`,
`i-3e` as `-3` and `i-0e` as `0`, without error. -/
theorem readDecimal_permissive (neg : Bool) (b : Nat) (ds : List Nat) (c : Nat) (t : List Nat)
    (lb : Option Nat) (hb : checkNum b = true) (hds : ∀ d ∈ ds, checkNum d = true)
    (hlen : (b :: ds).length ≤ 18) (hc : checkNum c = false) :
    readDecimal (Reader.mk ((if neg then [45] else []) ++ (b :: ds) ++ c :: t) lb)
      = Run.done ((if neg then -(decimalValue (b :: ds) : Int) else (decimalValue (b :: ds) : Int)),
          (if neg then 1 else 0) + ((b :: ds).length : Int), Reader.mk (c :: t) none)
    ∧ DecodeInt (Reader.new (bytes "i007e")) = Run.done (7, none, Reader.mk [] (some 101))
    ∧ DecodeInt (Reader.new (bytes "i-3e")) = Run.done (-3, none, Reader.mk [] (some 101))
    ∧ DecodeInt (Reader.new (bytes "i-0e")) = Run.done (0, none, Reader.mk [] (some 101)) := by
  refine ⟨?_, rfl, rfl, rfl⟩
  have hall : ∀ d ∈ b :: ds, checkNum d = true := by
    intro d hd
    rcases List.mem_cons.mp hd with rfl | hd
    · exact hb
    · exact hds d hd
  have hv := decimalValue_lt_of_length (b :: ds) hall hlen
  have hval : digitsVal 0 (b :: ds) < 9223372036854775808 := by
    rw [digitsVal_zero]; omega
  cases neg with
  | false =>
    have := readDecimal_digits c t hc b ds hb hds hval lb
    rw [digitsVal_zero] at this
    simpa using this
  | true =>
    have := readDecimal_neg_digits c t hc b ds hb hds hval lb
    rw [digitsVal_zero] at this
    have e : (1 : Int) + ((b :: ds).length : Int) = ((b :: ds).length : Int) + 1 := by ring
    simp only [if_true, List.singleton_append, List.cons_append, List.nil_append,
      List.append_assoc] at this ⊢
    rw [this, e]

/-- C18, at the input `-007x9`. -/
theorem readDecimal_permissive_witness :
    readDecimal (Reader.mk ((if true then [45] else []) ++ (48 :: bytes "07") ++ 120 :: bytes "9")
        none)
      = Run.done ((if true then -(decimalValue (48 :: bytes "07") : Int)
            else (decimalValue (48 :: bytes "07") : Int)),
          (if true then 1 else 0) + ((48 :: bytes "07").length : Int),
          Reader.mk (120 :: bytes "9") none)
    ∧ DecodeInt (Reader.new (bytes "i007e")) = Run.done (7, none, Reader.mk [] (some 101))
    ∧ DecodeInt (Reader.new (bytes "i-3e")) = Run.done (-3, none, Reader.mk [] (some 101))
    ∧ DecodeInt (Reader.new (bytes "i-0e")) = Run.done (0, none, Reader.mk [] (some 101)) :=
  readDecimal_permissive true 48 (bytes "07") 120 (bytes "9") none (by decide) (by decide)
    (by decide) (by decide)

/-! ## Missing colon -/

theorem readLoop_run (sign : Int) (c : Nat) (t : List Nat) (hc : checkNum c = false) :
    ∀ (ds : List Nat), (∀ d ∈ ds, checkNum d = true) →
    ∀ (fuel b : Nat) (val len : Int) (lb : Option Nat), checkNum b = true →
      ds.length + 2 ≤ fuel →
      ∃ v : Int, readDecimal.loop sign fuel (Reader.mk (ds ++ c :: t) lb) b val len
        = Run.done (v, len + (ds.length : Int), Reader.mk (c :: t) none) := by
  intro ds
  induction ds with
  | nil =>
    intro _ fuel b val len lb hb hf
    obtain ⟨fuel, rfl⟩ : ∃ f, fuel = f + 2 := ⟨fuel - 2, by simp at hf; omega⟩
    refine ⟨wrap64 (sign * wrap64 (wrap64 (val * 10) + ((b : Int) - 48))), ?_⟩
    simp only [readDecimal.loop, hb, hc, Bool.not_true, Bool.not_false, if_true,
      Bool.false_eq_true, if_false, Reader.ReadByte, List.nil_append, Reader.UnreadByte]
    simp
  | cons d ds ih =>
    intro hds fuel b val len lb hb hf
    obtain ⟨fuel, rfl⟩ : ∃ f, fuel = f + 1 := ⟨fuel - 1, by simp at hf; omega⟩
    obtain ⟨v, hv⟩ := ih (fun x hx => hds x (List.mem_cons_of_mem _ hx)) fuel d
      (wrap64 (wrap64 (val * 10) + ((b : Int) - 48))) (len + 1) (some d)
      (hds d (List.mem_cons_self _ _)) (by simp at hf ⊢; omega)
    refine ⟨v, ?_⟩
    simp only [readDecimal.loop, hb, Bool.not_true, Bool.false_eq_true, if_false,
      Reader.ReadByte, List.cons_append]
    rw [hv]
    simp
    omega

theorem readLoop_run_eof (sign : Int) :
    ∀ (ds : List Nat), (∀ d ∈ ds, checkNum d = true) →
    ∀ (fuel b : Nat) (val len : Int), checkNum b = true → ds.length + 2 ≤ fuel →
      ∃ (v : Int) (d : Nat), checkNum d = true ∧
        readDecimal.loop sign fuel (Reader.mk ds (some b)) b val len
          = Run.done (v, len + (ds.length : Int), Reader.mk [d] none) := by
  intro ds
  induction ds with
  | nil =>
    intro _ fuel b val len hb hf
    obtain ⟨fuel, rfl⟩ : ∃ f, fuel = f + 2 := ⟨fuel - 2, by simp at hf; omega⟩
    refine ⟨wrap64 (sign * wrap64 (wrap64 (val * 10) + ((b : Int) - 48))), b, hb, ?_⟩
    have h0 : checkNum 0 = false := by decide
    simp only [readDecimal.loop, hb, h0, Bool.not_true, Bool.not_false, if_true,
      Bool.false_eq_true, if_false, Reader.ReadByte, Reader.UnreadByte]
    simp
  | cons d ds ih =>
    intro hds fuel b val len hb hf
    obtain ⟨fuel, rfl⟩ : ∃ f, fuel = f + 1 := ⟨fuel - 1, by simp at hf; omega⟩
    obtain ⟨v, e, he, hv⟩ := ih (fun x hx => hds x (List.mem_cons_of_mem _ hx)) fuel d
      (wrap64 (wrap64 (val * 10) + ((b : Int) - 48))) (len + 1)
      (hds d (List.mem_cons_self _ _)) (by simp at hf ⊢; omega)
    refine ⟨v, e, he, ?_⟩
    simp only [readDecimal.loop, hb, Bool.not_true, Bool.false_eq_true, if_false,
      Reader.ReadByte]
    rw [hv]
    simp
    omega

/-- C12: missing colon. The input starts with the ASCII digits `b :: ds`; what follows is
either nothing at all, or a byte `c` that is neither a digit nor `:` and then any bytes.
`DecodeString` returns the empty string and `ErrCol`, however long the digit run is. -/
theorem decodeString_missing_colon (b : Nat) (ds rest : List Nat) (lb : Option Nat)
    (hb : checkNum b = true) (hds : ∀ d ∈ ds, checkNum d = true)
    (hrest : rest = [] ∨ ∃ c t, rest = c :: t ∧ checkNum c = false ∧ c ≠ 58) :
    ∃ r : Reader, DecodeString (Reader.mk (b :: ds ++ rest) lb)
      = Run.done ([], some GoError.ErrCol, r) := by
  have hb' : 48 ≤ b ∧ b ≤ 57 := by simpa [checkNum] using hb
  have h45 : b ≠ 45 := by omega
  rcases hrest with rfl | ⟨c, t, rfl, hc, hc58⟩
  · obtain ⟨v, d, hd, hv⟩ := readLoop_run_eof 1 ds hds ((b :: ds).length + 2) b 0 1 hb
      (by simp)
    have hd' : 48 ≤ d ∧ d ≤ 57 := by simpa [checkNum] using hd
    have hd58 : d ≠ 58 := by omega
    refine ⟨Reader.mk [] (some d), ?_⟩
    simp only [DecodeString, readDecimal, Reader.ReadByte, List.append_nil, if_neg h45, hv]
    have hlen : ¬ ((1 : Int) + (ds.length : Int) = 0) := by omega
    simp [hlen, hd58]
  · obtain ⟨v, hv⟩ := readLoop_run 1 c t hc ds hds ((b :: (ds ++ c :: t)).length + 2) b 0 1
      (some b) hb (by simp; omega)
    refine ⟨Reader.mk t (some c), ?_⟩
    simp only [DecodeString, readDecimal, Reader.ReadByte, List.cons_append, if_neg h45, hv]
    have hlen : ¬ ((1 : Int) + (ds.length : Int) = 0) := by omega
    simp [hlen, hc58]

/-- C12, at the input `3abc`. -/
theorem decodeString_missing_colon_witness :
    ∃ r : Reader, DecodeString (Reader.mk (51 :: [] ++ bytes "abc") none)
      = Run.done ([], some GoError.ErrCol, r) :=
  decodeString_missing_colon 51 [] (bytes "abc") none (by decide) (by decide)
    (Or.inr ⟨97, bytes "bc", by decide, by decide, by decide⟩)

/-- The examples of a missing colon, evaluated: `3abc`, a digit run at the end of the
input, and a digit run too long for 64 bits. -/
theorem decodeString_missing_colon_examples :
    DecodeString (Reader.new (bytes "3abc"))
      = Run.done ([], some GoError.ErrCol, Reader.mk (bytes "bc") (some 97))
    ∧ DecodeString (Reader.new (bytes "12"))
      = Run.done ([], some GoError.ErrCol, Reader.mk [] (some 50))
    ∧ DecodeString (Reader.new (bytes "99999999999999999999x"))
      = Run.done ([], some GoError.ErrCol, Reader.mk [] (some 120)) := ⟨rfl, rfl, rfl⟩

/-! ## Short reads -/

theorem readAtLeast_short (payload : List Nat) (lb : Option Nat) (n : Nat)
    (h : payload.length < n) :
    (Reader.mk payload lb).ReadAtLeast n
      = (payload ++ List.replicate (n - payload.length) 0,
          some (if payload = [] then GoError.EOF else GoError.ErrUnexpectedEOF),
          Reader.mk [] (if payload = [] then lb else payload.getLast?)) := by
  have hn : n ≠ 0 := by omega
  have htake : payload.take n = payload := List.take_of_length_le (by omega)
  cases payload with
  | nil => simp [Reader.ReadAtLeast, hn]
  | cons p ps =>
    simp only [Reader.ReadAtLeast, if_neg hn, htake]
    simp at h
    simp [h]

theorem DecodeStringWithin_agrees (limit : Nat) (br : Reader) :
    DecodeStringWithin limit br = DecodeString br
    ∨ DecodeStringWithin limit br = Run.panic Panic.makesliceLen := by
  unfold DecodeStringWithin DecodeString
  cases readDecimal br with
  | done a =>
    obtain ⟨num, len, r⟩ := a
    simp only []
    split_ifs <;> simp_all
  | panic p => exact Or.inl rfl
  | outOfFuel => exact Or.inl rfl

theorem listLoop_agrees (p p' : Reader → Parsed)
    (hp : ∀ r, p' r = p r ∨ p' r = Run.panic Panic.makesliceLen) :
    ∀ (n : Nat) (br : Reader) (acc : Objects),
    Parse.listLoop p' n br acc = Parse.listLoop p n br acc
    ∨ Parse.listLoop p' n br acc = Run.panic Panic.makesliceLen := by
  intro n
  induction n with
  | zero => intro br acc; exact Or.inl rfl
  | succ n ih =>
    intro br acc
    obtain ⟨buf, lb⟩ := br
    cases buf with
    | nil => exact Or.inl rfl
    | cons c rest =>
      simp only [Parse.listLoop, Reader.Peek1]
      by_cases hc : c = 101
      · simp [hc]
      · simp only [if_neg hc]
        rcases hp (Reader.mk (c :: rest) none) with h | h
        · rw [h]
          cases p (Reader.mk (c :: rest) none) with
          | done a =>
            obtain ⟨res, r2⟩ := a
            cases res with
            | error e => exact Or.inl rfl
            | ok x => exact ih r2 _
          | panic q => exact Or.inl rfl
          | outOfFuel => exact Or.inl rfl
        · rw [h]
          exact Or.inr rfl

theorem dictLoopWithin_agrees (limit : Nat) (p p' : Reader → Parsed)
    (hp : ∀ r, p' r = p r ∨ p' r = Run.panic Panic.makesliceLen) :
    ∀ (n : Nat) (br : Reader) (acc : Entries),
    Parse.dictLoopWithin limit p' n br acc = Parse.dictLoop p n br acc
    ∨ Parse.dictLoopWithin limit p' n br acc = Run.panic Panic.makesliceLen := by
  intro n
  induction n with
  | zero => intro br acc; exact Or.inl rfl
  | succ n ih =>
    intro br acc
    obtain ⟨buf, lb⟩ := br
    cases buf with
    | nil => exact Or.inl rfl
    | cons c rest =>
      simp only [Parse.dictLoopWithin, Parse.dictLoop, Reader.Peek1]
      by_cases hc : c = 101
      · simp [hc]
      · simp only [if_neg hc]
        rcases DecodeStringWithin_agrees limit (Reader.mk (c :: rest) none) with hk | hk
        · rw [hk]
          cases DecodeString (Reader.mk (c :: rest) none) with
          | done a =>
            obtain ⟨key, err, r1⟩ := a
            cases err with
            | some e => exact Or.inl rfl
            | none =>
              simp only []
              rcases hp r1 with h | h
              · rw [h]
                cases p r1 with
                | done a =>
                  obtain ⟨res, r2⟩ := a
                  cases res with
                  | error e => exact Or.inl rfl
                  | ok x => exact ih r2 _
                | panic q => exact Or.inl rfl
                | outOfFuel => exact Or.inl rfl
              · rw [h]
                exact Or.inr rfl
          | panic q => exact Or.inl rfl
          | outOfFuel => exact Or.inl rfl
        · rw [hk]
          exact Or.inr rfl

theorem ParseFuelWithin_agrees (limit : Nat) : ∀ (f : Nat) (br : Reader),
    ParseFuelWithin limit f br = ParseFuel f br
    ∨ ParseFuelWithin limit f br = Run.panic Panic.makesliceLen := by
  intro f
  induction f with
  | zero => intro br; exact Or.inl rfl
  | succ f ih =>
    intro br
    obtain ⟨buf, lb⟩ := br
    cases buf with
    | nil => exact Or.inl rfl
    | cons c rest =>
      simp only [ParseFuelWithin, ParseFuel, Reader.Peek1]
      split_ifs with h1 h2 h3 h4
      · rcases DecodeStringWithin_agrees limit (Reader.mk (c :: rest) none) with hk | hk
        · rw [hk]; exact Or.inl rfl
        · rw [hk]; exact Or.inr rfl
      · exact Or.inl rfl
      · simp only [Reader.ReadByte]
        rcases listLoop_agrees (ParseFuel f) (ParseFuelWithin limit f) ih f
          (Reader.mk rest (some c)) [] with hl | hl
        · rw [hl]; exact Or.inl rfl
        · rw [hl]; exact Or.inr rfl
      · simp only [Reader.ReadByte]
        rcases dictLoopWithin_agrees limit (ParseFuel f) (ParseFuelWithin limit f) ih f
          (Reader.mk rest (some c)) [] with hl | hl
        · rw [hl]; exact Or.inl rfl
        · rw [hl]; exact Or.inr rfl
      · exact Or.inl rfl

theorem ParseWithin_agrees (limit : Nat) (br : Reader) :
    ParseWithin limit br = Parse br ∨ ParseWithin limit br = Run.panic Panic.makesliceLen :=
  ParseFuelWithin_agrees limit _ br

theorem readDecimal_length_prefix (b : Nat) (ds payload : List Nat) (lb : Option Nat)
    (hb : checkNum b = true) (hds : ∀ d ∈ ds, checkNum d = true)
    (hval : decimalValue (b :: ds) < 9223372036854775808) :
    readDecimal (Reader.mk (b :: ds ++ 58 :: payload) lb)
      = Run.done (((decimalValue (b :: ds) : Nat) : Int), (((b :: ds).length : Nat) : Int),
          Reader.mk (58 :: payload) none) := by
  have h58 : checkNum 58 = false := by decide
  have hr := readDecimal_digits 58 payload h58 b ds hb hds
    (by rw [digitsVal_zero]; exact hval) lb
  rw [digitsVal_zero] at hr
  exact hr

/-- C16 (amended): short read. The input is the ASCII digits `b :: ds`, denoting a length
`n`, then `:`, then a payload shorter than `n`, and nothing more; `n` is at most `limit`,
the largest length for which `make` returns a buffer (below `2 ^ 63`). `DecodeString`
returns `io.EOF` when the payload is empty and `io.ErrUnexpectedEOF` otherwise, with the
payload padded with zero bytes to length `n`, and `Parse` returns that error and no
value. -/
theorem decodeString_short_read (limit b : Nat) (ds payload : List Nat) (lb : Option Nat)
    (hb : checkNum b = true) (hds : ∀ d ∈ ds, checkNum d = true)
    (hlim : limit < 9223372036854775808)
    (hn : decimalValue (b :: ds) ≤ limit)
    (hshort : payload.length < decimalValue (b :: ds)) :
    DecodeStringWithin limit (Reader.mk (b :: ds ++ 58 :: payload) lb)
      = Run.done (payload ++ List.replicate (decimalValue (b :: ds) - payload.length) 0,
          some (if payload = [] then GoError.EOF else GoError.ErrUnexpectedEOF),
          Reader.mk [] (if payload = [] then some 58 else payload.getLast?))
    ∧ ParseWithin limit (Reader.mk (b :: ds ++ 58 :: payload) lb)
      = Run.done (Except.error (if payload = [] then GoError.EOF else GoError.ErrUnexpectedEOF),
          Reader.mk [] (if payload = [] then some 58 else payload.getLast?)) := by
  have hb' : 48 ≤ b ∧ b ≤ 57 := by simpa [checkNum] using hb
  have hdec : ∀ lb0, DecodeStringWithin limit (Reader.mk (b :: ds ++ 58 :: payload) lb0)
      = Run.done (payload ++ List.replicate (decimalValue (b :: ds) - payload.length) 0,
          some (if payload = [] then GoError.EOF else GoError.ErrUnexpectedEOF),
          Reader.mk [] (if payload = [] then some 58 else payload.getLast?)) := by
    intro lb0
    have hr := readDecimal_length_prefix b ds payload lb0 hb hds (by omega)
    have hlen : ¬ ((((b :: ds).length : Nat) : Int) = 0) := by simp; omega
    have hbad : ¬ ((((decimalValue (b :: ds) : Nat) : Int) < 0)
        ∨ (limit : Int) < ((decimalValue (b :: ds) : Nat) : Int)) := by omega
    simp only [DecodeStringWithin, hr, if_neg hlen, Reader.ReadByte, ne_eq, not_true_eq_false,
      if_false, if_neg hbad, Int.toNat_ofNat]
    rw [readAtLeast_short payload (some 58) _ hshort]
  refine ⟨hdec lb, ?_⟩
  have hd := hdec none
  simp only [List.cons_append] at hd
  simp only [ParseWithin, List.cons_append, List.length_cons, ParseFuelWithin, Reader.Peek1, hd]
  simp [hb'.1, hb'.2]

/-- C16 (amended), at the input `5:abc` with the limit of linux/amd64. -/
theorem decodeString_short_read_witness :
    DecodeStringWithin maxAlloc (Reader.mk (53 :: [] ++ 58 :: bytes "abc") none)
      = Run.done (bytes "abc" ++ List.replicate (decimalValue (53 :: []) - (bytes "abc").length) 0,
          some (if bytes "abc" = [] then GoError.EOF else GoError.ErrUnexpectedEOF),
          Reader.mk [] (if bytes "abc" = [] then some 58 else (bytes "abc").getLast?))
    ∧ ParseWithin maxAlloc (Reader.mk (53 :: [] ++ 58 :: bytes "abc") none)
      = Run.done (Except.error
            (if bytes "abc" = [] then GoError.EOF else GoError.ErrUnexpectedEOF),
          Reader.mk [] (if bytes "abc" = [] then some 58 else (bytes "abc").getLast?)) :=
  decodeString_short_read maxAlloc 53 [] (bytes "abc") none (by decide) (by decide)
    (by decide) (by decide) (by decide)

theorem decodeString_over_limit (limit b : Nat) (ds payload : List Nat) (lb : Option Nat)
    (hb : checkNum b = true) (hds : ∀ d ∈ ds, checkNum d = true)
    (hval : decimalValue (b :: ds) < 9223372036854775808)
    (hn : limit < decimalValue (b :: ds)) :
    DecodeStringWithin limit (Reader.mk (b :: ds ++ 58 :: payload) lb)
      = Run.panic Panic.makesliceLen
    ∧ ParseWithin limit (Reader.mk (b :: ds ++ 58 :: payload) lb)
      = Run.panic Panic.makesliceLen := by
  have hb' : 48 ≤ b ∧ b ≤ 57 := by simpa [checkNum] using hb
  have hdec : ∀ lb0, DecodeStringWithin limit (Reader.mk (b :: ds ++ 58 :: payload) lb0)
      = Run.panic Panic.makesliceLen := by
    intro lb0
    have hr := readDecimal_length_prefix b ds payload lb0 hb hds hval
    have hlen : ¬ ((((b :: ds).length : Nat) : Int) = 0) := by simp; omega
    have hbad : (((decimalValue (b :: ds) : Nat) : Int) < 0)
        ∨ (limit : Int) < ((decimalValue (b :: ds) : Nat) : Int) := by omega
    simp only [DecodeStringWithin, hr, if_neg hlen, Reader.ReadByte, ne_eq, not_true_eq_false,
      if_false, if_pos hbad]
  refine ⟨hdec lb, ?_⟩
  have hd := hdec none
  simp only [List.cons_append] at hd
  simp only [ParseWithin, List.cons_append, List.length_cons, ParseFuelWithin, Reader.Peek1, hd]
  simp [hb'.1, hb'.2]

set_option maxRecDepth 4000 in
/-- C16 (as stated, refuted): the digit run `18446744073709551619` denotes a length far
greater than the three bytes of payload that follow, yet the value wraps to `3` in 64 bits:
`DecodeString` returns `abc` with a nil error and `Parse` returns the string. The run
`9223372036854775807` does not wrap, and `make` panics on it before anything is read. -/
theorem short_read_fails :
    (bytes "abc").length < decimalValue (bytes "18446744073709551619")
    ∧ DecodeStringWithin maxAlloc (Reader.new (bytes "18446744073709551619:abc"))
        = Run.done (bytes "abc", none, Reader.mk [] (some 99))
    ∧ ParseWithin maxAlloc (Reader.new (bytes "18446744073709551619:abc"))
        = Run.done (Except.ok (BObject.mk BSTR (BValue.str (bytes "abc"))),
            Reader.mk [] (some 99))
    ∧ (bytes "abc").length < decimalValue (bytes "9223372036854775807")
    ∧ DecodeStringWithin maxAlloc (Reader.new (bytes "9223372036854775807:abc"))
        = Run.panic Panic.makesliceLen
    ∧ ParseWithin maxAlloc (Reader.new (bytes "9223372036854775807:abc"))
        = Run.panic Panic.makesliceLen := by
  refine ⟨?_, rfl, rfl, ?_, rfl, rfl⟩
  · rw [← digitsVal_zero]; decide
  · rw [← digitsVal_zero]; decide

set_option maxRecDepth 4000 in
/-- The examples of a short read, evaluated with the limit of linux/amd64; the unlimited
`DecodeString` and `Parse` agree on them. -/
theorem decodeString_short_read_examples :
    DecodeStringWithin maxAlloc (Reader.new (bytes "5:abc"))
      = Run.done (bytes "abc" ++ [0, 0], some GoError.ErrUnexpectedEOF, Reader.mk [] (some 99))
    ∧ DecodeStringWithin maxAlloc (Reader.new (bytes "5:"))
      = Run.done ([0, 0, 0, 0, 0], some GoError.EOF, Reader.mk [] (some 58))
    ∧ ParseWithin maxAlloc (Reader.new (bytes "5:abc"))
      = Run.done (Except.error GoError.ErrUnexpectedEOF, Reader.mk [] (some 99))
    ∧ DecodeString (Reader.new (bytes "5:abc"))
      = Run.done (bytes "abc" ++ [0, 0], some GoError.ErrUnexpectedEOF, Reader.mk [] (some 99))
    ∧ Parse (Reader.new (bytes "5:abc"))
      = Run.done (Except.error GoError.ErrUnexpectedEOF, Reader.mk [] (some 99)) := by
  exact ⟨rfl, rfl, rfl, rfl, rfl⟩

/-! ## A sign without digits, a negative length, in general -/

theorem readDecimal_lone_minus (c : Nat) (t : List Nat) (lb : Option Nat)
    (hc : checkNum c = false) :
    readDecimal (Reader.mk (45 :: c :: t) lb) = Run.done (0, 1, Reader.mk (c :: t) none) := by
  simp only [readDecimal, Reader.ReadByte, if_true, List.length_cons]
  simp only [readDecimal.loop, hc, Bool.not_false, if_true, Reader.UnreadByte]
  simp [wrap64]

theorem decodeString_negative_length (b : Nat) (ds t : List Nat) (lb : Option Nat)
    (hb : checkNum b = true) (hds : ∀ d ∈ ds, checkNum d = true)
    (hval : decimalValue (b :: ds) < 9223372036854775808) (hpos : 0 < decimalValue (b :: ds)) :
    DecodeString (Reader.mk (45 :: b :: ds ++ 58 :: t) lb) = Run.panic Panic.makesliceLen := by
  have h58 : checkNum 58 = false := by decide
  have hr := readDecimal_neg_digits 58 t h58 b ds hb hds
    (by rw [digitsVal_zero]; exact hval) lb
  rw [digitsVal_zero] at hr
  have hlen : ¬ ((((b :: ds).length : Nat) : Int) + 1 = 0) := by simp; omega
  have hneg : -((decimalValue (b :: ds) : Nat) : Int) < 0 := by omega
  simp only [DecodeString, hr, if_neg hlen, Reader.ReadByte, ne_eq, not_true_eq_false,
    if_false, if_pos hneg]

/-! ## Self-delimiting parse -/

/-- C19: self-delimiting parse. For a well-formed tree `v` (`typed`) without duplicate
keys whose integers and string lengths are below `10 ^ 18`, every enumeration order of the
maps and every trailing bytes `t`: `Bencode` writes bytes `out` and returns their number,
and `Parse` on a reader holding `out ++ t` returns a tree structurally equal to `v` and
leaves exactly `t` unread, so it has consumed the `out.length` bytes that `Bencode`
counted. -/
theorem parse_self_delimiting (order : List (List Nat) → List Nat)
    (hord : IsEnumeration order) (v : BObject) (ht : typed v = true)
    (hb : bounded v = true) (hd : distinctKeys v = true) (t : List Nat) (lb0 : Option Nat) :
    ∃ (out : List Nat) (v' : BObject) (lb : Option Nat),
      BObject.Bencode order v [] = Run.done ((out.length : Int), out)
      ∧ Parse (Reader.mk (out ++ t) lb0) = Run.done (Except.ok v', Reader.mk t lb)
      ∧ sameTree v v' := by
  obtain ⟨_, hp⟩ := parse_enc order hord v ht hb hd ((enc order v ++ t).length + 1)
    (by simp; omega)
  obtain ⟨lb, hp⟩ := hp t lb0
  refine ⟨enc order v, reenumerate order v, lb, ?_, ?_, sameTree_reenumerate order hord v hd⟩
  · simpa using Bencode_eq_enc order v ht hb []
  · simpa [Parse] using hp

/-- C19, at `sampleTree` with the maps enumerated in reverse insertion order, followed by
the bytes `i1e`. -/
theorem parse_self_delimiting_witness :
    ∃ (out : List Nat) (v' : BObject) (lb : Option Nat),
      BObject.Bencode reverseOrder sampleTree [] = Run.done ((out.length : Int), out)
      ∧ Parse (Reader.mk (out ++ bytes "i1e") none) = Run.done (Except.ok v', Reader.mk (bytes "i1e") lb)
      ∧ sameTree sampleTree v' :=
  parse_self_delimiting reverseOrder isEnumeration_reverseOrder sampleTree (by decide)
    (by decide) (by decide) (bytes "i1e") none

/-- Two values in a row, evaluated: `Parse` on `li7e3:abeei1e` returns the list and leaves
`i1e` unread. -/
theorem parse_self_delimiting_example :
    Parse (Reader.new (bytes "li7e3:abeei1e"))
      = Run.done (Except.ok (BObject.mk BLIST (BValue.list [BObject.mk BINT (BValue.int 7),
          BObject.mk BSTR (BValue.str (bytes "abe"))])), Reader.mk (bytes "i1e") (some 101)) :=
  rfl

/-! ## Termination -/

theorem unreadByte_spec (r : Reader) :
    r.UnreadByte.lastByte = none ∧ r.UnreadByte.buf.length = r.pending := by
  obtain ⟨buf, lb⟩ := r
  cases lb with
  | none => simp [Reader.UnreadByte, Reader.pending]
  | some c => simp [Reader.UnreadByte, Reader.pending]

theorem pending_of_none (buf : List Nat) : (Reader.mk buf none).pending = buf.length := by
  simp [Reader.pending]

theorem readAtLeast_length (r : Reader) (n : Nat) :
    (r.ReadAtLeast n).2.2.buf.length ≤ r.buf.length := by
  simp only [Reader.ReadAtLeast]
  split_ifs <;> simp

theorem readLoop_total (sign : Int) : ∀ (fuel : Nat) (r : Reader) (b : Nat) (val len : Int),
    r.buf.length + 2 ≤ fuel →
    ∃ (v n : Int) (r' : Reader), readDecimal.loop sign fuel r b val len = Run.done (v, n, r')
      ∧ r'.lastByte = none ∧ r'.buf.length ≤ r.pending := by
  intro fuel
  induction fuel with
  | zero => intro r b val len h; omega
  | succ fuel ih =>
    intro r b val len hf
    by_cases hb : checkNum b = true
    · obtain ⟨buf, lb⟩ := r
      cases buf with
      | nil =>
        obtain ⟨fuel, rfl⟩ : ∃ f, fuel = f + 1 := ⟨fuel - 1, by simp at hf; omega⟩
        have h0 : checkNum 0 = false := by decide
        refine ⟨wrap64 (sign * wrap64 (wrap64 (val * 10) + ((b : Int) - 48))), len + 1 - 1,
          (Reader.mk [] lb).UnreadByte, ?_, (unreadByte_spec _).1,
          le_of_eq (unreadByte_spec _).2⟩
        simp only [readDecimal.loop, hb, h0, Bool.not_true, Bool.not_false, if_true,
          Bool.false_eq_true, if_false, Reader.ReadByte]
      | cons c rest =>
        obtain ⟨v, n, r', h, h1, h2⟩ := ih (Reader.mk rest (some c)) c
          (wrap64 (wrap64 (val * 10) + ((b : Int) - 48))) (len + 1) (by simp at hf ⊢; omega)
        refine ⟨v, n, r', ?_, h1, ?_⟩
        · simp only [readDecimal.loop, hb, Bool.not_true, Bool.false_eq_true, if_false,
            Reader.ReadByte]
          exact h
        · simp [Reader.pending] at h2 ⊢
          omega
    · have hb' : checkNum b = false := by simpa using hb
      refine ⟨wrap64 (sign * val), len - 1, r.UnreadByte, ?_, (unreadByte_spec _).1,
        le_of_eq (unreadByte_spec _).2⟩
      simp only [readDecimal.loop, hb', Bool.not_false, if_true]

theorem readDecimal_total (r : Reader) :
    ∃ (v n : Int) (r' : Reader), readDecimal r = Run.done (v, n, r')
      ∧ r'.lastByte = none ∧ r'.buf.length ≤ r.pending := by
  obtain ⟨buf, lb⟩ := r
  cases buf with
  | nil =>
    obtain ⟨v, n, r', h, h1, h2⟩ := readLoop_total 1 2 (Reader.mk [] lb) 0 0 1 (by simp)
    refine ⟨v, n, r', ?_, h1, h2⟩
    simp only [readDecimal, Reader.ReadByte, List.length_nil]
    simpa using h
  | cons c rest =>
    by_cases hc : c = 45
    · subst hc
      cases rest with
      | nil =>
        obtain ⟨v, n, r', h, h1, h2⟩ := readLoop_total (-1) 3 (Reader.mk [] (some 45)) 0 0 (1 + 1)
          (by simp)
        refine ⟨v, n, r', ?_, h1, ?_⟩
        · simp only [readDecimal, Reader.ReadByte, List.length_cons, List.length_nil, if_true]
          simpa using h
        · simp [Reader.pending] at h2 ⊢
          omega
      | cons d rest =>
        obtain ⟨v, n, r', h, h1, h2⟩ := readLoop_total (-1) ((45 :: d :: rest).length + 2)
          (Reader.mk rest (some d)) d 0 (1 + 1) (by simp)
        refine ⟨v, n, r', ?_, h1, ?_⟩
        · simp only [readDecimal, Reader.ReadByte, if_true]
          exact h
        · simp [Reader.pending] at h2 ⊢
          omega
    · obtain ⟨v, n, r', h, h1, h2⟩ := readLoop_total 1 ((c :: rest).length + 2)
        (Reader.mk rest (some c)) c 0 1 (by simp)
      refine ⟨v, n, r', ?_, h1, ?_⟩
      · simp only [readDecimal, Reader.ReadByte, if_neg hc]
        exact h
      · simp [Reader.pending] at h2 ⊢
        omega

theorem DecodeString_total (br : Reader) : DecodeString br ≠ Run.outOfFuel := by
  obtain ⟨v, n, r', h, _, _⟩ := readDecimal_total br
  simp only [DecodeString, h]
  split_ifs <;> simp

theorem DecodeString_progress (br : Reader) (s : List Nat) (br' : Reader)
    (h : DecodeString br = Run.done (s, none, br')) : br'.buf.length < br.pending := by
  obtain ⟨v, n, r1, hr, _, hle⟩ := readDecimal_total br
  simp only [DecodeString, hr] at h
  obtain ⟨buf1, lb1⟩ := r1
  cases buf1 with
  | nil =>
    have h058 : (0 : Nat) ≠ 58 := by decide
    simp only [Reader.ReadByte, if_pos h058] at h
    split_ifs at h <;> simp at h
  | cons c rest =>
    simp only [Reader.ReadByte] at h
    split_ifs at h
    · simp at h
    · simp at h
    · simp only [Run.done.injEq, Prod.mk.injEq] at h
      have := readAtLeast_length (Reader.mk rest (some c)) v.toNat
      rw [h.2.2] at this
      simp at this hle
      omega

theorem DecodeInt_total (br : Reader) : DecodeInt br ≠ Run.outOfFuel := by
  unfold DecodeInt
  rcases hb : br.ReadByte with ⟨b, e, r1⟩
  obtain ⟨v, n, r', h, _, _⟩ := readDecimal_total r1
  simp only [h]
  rcases hb2 : r'.ReadByte with ⟨b2, e2, r2⟩
  simp only []
  split_ifs <;> simp

theorem DecodeInt_progress (br : Reader) (v : Int) (br' : Reader)
    (h : DecodeInt br = Run.done (v, none, br')) : br'.buf.length < br.buf.length := by
  obtain ⟨buf, lb⟩ := br
  cases buf with
  | nil => simp [DecodeInt, Reader.ReadByte] at h
  | cons c rest =>
    obtain ⟨v1, n, r1, hr, _, hle⟩ := readDecimal_total (Reader.mk rest (some c))
    simp only [DecodeInt, Reader.ReadByte, hr] at h
    obtain ⟨buf1, lb1⟩ := r1
    cases buf1 with
    | nil =>
      have h0101 : (0 : Nat) ≠ 101 := by decide
      simp only [if_pos h0101] at h
      split_ifs at h <;> simp at h
    | cons d rest1 =>
      split_ifs at h
      · simp at h
      · simp at h
      · simp only [Run.done.injEq, Prod.mk.injEq] at h
        rw [← h.2.2]
        simp [Reader.pending] at hle ⊢
        omega

theorem listLoop_progress (parse : Reader → Parsed)
    (hP : ∀ r x r', parse r = Run.done (Except.ok x, r') → r'.buf.length < r.buf.length) :
    ∀ (n : Nat) (br : Reader) (acc l : Objects) (br' : Reader),
    Parse.listLoop parse n br acc = Run.done (Except.ok l, br') →
    br'.buf.length < br.buf.length := by
  intro n
  induction n with
  | zero => intro br acc l br' h; simp [Parse.listLoop] at h
  | succ n ih =>
    intro br acc l br' h
    obtain ⟨buf, lb⟩ := br
    cases buf with
    | nil => simp [Parse.listLoop, Reader.Peek1] at h
    | cons c rest =>
      simp only [Parse.listLoop, Reader.Peek1] at h
      by_cases hc : c = 101
      · simp only [if_pos hc, Reader.ReadByte, Run.done.injEq, Prod.mk.injEq] at h
        rw [← h.2]
        simp
      · simp only [if_neg hc] at h
        cases hp : parse (Reader.mk (c :: rest) none) with
        | done a =>
          obtain ⟨res, r2⟩ := a
          cases res with
          | error e => simp [hp] at h
          | ok x =>
            simp only [hp] at h
            have h1 := ih r2 _ l br' h
            have h2 := hP _ _ _ hp
            simp at h2 ⊢
            omega
        | panic p => simp [hp] at h
        | outOfFuel => simp [hp] at h

theorem dictLoop_progress (parse : Reader → Parsed)
    (hP : ∀ r x r', parse r = Run.done (Except.ok x, r') → r'.buf.length < r.buf.length) :
    ∀ (n : Nat) (br : Reader) (acc l : Entries) (br' : Reader),
    Parse.dictLoop parse n br acc = Run.done (Except.ok l, br') →
    br'.buf.length < br.buf.length := by
  intro n
  induction n with
  | zero => intro br acc l br' h; simp [Parse.dictLoop] at h
  | succ n ih =>
    intro br acc l br' h
    obtain ⟨buf, lb⟩ := br
    cases buf with
    | nil => simp [Parse.dictLoop, Reader.Peek1] at h
    | cons c rest =>
      simp only [Parse.dictLoop, Reader.Peek1] at h
      by_cases hc : c = 101
      · simp only [if_pos hc, Reader.ReadByte, Run.done.injEq, Prod.mk.injEq] at h
        rw [← h.2]
        simp
      · simp only [if_neg hc] at h
        cases hk : DecodeString (Reader.mk (c :: rest) none) with
        | done a =>
          obtain ⟨key, err, r1⟩ := a
          cases err with
          | some e => simp [hk] at h
          | none =>
            simp only [hk] at h
            have hk1 := DecodeString_progress _ _ _ hk
            rw [pending_of_none] at hk1
            cases hp : parse r1 with
            | done a =>
              obtain ⟨res, r2⟩ := a
              cases res with
              | error e => simp [hp] at h
              | ok x =>
                simp only [hp] at h
                have h1 := ih r2 _ l br' h
                have h2 := hP _ _ _ hp
                simp at hk1 ⊢
                omega
            | panic p => simp [hp] at h
            | outOfFuel => simp [hp] at h
        | panic p => simp [hk] at h
        | outOfFuel => simp [hk] at h

theorem ParseFuel_progress : ∀ (f : Nat) (br : Reader) (x : BObject) (br' : Reader),
    ParseFuel f br = Run.done (Except.ok x, br') → br'.buf.length < br.buf.length := by
  intro f
  induction f with
  | zero => intro br x br' h; simp [ParseFuel] at h
  | succ f ih =>
    intro br x br' h
    obtain ⟨buf, lb⟩ := br
    cases buf with
    | nil => simp [ParseFuel, Reader.Peek1] at h
    | cons c rest =>
      simp only [ParseFuel, Reader.Peek1] at h
      split_ifs at h with h1 h2 h3 h4
      · cases hk : DecodeString (Reader.mk (c :: rest) none) with
        | done a =>
          obtain ⟨s, err, r1⟩ := a
          cases err with
          | some e => simp [hk] at h
          | none =>
            simp only [hk, Run.done.injEq, Prod.mk.injEq] at h
            have hk1 := DecodeString_progress _ _ _ hk
            rw [pending_of_none] at hk1
            rw [← h.2]
            exact hk1
        | panic p => simp [hk] at h
        | outOfFuel => simp [hk] at h
      · cases hk : DecodeInt (Reader.mk (c :: rest) none) with
        | done a =>
          obtain ⟨s, err, r1⟩ := a
          cases err with
          | some e => simp [hk] at h
          | none =>
            simp only [hk, Run.done.injEq, Prod.mk.injEq] at h
            have hk1 := DecodeInt_progress _ _ _ hk
            rw [← h.2]
            exact hk1
        | panic p => simp [hk] at h
        | outOfFuel => simp [hk] at h
      · simp only [Reader.ReadByte] at h
        cases hl : Parse.listLoop (ParseFuel f) f (Reader.mk rest (some c)) [] with
        | done a =>
          obtain ⟨res, r1⟩ := a
          cases res with
          | error e => simp [hl] at h
          | ok l =>
            simp only [hl, Run.done.injEq, Prod.mk.injEq] at h
            have := listLoop_progress (ParseFuel f) ih f _ _ _ _ hl
            rw [← h.2]
            simp at this ⊢
            omega
        | panic p => simp [hl] at h
        | outOfFuel => simp [hl] at h
      · simp only [Reader.ReadByte] at h
        cases hl : Parse.dictLoop (ParseFuel f) f (Reader.mk rest (some c)) [] with
        | done a =>
          obtain ⟨res, r1⟩ := a
          cases res with
          | error e => simp [hl] at h
          | ok l =>
            simp only [hl, Run.done.injEq, Prod.mk.injEq] at h
            have := dictLoop_progress (ParseFuel f) ih f _ _ _ _ hl
            rw [← h.2]
            simp at this ⊢
            omega
        | panic p => simp [hl] at h
        | outOfFuel => simp [hl] at h
      · simp at h

theorem listLoop_total (parse : Reader → Parsed) (m : Nat)
    (hT : ∀ r, r.buf.length < m → parse r ≠ Run.outOfFuel)
    (hP : ∀ r x r', parse r = Run.done (Except.ok x, r') → r'.buf.length < r.buf.length) :
    ∀ (n : Nat) (br : Reader) (acc : Objects), br.buf.length < n → n ≤ m →
    Parse.listLoop parse n br acc ≠ Run.outOfFuel := by
  intro n
  induction n with
  | zero => intro br acc h; omega
  | succ n ih =>
    intro br acc hn hm
    obtain ⟨buf, lb⟩ := br
    cases buf with
    | nil => simp [Parse.listLoop, Reader.Peek1]
    | cons c rest =>
      simp only [Parse.listLoop, Reader.Peek1]
      by_cases hc : c = 101
      · simp [hc]
      · simp only [if_neg hc]
        cases hp : parse (Reader.mk (c :: rest) none) with
        | done a =>
          obtain ⟨res, r2⟩ := a
          cases res with
          | error e => simp
          | ok x =>
            have h2 := hP _ _ _ hp
            simp only []
            refine ih r2 _ ?_ (by omega)
            simp at h2 hn
            omega
        | panic p => simp
        | outOfFuel =>
          exact absurd hp (hT _ (by simp at hn ⊢; omega))

theorem dictLoop_total (parse : Reader → Parsed) (m : Nat)
    (hT : ∀ r, r.buf.length < m → parse r ≠ Run.outOfFuel)
    (hP : ∀ r x r', parse r = Run.done (Except.ok x, r') → r'.buf.length < r.buf.length) :
    ∀ (n : Nat) (br : Reader) (acc : Entries), br.buf.length < n → n ≤ m →
    Parse.dictLoop parse n br acc ≠ Run.outOfFuel := by
  intro n
  induction n with
  | zero => intro br acc h; omega
  | succ n ih =>
    intro br acc hn hm
    obtain ⟨buf, lb⟩ := br
    cases buf with
    | nil => simp [Parse.dictLoop, Reader.Peek1]
    | cons c rest =>
      simp only [Parse.dictLoop, Reader.Peek1]
      by_cases hc : c = 101
      · simp [hc]
      · simp only [if_neg hc]
        cases hk : DecodeString (Reader.mk (c :: rest) none) with
        | done a =>
          obtain ⟨key, err, r1⟩ := a
          cases err with
          | some e => simp
          | none =>
            have hk1 := DecodeString_progress _ _ _ hk
            rw [pending_of_none] at hk1
            simp only []
            cases hp : parse r1 with
            | done a =>
              obtain ⟨res, r2⟩ := a
              cases res with
              | error e => simp
              | ok x =>
                have h2 := hP _ _ _ hp
                simp only []
                refine ih r2 _ ?_ (by omega)
                simp at hk1 hn
                omega
            | panic p => simp
            | outOfFuel =>
              exact absurd hp (hT _ (by simp at hn hk1 ⊢; omega))
        | panic p => simp
        | outOfFuel => exact absurd hk (DecodeString_total _)

theorem ParseFuel_total : ∀ (f : Nat) (br : Reader), br.buf.length < f →
    ParseFuel f br ≠ Run.outOfFuel := by
  intro f
  induction f with
  | zero => intro br h; omega
  | succ f ih =>
    intro br hf
    obtain ⟨buf, lb⟩ := br
    cases buf with
    | nil => simp [ParseFuel, Reader.Peek1]
    | cons c rest =>
      simp only [ParseFuel, Reader.Peek1]
      simp only [List.length_cons] at hf
      split_ifs with h1 h2 h3 h4
      · cases hk : DecodeString (Reader.mk (c :: rest) none) with
        | done a =>
          obtain ⟨s, err, r1⟩ := a
          cases err <;> simp
        | panic p => simp
        | outOfFuel => exact absurd hk (DecodeString_total _)
      · cases hk : DecodeInt (Reader.mk (c :: rest) none) with
        | done a =>
          obtain ⟨s, err, r1⟩ := a
          cases err <;> simp
        | panic p => simp
        | outOfFuel => exact absurd hk (DecodeInt_total _)
      · simp only [Reader.ReadByte]
        cases hl : Parse.listLoop (ParseFuel f) f (Reader.mk rest (some c)) [] with
        | done a =>
          obtain ⟨res, r1⟩ := a
          cases res <;> simp
        | panic p => simp
        | outOfFuel =>
          exact absurd hl (listLoop_total (ParseFuel f) f ih (ParseFuel_progress f) f _ _
            (by simp; omega) (le_refl _))
      · simp only [Reader.ReadByte]
        cases hl : Parse.dictLoop (ParseFuel f) f (Reader.mk rest (some c)) [] with
        | done a =>
          obtain ⟨res, r1⟩ := a
          cases res <;> simp
        | panic p => simp
        | outOfFuel =>
          exact absurd hl (dictLoop_total (ParseFuel f) f ih (ParseFuel_progress f) f _ _
            (by simp; omega) (le_refl _))
      · simp

theorem listLoop_stable (p p' : Reader → Parsed)
    (hp : ∀ r, p r ≠ Run.outOfFuel → p' r = p r) :
    ∀ (f F : Nat) (r : Reader) (acc : Objects), f ≤ F →
    Parse.listLoop p f r acc ≠ Run.outOfFuel →
    Parse.listLoop p' F r acc = Parse.listLoop p f r acc := by
  intro f
  induction f with
  | zero => intro F r acc _ h; simp [Parse.listLoop] at h
  | succ f ih =>
    intro F r acc hF h
    obtain ⟨F, rfl⟩ : ∃ G, F = G + 1 := ⟨F - 1, by omega⟩
    obtain ⟨buf, lb⟩ := r
    cases buf with
    | nil => simp [Parse.listLoop, Reader.Peek1]
    | cons c rest =>
      simp only [Parse.listLoop, Reader.Peek1] at h ⊢
      by_cases hc : c = 101
      · simp [hc]
      · simp only [if_neg hc] at h ⊢
        have hq' := hp (Reader.mk (c :: rest) none)
        cases hq : p (Reader.mk (c :: rest) none) with
        | done a =>
          obtain ⟨res, r2⟩ := a
          rw [hq] at hq' h
          rw [hq' (by simp)]
          cases res with
          | error e => rfl
          | ok x => exact ih F r2 _ (by omega) h
        | panic q =>
          rw [hq] at hq'
          rw [hq' (by simp)]
        | outOfFuel => rw [hq] at h; simp at h

theorem dictLoop_stable (p p' : Reader → Parsed)
    (hp : ∀ r, p r ≠ Run.outOfFuel → p' r = p r) :
    ∀ (f F : Nat) (r : Reader) (acc : Entries), f ≤ F →
    Parse.dictLoop p f r acc ≠ Run.outOfFuel →
    Parse.dictLoop p' F r acc = Parse.dictLoop p f r acc := by
  intro f
  induction f with
  | zero => intro F r acc _ h; simp [Parse.dictLoop] at h
  | succ f ih =>
    intro F r acc hF h
    obtain ⟨F, rfl⟩ : ∃ G, F = G + 1 := ⟨F - 1, by omega⟩
    obtain ⟨buf, lb⟩ := r
    cases buf with
    | nil => simp [Parse.dictLoop, Reader.Peek1]
    | cons c rest =>
      simp only [Parse.dictLoop, Reader.Peek1] at h ⊢
      by_cases hc : c = 101
      · simp [hc]
      · simp only [if_neg hc] at h ⊢
        cases hk : DecodeString (Reader.mk (c :: rest) none) with
        | done a =>
          obtain ⟨key, err, r1⟩ := a
          rw [hk] at h
          cases err with
          | some e => rfl
          | none =>
            simp only [] at h ⊢
            have hq' := hp r1
            cases hq : p r1 with
            | done a =>
              obtain ⟨res, r2⟩ := a
              rw [hq] at hq' h
              rw [hq' (by simp)]
              cases res with
              | error e => rfl
              | ok x => exact ih F r2 _ (by omega) h
            | panic q =>
              rw [hq] at hq'
              rw [hq' (by simp)]
            | outOfFuel => rw [hq] at h; simp at h
        | panic q => rfl
        | outOfFuel => rfl

theorem ParseFuel_stable : ∀ (f F : Nat) (r : Reader), f ≤ F →
    ParseFuel f r ≠ Run.outOfFuel → ParseFuel F r = ParseFuel f r := by
  intro f
  induction f with
  | zero => intro F r _ h; simp [ParseFuel] at h
  | succ f ih =>
    intro F r hF h
    obtain ⟨F, rfl⟩ : ∃ G, F = G + 1 := ⟨F - 1, by omega⟩
    have hst : ∀ r, ParseFuel f r ≠ Run.outOfFuel → ParseFuel F r = ParseFuel f r :=
      fun r hr => ih F r (by omega) hr
    obtain ⟨buf, lb⟩ := r
    cases buf with
    | nil => simp [ParseFuel, Reader.Peek1]
    | cons c rest =>
      simp only [ParseFuel, Reader.Peek1] at h ⊢
      split_ifs at h ⊢ with h1 h2 h3 h4
      · rfl
      · rfl
      · simp only [Reader.ReadByte] at h ⊢
        have hl : Parse.listLoop (ParseFuel f) f (Reader.mk rest (some c)) []
            ≠ Run.outOfFuel := by
          intro e; rw [e] at h; simp at h
        rw [listLoop_stable _ _ hst f F _ _ (by omega) hl]
      · simp only [Reader.ReadByte] at h ⊢
        have hl : Parse.dictLoop (ParseFuel f) f (Reader.mk rest (some c)) []
            ≠ Run.outOfFuel := by
          intro e; rw [e] at h; simp at h
        rw [dictLoop_stable _ _ hst f F _ _ (by omega) hl]
      · rfl

theorem listLoop_iteration (f n : Nat) (br : Reader) (acc : Objects)
    (hf : br.buf.length < f) :
    (∃ p, Parse.listLoop (ParseFuel f) (n + 1) br acc = Run.panic p)
    ∨ (∃ err br', Parse.listLoop (ParseFuel f) (n + 1) br acc
        = Run.done (Except.error err, br'))
    ∨ (∃ br', Parse.listLoop (ParseFuel f) (n + 1) br acc = Run.done (Except.ok acc, br')
        ∧ br'.buf.length < br.buf.length)
    ∨ (∃ elem br', br'.buf.length < br.buf.length
        ∧ Parse.listLoop (ParseFuel f) (n + 1) br acc
            = Parse.listLoop (ParseFuel f) n br' (acc ++ [elem])) := by
  obtain ⟨buf, lb⟩ := br
  cases buf with
  | nil => exact Or.inl ⟨Panic.indexOutOfRange, by simp [Parse.listLoop, Reader.Peek1]⟩
  | cons c rest =>
    simp only [Parse.listLoop, Reader.Peek1]
    by_cases hc : c = 101
    · refine Or.inr (Or.inr (Or.inl ⟨Reader.mk rest (some c), ?_, by simp⟩))
      simp [hc, Reader.ReadByte]
    · simp only [if_neg hc]
      cases hp : ParseFuel f (Reader.mk (c :: rest) none) with
      | done a =>
        obtain ⟨res, r2⟩ := a
        cases res with
        | error e => exact Or.inr (Or.inl ⟨e, r2, rfl⟩)
        | ok x =>
          exact Or.inr (Or.inr (Or.inr ⟨x, r2, by simpa using ParseFuel_progress _ _ _ _ hp,
            rfl⟩))
      | panic p => exact Or.inl ⟨p, rfl⟩
      | outOfFuel => exact absurd hp (ParseFuel_total f _ (by simpa using hf))

theorem dictLoop_iteration (f n : Nat) (br : Reader) (acc : Entries)
    (hf : br.buf.length < f) :
    (∃ p, Parse.dictLoop (ParseFuel f) (n + 1) br acc = Run.panic p)
    ∨ (∃ err br', Parse.dictLoop (ParseFuel f) (n + 1) br acc
        = Run.done (Except.error err, br'))
    ∨ (∃ br', Parse.dictLoop (ParseFuel f) (n + 1) br acc = Run.done (Except.ok acc, br')
        ∧ br'.buf.length < br.buf.length)
    ∨ (∃ key val br', br'.buf.length < br.buf.length
        ∧ Parse.dictLoop (ParseFuel f) (n + 1) br acc
            = Parse.dictLoop (ParseFuel f) n br' (mapAssign acc key val)) := by
  obtain ⟨buf, lb⟩ := br
  cases buf with
  | nil => exact Or.inl ⟨Panic.indexOutOfRange, by simp [Parse.dictLoop, Reader.Peek1]⟩
  | cons c rest =>
    simp only [Parse.dictLoop, Reader.Peek1]
    by_cases hc : c = 101
    · refine Or.inr (Or.inr (Or.inl ⟨Reader.mk rest (some c), ?_, by simp⟩))
      simp [hc, Reader.ReadByte]
    · simp only [if_neg hc]
      cases hk : DecodeString (Reader.mk (c :: rest) none) with
      | done a =>
        obtain ⟨key, err, r1⟩ := a
        cases err with
        | some e => exact Or.inr (Or.inl ⟨e, r1, rfl⟩)
        | none =>
          have hk1 := DecodeString_progress _ _ _ hk
          rw [pending_of_none] at hk1
          simp only []
          cases hp : ParseFuel f r1 with
          | done a =>
            obtain ⟨res, r2⟩ := a
            cases res with
            | error e => exact Or.inr (Or.inl ⟨e, r2, rfl⟩)
            | ok x =>
              have h2 := ParseFuel_progress _ _ _ _ hp
              exact Or.inr (Or.inr (Or.inr ⟨key, x, r2, by simp at hk1 ⊢; omega, rfl⟩))
          | panic p => exact Or.inl ⟨p, rfl⟩
          | outOfFuel =>
            exact absurd hp (ParseFuel_total f _ (by simp at hf hk1; omega))
      | panic p => exact Or.inl ⟨p, rfl⟩
      | outOfFuel => exact absurd hk (DecodeString_total _)

/-- C17: `Parse` terminates on every finite input. With more fuel than there are unread
bytes `ParseFuel` never runs out of fuel, and it returns what `Parse` returns: `Parse`
ends, in a result or in a run-time failure (a lookahead past the end, or a negative buffer
size), on every reader. The reason is progress: a successful `DecodeString` on a reader
fresh from a `Peek` and a successful `Parse` leave strictly fewer bytes unread; and one
round of the list loop or of the dictionary loop fails at run time, or returns an error,
or consumes the closing `e` and returns, or goes on with strictly fewer bytes unread. -/
theorem parse_terminates :
    (∀ (fuel : Nat) (br : Reader), br.buf.length < fuel →
      ParseFuel fuel br ≠ Run.outOfFuel ∧ ParseFuel fuel br = Parse br)
    ∧ (∀ br : Reader, (∃ res, Parse br = Run.done res) ∨ (∃ p, Parse br = Run.panic p))
    ∧ (∀ (buf s : List Nat) (br' : Reader),
        DecodeString (Reader.mk buf none) = Run.done (s, none, br') →
        br'.buf.length < buf.length)
    ∧ (∀ (br : Reader) (x : BObject) (br' : Reader),
        Parse br = Run.done (Except.ok x, br') → br'.buf.length < br.buf.length)
    ∧ (∀ (fuel n : Nat) (br : Reader) (acc : Objects), br.buf.length < fuel →
        (∃ p, Parse.listLoop (ParseFuel fuel) (n + 1) br acc = Run.panic p)
        ∨ (∃ err br', Parse.listLoop (ParseFuel fuel) (n + 1) br acc
            = Run.done (Except.error err, br'))
        ∨ (∃ br', Parse.listLoop (ParseFuel fuel) (n + 1) br acc
              = Run.done (Except.ok acc, br')
            ∧ br'.buf.length < br.buf.length)
        ∨ (∃ elem br', br'.buf.length < br.buf.length
            ∧ Parse.listLoop (ParseFuel fuel) (n + 1) br acc
                = Parse.listLoop (ParseFuel fuel) n br' (acc ++ [elem])))
    ∧ (∀ (fuel n : Nat) (br : Reader) (acc : Entries), br.buf.length < fuel →
        (∃ p, Parse.dictLoop (ParseFuel fuel) (n + 1) br acc = Run.panic p)
        ∨ (∃ err br', Parse.dictLoop (ParseFuel fuel) (n + 1) br acc
            = Run.done (Except.error err, br'))
        ∨ (∃ br', Parse.dictLoop (ParseFuel fuel) (n + 1) br acc
              = Run.done (Except.ok acc, br')
            ∧ br'.buf.length < br.buf.length)
        ∨ (∃ key val br', br'.buf.length < br.buf.length
            ∧ Parse.dictLoop (ParseFuel fuel) (n + 1) br acc
                = Parse.dictLoop (ParseFuel fuel) n br' (mapAssign acc key val))) := by
  refine ⟨?_, ?_, ?_, ?_, listLoop_iteration, dictLoop_iteration⟩
  · intro fuel br hf
    refine ⟨ParseFuel_total fuel br hf, ?_⟩
    exact ParseFuel_stable (br.buf.length + 1) fuel br (by omega)
      (ParseFuel_total _ br (by omega))
  · intro br
    have h := ParseFuel_total (br.buf.length + 1) br (by omega)
    unfold Parse
    cases hp : ParseFuel (br.buf.length + 1) br with
    | done a => exact Or.inl ⟨a, rfl⟩
    | panic p => exact Or.inr ⟨p, rfl⟩
    | outOfFuel => exact absurd hp h
  · intro buf s br' h
    simpa [Reader.pending] using DecodeString_progress _ _ _ h
  · intro br x br' h
    exact ParseFuel_progress _ _ _ _ h

end bencode
